import Mathlib

/-!
# Bit-packed serialization codec of `rlwe/bit_stream.go`

A shallow embedding of the bit stream writer/reader, the polynomial codec, the ciphertext-family
codecs and the composite key codecs of `rlwe/bit_stream.go`, and of the `ToBytes`/`FromBytes`
wrappers of `bfv/ciphertext.go` and `ckks/ciphertext.go`, followed by the properties established
about them.

Conventions of the embedding:
* a Go `uint8` / `uint64` is a `Nat`; wrap-around is written out with `% 256` / `% 2 ^ 64`;
* a `bytes.Buffer` that is only appended to is the `List Nat` of the bytes appended so far;
* a `bytes.Reader` is the pair of its backing slice and its read index;
* a Go run-time panic (index out of range) is `none` in `Option`;
* where the effect of a call on memory is at stake, memory is a store of cells addressed by
  index, a slice is an address with an offset and a length, and every read, allocation and
  assignment is a function on the store (`poly_to_bytes_store`);
* a Go map is the list of its entries, and the order in which a `range` loop visits them is an
  argument of the function that runs the loop;
* a `float64` is its IEEE-754 bit pattern;
* `ring.Poly`, `ringqp.Poly`, `rlwe.Ciphertext`, `rlwe.CompressedCiphertext`, `rlwe.SecretKey`,
  `rlwe.CiphertextQP`, `rlwe.GadgetCiphertext`, `rlwe.SwitchingKey`, `rlwe.RelinearizationKey`,
  `rlwe.RotationKeySet` and `rlwe.Parameters`, whose files are not among the sources, are
  modelled from the specification as far as the codec uses them.
-/

namespace BitStream

/-! ## Go standard library: `bytes.Buffer`, `bytes.Reader`, `encoding/binary`, `math/bits` -/

/-- The bytes held by a `bytes.Buffer` that is only ever appended to. -/
abbrev Writer := List Nat

/-- Go `(*bytes.Buffer).WriteByte`: append one byte. -/
def WriteByte (w : Writer) (b : Nat) : Writer := w ++ [b]

/-- A `bytes.Reader`: the backing slice `s` and the current reading index `i`. -/
structure Reader where
  s : List Nat
  i : Nat
deriving DecidableEq, Repr

/-- Go `bytes.NewReader(s)`. -/
def NewReader (s : List Nat) : Reader := ⟨s, 0⟩

/-- Go `(*bytes.Reader).ReadByte` with the error discarded (`b, _ = reader.ReadByte()`):
at the end of the slice it returns the zero byte and leaves the index alone. -/
def ReadByte (r : Reader) : Nat × Reader :=
  if r.i ≥ r.s.length then (0, r) else (r.s.getD r.i 0, { r with i := r.i + 1 })

/-- Go `(*bytes.Reader).UnreadByte` with the error discarded: the index steps back by one
unless it is already at the beginning of the slice. -/
def UnreadByte (r : Reader) : Reader :=
  if r.i ≤ 0 then r else { r with i := r.i - 1 }

/-- Go `binary.Write(writer, binary.LittleEndian, v)` for a `bool`: one byte, 1 or 0. -/
def WriteBool (w : Writer) (v : Bool) : Writer := WriteByte w (if v then 1 else 0)

/-- Go `binary.Read(reader, binary.LittleEndian, &flag)` for a `*bool` with the error discarded:
one byte is read and the flag becomes `byte != 0`; at the end of the slice the flag keeps the
value `old` it had. -/
def ReadBool (r : Reader) (old : Bool) : Bool × Reader :=
  if r.i ≥ r.s.length then (old, r) else (r.s.getD r.i 0 != 0, { r with i := r.i + 1 })

/-- Go `binary.Write(writer, binary.LittleEndian, uint32(N))`: four bytes, least significant first. -/
def WriteUint32 (w : Writer) (N : Nat) : Writer :=
  let v := N % 2 ^ 32
  w ++ [v % 256, (v >>> 8) % 256, (v >>> 16) % 256, (v >>> 24) % 256]

/-- Go `binary.Read(reader, binary.LittleEndian, &N32)` for a `*uint32` holding `0`, error discarded:
`io.ReadFull` takes four bytes; when fewer remain it consumes what is left and the variable
keeps its zero value. -/
def ReadUint32 (r : Reader) : Nat × Reader :=
  if r.i + 4 ≤ r.s.length then
    (r.s.getD r.i 0 + 256 * r.s.getD (r.i + 1) 0 + 65536 * r.s.getD (r.i + 2) 0
        + 16777216 * r.s.getD (r.i + 3) 0, { r with i := r.i + 4 })
  else (0, { r with i := max r.i r.s.length })

/-- Bit length of `x` by repeated halving, at most `fuel` halvings. -/
def Len64Aux : Nat → Nat → Nat
  | 0, _ => 0
  | fuel + 1, x => if x = 0 then 0 else 1 + Len64Aux fuel (x / 2)

/-- Go `bits.Len64` on a `uint64`: the minimum number of bits needed to represent `x`;
0 for `x = 0`. -/
def Len64 (x : Nat) : Nat := Len64Aux 64 (x % 2 ^ 64)

/-! ## `component_to_bytes` and `bytes_to_component` -/

/-- The table `byte_mask := [9]byte{0b0, 0b1, ..., 0b11111111}` as a function of the index.
Every index the code uses is in `1..8` or `0..7` (see `n_low_bit_eq`, `n_high_bit_le`);
outside `0..8` the function is 0 by convention. -/
def byte_mask (k : Nat) : Nat := [0, 1, 3, 7, 15, 31, 63, 127, 255].getD k 0

/-- Go `n_low_bit := 8 - bit_offset` in `uint8` arithmetic. -/
def n_low_bit (bit_offset : Nat) : Nat := (256 + 8 - bit_offset % 256) % 256

/-- Go `n_high_bit := (bit_length - n_low_bit) % 8` in `uint8` arithmetic. -/
def n_high_bit (bit_length bit_offset : Nat) : Nat :=
  ((256 + bit_length % 256 - n_low_bit bit_offset) % 256) % 8

/-- Go `n_full_byte := (bit_length - n_low_bit - n_high_bit) / 8` in `uint8` arithmetic. -/
def n_full_byte (bit_length bit_offset : Nat) : Nat :=
  ((512 + bit_length % 256 - n_low_bit bit_offset - n_high_bit bit_length bit_offset) % 256) / 8

/-- The inner loop of the writer, `for j < n_full_byte { writer.WriteByte(byte(x)); x >>= 8 }`,
run `n` times; returns the shifted `x` and the writer. -/
def write_full_bytes : Nat → Nat → Writer → Nat × Writer
  | 0, x, w => (x, w)
  | n + 1, x, w => write_full_bytes n (x >>> 8) (WriteByte w (x % 256))

/-- The outer loop of `component_to_bytes` over the values still to be written, from the carry
byte `b` and `bit_offset`; returns the final `b`, `bit_offset` and writer. -/
def component_to_bytes_loop (bit_length : Nat) : List Nat → Nat → Nat → Writer → Nat × Nat × Writer
  | [], b, bit_offset, w => (b, bit_offset, w)
  | x :: rest, b, bit_offset, w =>
    let nl := n_low_bit bit_offset
    let nh := n_high_bit bit_length bit_offset
    let nf := n_full_byte bit_length bit_offset
    let x_low := (x % 256) &&& byte_mask nl
    let b1 := b ||| ((x_low <<< bit_offset) % 256)
    let w1 := WriteByte w b1
    let x1 := x >>> nl
    let xw := write_full_bytes nf x1 w1
    component_to_bytes_loop bit_length rest (xw.1 % 256) nh xw.2

/-- Go `component_to_bytes(src, bit_length, writer)`; returns the writer after the call. -/
def component_to_bytes (src : List Nat) (bit_length : Nat) (w : Writer) : Writer :=
  let r := component_to_bytes_loop bit_length src 0 0 w
  if r.2.1 > 0 then WriteByte r.2.2 r.1 else r.2.2

/-- The inner loop of the reader,
`for j < n_full_byte { x |= uint64(b) << n_shift; b, _ = reader.ReadByte(); n_shift += 8 }`,
run `n` times on `(x, b, n_shift, reader)`; `n_shift` is a `uint8`, `x` a `uint64`. -/
def read_full_bytes : Nat → Nat → Nat → Nat → Reader → Nat × Nat × Nat × Reader
  | 0, x, b, n_shift, r => (x, b, n_shift, r)
  | n + 1, x, b, n_shift, r =>
    let x1 := x ||| ((b <<< n_shift) % 2 ^ 64)
    let br := ReadByte r
    read_full_bytes n x1 br.1 ((n_shift + 8) % 256) br.2

/-- The outer loop of `bytes_to_component` for the `n` values still to be read, from the
look-ahead byte `b` and `bit_offset`; returns the values read, the final `bit_offset` and reader. -/
def bytes_to_component_loop (bit_length : Nat) : Nat → Nat → Nat → Reader → List Nat × Nat × Reader
  | 0, _, bit_offset, r => ([], bit_offset, r)
  | n + 1, b, bit_offset, r =>
    let nl := n_low_bit bit_offset
    let nh := n_high_bit bit_length bit_offset
    let nf := n_full_byte bit_length bit_offset
    let x0 := b >>> bit_offset
    let br := ReadByte r
    let st := read_full_bytes nf x0 br.1 nl br.2
    let x := st.1 ||| (((st.2.1 &&& byte_mask nh) <<< st.2.2.1) % 2 ^ 64)
    let res := bytes_to_component_loop bit_length n st.2.1 nh st.2.2.2
    (x :: res.1, res.2.1, res.2.2)

/-- Go `bytes_to_component(reader, bit_length, dest)` for a destination of length `N`;
returns the reader after the call and the contents of `dest`. -/
def bytes_to_component (r : Reader) (bit_length : Nat) (N : Nat) : Reader × List Nat :=
  let br := ReadByte r
  let res := bytes_to_component_loop bit_length N br.1 0 br.2
  (if res.2.1 = 0 then UnreadByte res.2.2 else res.2.2, res.1)

/-! ## Polynomials, ciphertexts and parameters -/

/-- Modelled from the spec: `ring.Poly` (package `ring` is not among the sources): `level+1`
parallel residue arrays of length N together with the transform-domain and Montgomery-form
flags. `Coeffs[j]` is limb `j`; `Buff`, the backing array of `Coeffs`, carries no information
of its own and is left out. -/
structure Poly where
  Coeffs : List (List Nat)
  IsNTT : Bool
  IsMForm : Bool
deriving DecidableEq, Repr

/-- Modelled from the spec: `(*ring.Poly).N`, the length of limb 0; indexing limb 0 of a
polynomial without limbs is a panic. -/
def Poly.N (p : Poly) : Option Nat :=
  match p.Coeffs with
  | [] => none
  | c :: _ => some c.length

/-- Modelled from the spec: `(*ring.Poly).Level`, the number of limbs minus one. Every
function below obtains `N()` of the same polynomial, which panics when there is no limb, so
the value for a polynomial without limbs is never observed. -/
def Poly.Level (p : Poly) : Nat := p.Coeffs.length - 1

/-- Go `new(ring.Poly)`: no limbs, both flags false. -/
def Poly.new : Poly := ⟨[], false, false⟩

/-- Modelled from the spec: `rlwe.Ciphertext`, an ordered list of `degree+1` polynomials. -/
structure Ciphertext where
  Value : List Poly
deriving DecidableEq, Repr

/-- Modelled from the spec: `rlwe.Parameters` as far as the codec consults it: the modulus
chains `Q()` and `P()` and the ring degree `N()`. -/
structure Parameters where
  Q : List Nat
  P : List Nat
  N : Nat
deriving DecidableEq, Repr

/-! ## `poly_to_bytes` and `bytes_to_poly` -/

/-- The value packed for a coefficient on the precision-dropping path,
`(component[k] >> n_drop_bit) + ((component[k] >> (n_drop_bit - 1)) & 1)` in `uint64`. -/
def quantize (n_drop_bit c : Nat) : Nat :=
  ((c >>> n_drop_bit) + ((c >>> (n_drop_bit - 1)) &&& 1)) % 2 ^ 64

/-- The copy `component_shift` of a limb: `component_shift[k]` is computed from `component[k]`
for `k < N`, which panics when the limb has fewer than `N` entries. -/
def component_shift (N n_drop_bit : Nat) (component : List Nat) : Option (List Nat) :=
  if N ≤ component.length then some ((component.take N).map (quantize n_drop_bit)) else none

/-- The loop `for j, component := range poly.Coeffs` of `poly_to_bytes` over the limbs still to
be written, `j` being the index of the first of them. -/
def poly_to_bytes_loop (N level : Nat) (q_bit_lengths : List Nat) (n_drop_bit : Nat) :
    List (List Nat) → Nat → Writer → Option Writer
  | [], _, w => some w
  | component :: rest, j, w =>
    match q_bit_lengths[j]? with
    | none => none
    | some bit_length =>
      if level = 0 ∧ n_drop_bit ≠ 0 then
        match component_shift N n_drop_bit component with
        | none => none
        | some shifted =>
          poly_to_bytes_loop N level q_bit_lengths n_drop_bit rest (j + 1)
            (component_to_bytes shifted ((256 + bit_length % 256 - n_drop_bit % 256) % 256) w)
      else
        poly_to_bytes_loop N level q_bit_lengths n_drop_bit rest (j + 1)
          (component_to_bytes component bit_length w)

/-- Go `poly_to_bytes(poly, q_bit_lengths, n_drop_bit, writer)` on the values of the polynomial:
the result is the polynomial it was given and the writer after the call. What the call does to
the memory that holds the polynomial is the subject of `poly_to_bytes_store` below. -/
def poly_to_bytes (poly : Poly) (q_bit_lengths : List Nat) (n_drop_bit : Nat) (w : Writer) :
    Option (Poly × Writer) :=
  match poly.N with
  | none => none
  | some N =>
    let level := poly.Level
    let w1 := WriteBool w poly.IsNTT
    let w2 := WriteBool w1 poly.IsMForm
    let w3 := WriteByte w2 n_drop_bit
    match poly_to_bytes_loop N level q_bit_lengths n_drop_bit poly.Coeffs 0 w3 with
    | none => none
    | some w4 => some (poly, w4)

/-- The loop `for j := 0; j < level+1; j++` of `bytes_to_poly` for the `n` limbs still to be
read, `j` being the index of the first of them; returns the reader and the limbs read. -/
def bytes_to_poly_loop (N level : Nat) (q_bit_lengths : List Nat) (n_drop_bit : Nat) :
    Nat → Nat → Reader → Option (Reader × List (List Nat))
  | 0, _, r => some (r, [])
  | n + 1, j, r =>
    match q_bit_lengths[j]? with
    | none => none
    | some bit_length =>
      let bl := if level = 0 ∧ n_drop_bit ≠ 0
        then (256 + bit_length % 256 - n_drop_bit % 256) % 256
        else bit_length
      let rd := bytes_to_component r bl N
      let limb := if level = 0 ∧ n_drop_bit ≠ 0
        then rd.2.map (fun c => (c <<< n_drop_bit) % 2 ^ 64) else rd.2
      match bytes_to_poly_loop N level q_bit_lengths n_drop_bit n (j + 1) rd.1 with
      | none => none
      | some res => some (res.1, limb :: res.2)

/-- Go `bytes_to_poly(reader, N, level, q_bit_lengths, poly)`; `N` and `level` are the
non-negative `int`s the callers convert from header fields. Returns the reader and the
polynomial after the call. -/
def bytes_to_poly (r : Reader) (N level : Nat) (q_bit_lengths : List Nat) (poly : Poly) :
    Option (Reader × Poly) :=
  let f1 := ReadBool r poly.IsNTT
  let f2 := ReadBool f1.2 poly.IsMForm
  let d := ReadByte f2.2
  match bytes_to_poly_loop N level q_bit_lengths d.1 (level + 1) 0 d.2 with
  | none => none
  | some res => some (res.1, ⟨res.2, f1.1, f2.1⟩)

/-! ## `poly_to_bytes` with the memory it works on made explicit -/

/-- A Go slice of `uint64`: the address of its backing array in the store, the offset of its
first element in that array, and its length. -/
structure Slice where
  addr : Nat
  off : Nat
  len : Nat
deriving DecidableEq, Repr

/-- A cell of the store: a backing array of `uint64`s, or a `ring.Poly` structure with its limb
slices `Coeffs` and its two flags (modelled from the spec, as `Poly`). -/
inductive Cell where
  | array (xs : List Nat)
  | poly (Coeffs : List Slice) (IsNTT IsMForm : Bool)
deriving DecidableEq, Repr

/-- The memory a call works on: the cell at index `a` is the object at address `a`. -/
abbrev Store := List Cell

/-- Go `s[k]` read from the store; an index outside the slice is a panic. -/
def Slice.load (h : Store) (s : Slice) (k : Nat) : Option Nat :=
  if k < s.len then
    match h[s.addr]? with
    | some (Cell.array xs) => xs[s.off + k]?
    | _ => none
  else none

/-- Go `s[k] = v`: the store after the assignment; an index outside the slice is a panic. -/
def Slice.store (h : Store) (s : Slice) (k v : Nat) : Option Store :=
  if k < s.len then
    match h[s.addr]? with
    | some (Cell.array xs) =>
      if s.off + k < xs.length then some (h.set s.addr (Cell.array (xs.set (s.off + k) v)))
      else none
    | _ => none
  else none

/-- Go `make([]uint64, N)`: a zeroed array of `N` elements at an address not yet in use, and the
slice over it. -/
def make_uint64 (h : Store) (N : Nat) : Store × Slice :=
  (h ++ [Cell.array (List.replicate N 0)], ⟨h.length, 0, N⟩)

/-- The values `s[0], ..., s[len(s)-1]` a callee that only reads the slice `s` finds in it, as
`component_to_bytes` does with its argument `src`. -/
def Slice.values (h : Store) (s : Slice) : Option (List Nat) :=
  match h[s.addr]? with
  | some (Cell.array xs) =>
    if s.off + s.len ≤ xs.length then some ((xs.drop s.off).take s.len) else none
  | _ => none

/-- The loop `for k := 0; k < N; k++ { component_shift[k] = (component[k] >> n_drop_bit) +
((component[k] >> (n_drop_bit - 1)) & 1) }` for the `n` indices still to be visited from `k`;
returns the store after the loop. -/
def component_shift_loop (n_drop_bit : Nat) (component component_shift : Slice) :
    Nat → Nat → Store → Option Store
  | 0, _, h => some h
  | n + 1, k, h =>
    match Slice.load h component k with
    | none => none
    | some c =>
      match Slice.store h component_shift k (quantize n_drop_bit c) with
      | none => none
      | some h1 => component_shift_loop n_drop_bit component component_shift n (k + 1) h1

/-- The loop `for j, component := range poly.Coeffs` of `poly_to_bytes` over the limb slices
still to be visited, `j` being the index of the first of them; returns the store and the writer
after the loop. -/
def poly_to_bytes_store_loop (N level : Nat) (q_bit_lengths : List Nat) (n_drop_bit : Nat) :
    List Slice → Nat → Store → Writer → Option (Store × Writer)
  | [], _, h, w => some (h, w)
  | component :: rest, j, h, w =>
    match q_bit_lengths[j]? with
    | none => none
    | some bit_length =>
      if level = 0 ∧ n_drop_bit ≠ 0 then
        let m := make_uint64 h N
        match component_shift_loop n_drop_bit component m.2 N 0 m.1 with
        | none => none
        | some h2 =>
          match Slice.values h2 m.2 with
          | none => none
          | some shifted =>
            poly_to_bytes_store_loop N level q_bit_lengths n_drop_bit rest (j + 1) h2
              (component_to_bytes shifted ((256 + bit_length % 256 - n_drop_bit % 256) % 256) w)
      else
        match Slice.values h component with
        | none => none
        | some values =>
          poly_to_bytes_store_loop N level q_bit_lengths n_drop_bit rest (j + 1) h
            (component_to_bytes values bit_length w)

/-- Go `poly_to_bytes(poly, q_bit_lengths, n_drop_bit, writer)` on a store: `poly` is the address
of the `ring.Poly`, whose limbs are slices into the store. Every read of a coefficient is a
`Slice.load` or `Slice.values`, the allocation is `make_uint64`, and every assignment to memory
is a `Slice.store`; the result is the store and the writer after the call. `poly.N()` is the
length of limb 0 and `poly.Level()` the number of limbs minus one (modelled from the spec). -/
def poly_to_bytes_store (h : Store) (poly : Nat) (q_bit_lengths : List Nat) (n_drop_bit : Nat)
    (w : Writer) : Option (Store × Writer) :=
  match h[poly]? with
  | some (Cell.poly Coeffs IsNTT IsMForm) =>
    match Coeffs with
    | [] => none
    | c0 :: _ =>
      let N := c0.len
      let level := Coeffs.length - 1
      let w1 := WriteBool w IsNTT
      let w2 := WriteBool w1 IsMForm
      let w3 := WriteByte w2 n_drop_bit
      poly_to_bytes_store_loop N level q_bit_lengths n_drop_bit Coeffs 0 h w3
  | _ => none

/-! ## `CiphertextToBytes` and `BytesToCiphertext` -/

/-- Modelled from the spec: `(*rlwe.Ciphertext).Level` (its file is not among the sources), the
level the components share, read off `Value[0]`; a panic without components. -/
def Ciphertext.Level (ct : Ciphertext) : Option Nat :=
  match ct.Value with
  | [] => none
  | p :: _ => some p.Level

/-- The table loop `for j < level+1 { q_bit_lengths[j] = uint8(bits.Len64(param_q[j])) }`
for `n` entries from index `j`. -/
def q_bit_lengths_of (param_q : List Nat) : Nat → Nat → Option (List Nat)
  | 0, _ => some []
  | n + 1, j =>
    match param_q[j]? with
    | none => none
    | some q =>
      match q_bit_lengths_of param_q n (j + 1) with
      | none => none
      | some t => some (Len64 q % 256 :: t)

/-- The header loop `for j < level+1 { writer.WriteByte(byte(q_bit_lengths[j])) }`. -/
def write_table (w : Writer) (q_bit_lengths : List Nat) : Writer :=
  q_bit_lengths.foldl (fun w b => WriteByte w (b % 256)) w

/-- The loop `for i, poly := range src.Value { poly_to_bytes(poly, .., n_drop_bits[i], ..) }`
over the components still to be written, `i` being the index of the first of them. -/
def ciphertext_polys_to_bytes (q_bit_lengths n_drop_bits : List Nat) :
    List Poly → Nat → Writer → Option Writer
  | [], _, w => some w
  | poly :: rest, i, w =>
    match n_drop_bits[i]? with
    | none => none
    | some d =>
      match poly_to_bytes poly q_bit_lengths d w with
      | none => none
      | some pw => ciphertext_polys_to_bytes q_bit_lengths n_drop_bits rest (i + 1) pw.2

/-- Go `CiphertextToBytes(src, param, n_drop_bit_0, n_drop_bit_1, writer)`. -/
def CiphertextToBytes (src : Ciphertext) (param : Parameters) (n_drop_bit_0 n_drop_bit_1 : Int)
    (w : Writer) : Option Writer :=
  let n_poly := src.Value.length
  match src.Level with
  | none => none
  | some level =>
    match q_bit_lengths_of param.Q (level + 1) 0 with
    | none => none
    | some q_bit_lengths =>
      let n_drop_bits := [(n_drop_bit_0 % 256).toNat, (n_drop_bit_1 % 256).toNat]
      let w1 := WriteUint32 w param.N
      let w2 := WriteByte w1 (n_poly % 256)
      let w3 := WriteByte w2 (level % 256)
      let w4 := write_table w3 q_bit_lengths
      ciphertext_polys_to_bytes q_bit_lengths n_drop_bits src.Value 0 w4

/-- The loop `for j := uint8(0); j < level+1; j++ { q_bit_lengths[j], _ = reader.ReadByte() }`
for `n` entries. -/
def read_table : Nat → Reader → List Nat × Reader
  | 0, r => ([], r)
  | n + 1, r =>
    let br := ReadByte r
    let res := read_table n br.2
    (br.1 :: res.1, res.2)

/-- The loop `for i := uint8(0); i < n_poly; i++` of `BytesToCiphertext` for the `n`
components still to be read; each is decoded into a `new(ring.Poly)`. -/
def bytes_to_polys (N level : Nat) (q_bit_lengths : List Nat) :
    Nat → Reader → Option (Reader × List Poly)
  | 0, r => some (r, [])
  | n + 1, r =>
    match bytes_to_poly r N level q_bit_lengths Poly.new with
    | none => none
    | some rp =>
      match bytes_to_polys N level q_bit_lengths n rp.1 with
      | none => none
      | some res => some (res.1, rp.2 :: res.2)

/-- Go `BytesToCiphertext(reader)`; returns the ciphertext and the reader after the call.
`level+1` is computed in `uint8`, so the table has `(level+1) mod 256` entries. -/
def BytesToCiphertext (r : Reader) : Option (Ciphertext × Reader) :=
  let n32 := ReadUint32 r
  let N := n32.1
  let np := ReadByte n32.2
  let lv := ReadByte np.2
  let level := lv.1
  let tb := read_table ((level + 1) % 256) lv.2
  match bytes_to_polys N level tb.1 np.1 tb.2 with
  | none => none
  | some res => some (⟨res.2⟩, res.1)

/-! ## Seed-carrying objects and QP pairs -/

/-- Modelled from the spec: `rlwe.CompressedCiphertext` (its file is not among the sources): one
explicit polynomial `Value` plus the seed `Seed` from which the omitted component is expanded. -/
structure CompressedCiphertext where
  Value : Poly
  Seed : List Nat
deriving DecidableEq, Repr

/-- Modelled from the spec: `ringqp.Poly` (its file is not among the sources), the pair of a
polynomial over the Q chain and one over the P chain. Both fields are pointers in Go; `none` is
the nil pointer. -/
structure PolyQP where
  Q : Option Poly
  P : Option Poly
deriving DecidableEq, Repr

/-- Modelled from the spec: `rlwe.SecretKey`, one QP pair. -/
structure SecretKey where
  Value : PolyQP
deriving DecidableEq, Repr

/-- Modelled from the spec: `rlwe.CiphertextQP`, the two QP pairs `Value[0]` (here `Value.1`)
and `Value[1]` (here `Value.2`), the seed and the `Compressed` flag. -/
structure CiphertextQP where
  Value : PolyQP × PolyQP
  Seed : List Nat
  Compressed : Bool
deriving DecidableEq, Repr

/-- The loop `for i := 0; i < 64; i++ { writer.WriteByte(src.Seed[i]) }` for the `n` bytes still
to be written from index `i`; indexing past the end of the seed is a panic. -/
def write_seed (Seed : List Nat) : Nat → Nat → Writer → Option Writer
  | 0, _, w => some w
  | n + 1, i, w =>
    match Seed[i]? with
    | none => none
    | some b => write_seed Seed n (i + 1) (WriteByte w b)

/-- The loop `for i := 0; i < 64; i++ { ct.Seed[i], _ = reader.ReadByte() }` into
`make([]byte, 64)`: 64 successive `ReadByte`s, the loop shape of `read_table`. -/
def read_seed (r : Reader) : List Nat × Reader := read_table 64 r

/-- Go `CompressedCiphertextToBytes(src, param, writer)`; `src.Level()` is the level of
`src.Value` (modelled from the spec). -/
def CompressedCiphertextToBytes (src : CompressedCiphertext) (param : Parameters) (w : Writer) :
    Option Writer :=
  let level := src.Value.Level
  match q_bit_lengths_of param.Q (level + 1) 0 with
  | none => none
  | some q_bit_lengths =>
    let w1 := WriteUint32 w param.N
    let w2 := WriteByte w1 (level % 256)
    let w3 := write_table w2 q_bit_lengths
    match write_seed src.Seed 64 0 w3 with
    | none => none
    | some w4 =>
      match poly_to_bytes src.Value q_bit_lengths 0 w4 with
      | none => none
      | some pw => some pw.2

/-- Go `BytesToCompressedCiphertext(reader)`; returns the object and the reader after the
call. -/
def BytesToCompressedCiphertext (r : Reader) : Option (CompressedCiphertext × Reader) :=
  let n32 := ReadUint32 r
  let lv := ReadByte n32.2
  let tb := read_table ((lv.1 + 1) % 256) lv.2
  let sd := read_seed tb.2
  match bytes_to_poly sd.2 n32.1 lv.1 tb.1 Poly.new with
  | none => none
  | some rp => some (⟨rp.2, sd.1⟩, rp.1)

/-- The part shared by `SecretKeyToBytes` and `CiphertextQPToBytes` up to the tables: ring size,
`byte(level_q)`, `byte(level_p)`, the Q table and the P table. Returns the two tables and the
writer. `level_q` and `level_p` are the levels of the Q and P polynomials of the pair (modelled
from the spec). -/
def qp_header_to_bytes (Q P : Poly) (param : Parameters) (w : Writer) :
    Option (List Nat × List Nat × Writer) :=
  let level_q := Q.Level
  let level_p := P.Level
  match q_bit_lengths_of param.Q (level_q + 1) 0 with
  | none => none
  | some q_bit_lengths =>
    match q_bit_lengths_of param.P (level_p + 1) 0 with
    | none => none
    | some p_bit_lengths =>
      let w1 := WriteUint32 w param.N
      let w2 := WriteByte w1 (level_q % 256)
      let w3 := WriteByte w2 (level_p % 256)
      let w4 := write_table w3 q_bit_lengths
      let w5 := write_table w4 p_bit_lengths
      some (q_bit_lengths, p_bit_lengths, w5)

/-- Go `SecretKeyToBytes(src, param, writer)`. A nil Q or P part makes the call panic (at the
latest in `poly.N()` inside `poly_to_bytes`). -/
def SecretKeyToBytes (src : SecretKey) (param : Parameters) (w : Writer) : Option Writer :=
  match src.Value.Q, src.Value.P with
  | some Q, some P =>
    match qp_header_to_bytes Q P param w with
    | none => none
    | some hd =>
      match poly_to_bytes Q hd.1 0 hd.2.2 with
      | none => none
      | some pw1 =>
        match poly_to_bytes P hd.2.1 0 pw1.2 with
        | none => none
        | some pw2 => some pw2.2
  | _, _ => none

/-- The part shared by `BytesToSecretKey` and `BytesToCiphertextQP` up to the tables; returns
`N`, `level_q`, `level_p`, the two tables and the reader. -/
def bytes_to_qp_header (r : Reader) : Nat × Nat × Nat × List Nat × List Nat × Reader :=
  let n32 := ReadUint32 r
  let lq := ReadByte n32.2
  let lp := ReadByte lq.2
  let tq := read_table ((lq.1 + 1) % 256) lp.2
  let tp := read_table ((lp.1 + 1) % 256) tq.2
  (n32.1, lq.1, lp.1, tq.1, tp.1, tp.2)

/-- The two `bytes_to_poly` calls that fill a QP pair, each into a `new(ring.Poly)`. -/
def bytes_to_qp_polys (r : Reader) (N level_q level_p : Nat) (q_bit_lengths p_bit_lengths : List Nat) :
    Option (PolyQP × Reader) :=
  match bytes_to_poly r N level_q q_bit_lengths Poly.new with
  | none => none
  | some rq =>
    match bytes_to_poly rq.1 N level_p p_bit_lengths Poly.new with
    | none => none
    | some rp => some (⟨some rq.2, some rp.2⟩, rp.1)

/-- Go `BytesToSecretKey(reader)`; returns the key and the reader after the call. -/
def BytesToSecretKey (r : Reader) : Option (SecretKey × Reader) :=
  let hd := bytes_to_qp_header r
  match bytes_to_qp_polys hd.2.2.2.2.2 hd.1 hd.2.1 hd.2.2.1 hd.2.2.2.1 hd.2.2.2.2.1 with
  | none => none
  | some res => some (⟨res.1⟩, res.2)

/-- Go `CiphertextQPToBytes(src, param, writer)`: only `src.Seed` and `src.Value[0]` are read;
`src.LevelQ()` and `src.LevelP()` are the levels of `src.Value[0]` (modelled from the spec). A
nil Q or P part of `Value[0]` makes the call panic. -/
def CiphertextQPToBytes (src : CiphertextQP) (param : Parameters) (w : Writer) : Option Writer :=
  match src.Value.1.Q, src.Value.1.P with
  | some Q, some P =>
    match qp_header_to_bytes Q P param w with
    | none => none
    | some hd =>
      match write_seed src.Seed 64 0 hd.2.2 with
      | none => none
      | some w6 =>
        match poly_to_bytes Q hd.1 0 w6 with
        | none => none
        | some pw1 =>
          match poly_to_bytes P hd.2.1 0 pw1.2 with
          | none => none
          | some pw2 => some pw2.2
  | _, _ => none

/-- Go `BytesToCiphertextQP(reader)`; returns the object and the reader after the call.
`Value[1]` keeps the zero value of `var ct CiphertextQP`, two nil pointers. -/
def BytesToCiphertextQP (r : Reader) : Option (CiphertextQP × Reader) :=
  let hd := bytes_to_qp_header r
  let sd := read_seed hd.2.2.2.2.2
  match bytes_to_qp_polys sd.2 hd.1 hd.2.1 hd.2.2.1 hd.2.2.2.1 hd.2.2.2.2.1 with
  | none => none
  | some res => some (⟨(res.1, ⟨none, none⟩), sd.1, true⟩, res.2)

/-! ## Composite key objects -/

/-- Go `binary.Write(writer, binary.LittleEndian, n)` for a `uint16`: two bytes, least
significant first. -/
def WriteUint16 (w : Writer) (n : Nat) : Writer :=
  let v := n % 2 ^ 16
  w ++ [v % 256, (v >>> 8) % 256]

/-- Go `binary.Read(reader, binary.LittleEndian, &n)` for a `*uint16` holding `0`, error
discarded: two bytes are taken; when fewer remain they are consumed and the variable keeps its
zero value. -/
def ReadUint16 (r : Reader) : Nat × Reader :=
  if r.i + 2 ≤ r.s.length then
    (r.s.getD r.i 0 + 256 * r.s.getD (r.i + 1) 0, { r with i := r.i + 2 })
  else (0, { r with i := max r.i r.s.length })

/-- Go `binary.Write(writer, binary.LittleEndian, v)` for a `uint64`: eight bytes, least
significant first. -/
def WriteUint64 (w : Writer) (v : Nat) : Writer :=
  w ++ (List.range 8).map (fun k => ((v % 2 ^ 64) >>> (8 * k)) % 256)

/-- Go `binary.Read(reader, binary.LittleEndian, &v)` for a `*uint64` (or a `*float64`, whose
64-bit pattern is what is read) holding `old`, error discarded: eight bytes are taken; when
fewer remain they are consumed and the variable keeps `old`. -/
def ReadUint64 (r : Reader) (old : Nat) : Nat × Reader :=
  if r.i + 8 ≤ r.s.length then
    (((List.range 8).map (fun k => r.s.getD (r.i + k) 0 * 2 ^ (8 * k))).sum,
      { r with i := r.i + 8 })
  else (old, { r with i := max r.i r.s.length })

/-- Modelled from the spec: `rlwe.GadgetCiphertext` (its file is not among the sources), an array
of `digits` rows of `splits` QP ciphertexts; `Value[i][j]` is entry `j` of row `i`. -/
structure GadgetCiphertext where
  Value : List (List CiphertextQP)
deriving DecidableEq, Repr

/-- Modelled from the spec: `rlwe.SwitchingKey`, a structure that embeds one
`GadgetCiphertext`. -/
structure SwitchingKey where
  GadgetCiphertext : GadgetCiphertext
deriving DecidableEq, Repr

/-- Modelled from the spec: `rlwe.RelinearizationKey`, the ordered list `Keys` of switching
keys. The entries are pointers in Go; they are taken to be non-nil, as the decoder makes them. -/
structure RelinearizationKey where
  Keys : List SwitchingKey
deriving DecidableEq, Repr

/-- A Go `map[uint64]*SwitchingKey` as the list of its entries; the keys of a map are pairwise
distinct and the order of the list carries no meaning. The values are pointers in Go; they are
taken to be non-nil, as the decoder makes them. -/
abbrev KeyMap := List (Nat × SwitchingKey)

/-- Go map assignment `m[k] = v`: an entry with key `k` is replaced, otherwise one is added. -/
def mapassign (m : KeyMap) (k : Nat) (v : SwitchingKey) : KeyMap :=
  (k, v) :: m.filter (fun e => e.1 != k)

/-- Go map lookup `v, ok := m[k]`. -/
def mapaccess (m : KeyMap) (k : Nat) : Option SwitchingKey := List.lookup k m

/-- Modelled from the spec: `rlwe.RotationKeySet`, the map `Keys` from Galois element to switching
key. -/
structure RotationKeySet where
  Keys : KeyMap
deriving DecidableEq, Repr

/-- The inner loop `for _, y := range x { CiphertextQPToBytes(&y, param, writer) }` over the
entries of a row still to be written. -/
def gadget_row_to_bytes (param : Parameters) : List CiphertextQP → Writer → Option Writer
  | [], w => some w
  | y :: rest, w =>
    match CiphertextQPToBytes y param w with
    | none => none
    | some w1 => gadget_row_to_bytes param rest w1

/-- The outer loop `for _, x := range src.Value` over the rows still to be written. -/
def gadget_rows_to_bytes (param : Parameters) : List (List CiphertextQP) → Writer → Option Writer
  | [], w => some w
  | x :: rest, w =>
    match gadget_row_to_bytes param x w with
    | none => none
    | some w1 => gadget_rows_to_bytes param rest w1

/-- Go `GadgetCiphertextToBytes(src, param, writer)`; `src.Value[0]` of an array without rows is
a panic. -/
def GadgetCiphertextToBytes (src : GadgetCiphertext) (param : Parameters) (w : Writer) :
    Option Writer :=
  let w1 := WriteByte w (src.Value.length % 256)
  match src.Value with
  | [] => none
  | x0 :: _ =>
    let w2 := WriteByte w1 (x0.length % 256)
    gadget_rows_to_bytes param src.Value w2

/-- The inner loop `for j := uint8(0); j < n1; j++ { gc.Value[i][j] = BytesToCiphertextQP(reader) }`
for the `n` entries of a row still to be read. -/
def bytes_to_gadget_row : Nat → Reader → Option (List CiphertextQP × Reader)
  | 0, r => some ([], r)
  | n + 1, r =>
    match BytesToCiphertextQP r with
    | none => none
    | some yr =>
      match bytes_to_gadget_row n yr.2 with
      | none => none
      | some res => some (yr.1 :: res.1, res.2)

/-- The outer loop `for i := uint8(0); i < n0; i++` of `BytesToGadgetCiphertext` for the `n` rows
still to be read, each of `n1` entries. -/
def bytes_to_gadget_rows (n1 : Nat) : Nat → Reader → Option (List (List CiphertextQP) × Reader)
  | 0, r => some ([], r)
  | n + 1, r =>
    match bytes_to_gadget_row n1 r with
    | none => none
    | some xr =>
      match bytes_to_gadget_rows n1 n xr.2 with
      | none => none
      | some res => some (xr.1 :: res.1, res.2)

/-- Go `BytesToGadgetCiphertext(reader)`; returns the object and the reader after the call. -/
def BytesToGadgetCiphertext (r : Reader) : Option (GadgetCiphertext × Reader) :=
  let n0 := ReadByte r
  let n1 := ReadByte n0.2
  match bytes_to_gadget_rows n1.1 n0.1 n1.2 with
  | none => none
  | some res => some (⟨res.1⟩, res.2)

/-- Go `SwitchingKeyToBytes(src, param, writer)`. -/
def SwitchingKeyToBytes (src : SwitchingKey) (param : Parameters) (w : Writer) : Option Writer :=
  GadgetCiphertextToBytes src.GadgetCiphertext param w

/-- Go `BytesToSwitchingKey(reader)`; returns the key and the reader after the call. -/
def BytesToSwitchingKey (r : Reader) : Option (SwitchingKey × Reader) :=
  match BytesToGadgetCiphertext r with
  | none => none
  | some res => some (⟨res.1⟩, res.2)

/-- The loop `for _, x := range src.Keys { SwitchingKeyToBytes(x, param, writer) }` over the keys
still to be written. -/
def switching_keys_to_bytes (param : Parameters) : List SwitchingKey → Writer → Option Writer
  | [], w => some w
  | x :: rest, w =>
    match SwitchingKeyToBytes x param w with
    | none => none
    | some w1 => switching_keys_to_bytes param rest w1

/-- Go `RelinearizationKeyToByte(src, param, writer)`. -/
def RelinearizationKeyToByte (src : RelinearizationKey) (param : Parameters) (w : Writer) :
    Option Writer :=
  switching_keys_to_bytes param src.Keys (WriteByte w (src.Keys.length % 256))

/-- The loop `for i := uint8(0); i < n; i++ { rlk.Keys[i] = BytesToSwitchingKey(reader) }` for the
`n` keys still to be read. -/
def bytes_to_switching_keys : Nat → Reader → Option (List SwitchingKey × Reader)
  | 0, r => some ([], r)
  | n + 1, r =>
    match BytesToSwitchingKey r with
    | none => none
    | some kr =>
      match bytes_to_switching_keys n kr.2 with
      | none => none
      | some res => some (kr.1 :: res.1, res.2)

/-- Go `BytesToRelinearizationKey(reader)`; returns the key and the reader after the call. -/
def BytesToRelinearizationKey (r : Reader) : Option (RelinearizationKey × Reader) :=
  let n := ReadByte r
  match bytes_to_switching_keys n.1 n.2 with
  | none => none
  | some res => some (⟨res.1⟩, res.2)

/-- The loop `for step, key := range src.Keys` of `RotationKeySetToBytes` over the entries still
to be visited: the element as a `uint64`, then the gadget ciphertext of the key. -/
def rotation_keys_to_bytes (param : Parameters) : List (Nat × SwitchingKey) → Writer → Option Writer
  | [], w => some w
  | e :: rest, w =>
    match GadgetCiphertextToBytes e.2.GadgetCiphertext param (WriteUint64 w e.1) with
    | none => none
    | some w1 => rotation_keys_to_bytes param rest w1

/-- Go `RotationKeySetToBytes(src, param, writer)`. A `range` over a Go map visits every entry
once, in an order the language leaves unspecified; `visit` is the sequence of entries in the
order in which this run of the loop visits them, a permutation of `src.Keys`. -/
def RotationKeySetToBytes (src : RotationKeySet) (visit : List (Nat × SwitchingKey))
    (param : Parameters) (w : Writer) : Option Writer :=
  rotation_keys_to_bytes param visit (WriteUint16 w src.Keys.length)

/-- The loop `for i := uint16(0); i < n; i++` of `BytesToRotationKeySet` for the `n` entries
still to be read, `m` being the map built so far. -/
def bytes_to_rotation_keys : Nat → Reader → KeyMap → Option (KeyMap × Reader)
  | 0, r, m => some (m, r)
  | n + 1, r, m =>
    let st := ReadUint64 r 0
    match BytesToGadgetCiphertext st.2 with
    | none => none
    | some gr => bytes_to_rotation_keys n gr.2 (mapassign m st.1 ⟨gr.1⟩)

/-- Go `BytesToRotationKeySet(reader)`; returns the set and the reader after the call. -/
def BytesToRotationKeySet (r : Reader) : Option (RotationKeySet × Reader) :=
  let n := ReadUint16 r
  match bytes_to_rotation_keys n.1 n.2 [] with
  | none => none
  | some res => some (⟨res.1⟩, res.2)

/-! ## Scheme-level wrappers: `bfv/ciphertext.go` and `ckks/ciphertext.go` -/

set_option linter.dupNamespace false in
/-- Go `bfv.Ciphertext`, a structure that embeds `*rlwe.Ciphertext`. -/
structure bfv.Ciphertext where
  Ciphertext : BitStream.Ciphertext
deriving DecidableEq, Repr

/-- Go `(*bfv.Ciphertext).ToBytes(param, n_drop_bit_0, n_drop_bit_1)`: the bytes of a new buffer
after `rlwe.CiphertextToBytes`. -/
def bfv.Ciphertext.ToBytes (ct : bfv.Ciphertext) (param : Parameters)
    (n_drop_bit_0 n_drop_bit_1 : Int) : Option (List Nat) :=
  CiphertextToBytes ct.Ciphertext param n_drop_bit_0 n_drop_bit_1 []

set_option linter.dupNamespace false in
/-- Go `ckks.Ciphertext`, a structure that embeds `*rlwe.Ciphertext` and carries the `float64`
field `Scale`. A `float64` is represented by its IEEE-754 bit pattern `math.Float64bits(Scale)`,
a `uint64`; `encoding/binary` writes and reads a `float64` through exactly this pattern. -/
structure ckks.Ciphertext where
  Ciphertext : BitStream.Ciphertext
  Scale : Nat
deriving DecidableEq, Repr

/-- Go `(*ckks.Ciphertext).ToBytes(param)`: into a new buffer, `binary.Write` of `ct.Scale`, then
`rlwe.CiphertextToBytes(ct.Ciphertext, param, 0, 0, writer)`; returns the bytes of the buffer. -/
def ckks.Ciphertext.ToBytes (ct : ckks.Ciphertext) (param : Parameters) : Option (List Nat) :=
  CiphertextToBytes ct.Ciphertext param 0 0 (WriteUint64 [] ct.Scale)

/-- Go `(*ckks.Ciphertext).FromBytes(data)`: `binary.Read` into `&ct.Scale` from a new reader over
`data`, then `ct.Ciphertext` becomes the result of `rlwe.BytesToCiphertext(reader)`; returns the
receiver after the call. -/
def ckks.Ciphertext.FromBytes (ct : ckks.Ciphertext) (data : List Nat) : Option ckks.Ciphertext :=
  let sc := ReadUint64 (NewReader data) ct.Scale
  match BytesToCiphertext sc.2 with
  | none => none
  | some res => some ⟨res.1, sc.1⟩

/-! ## Auxiliary definitions used in the proofs -/

/-- The `n` low bytes of `x`, least significant first. -/
def bytesLE : Nat → Nat → List Nat
  | 0, _ => []
  | n + 1, x => (x % 256) :: bytesLE n (x >>> 8)

/-- The bytes one value contributes: the completed carry byte, then its full bytes. -/
def value_bytes (bl x b off : Nat) : List Nat :=
  (b ||| ((((x % 256) &&& byte_mask (n_low_bit off)) <<< off) % 256))
    :: bytesLE (n_full_byte bl off) (x >>> n_low_bit off)

/-- The carry byte left after one value. -/
def value_carry (bl x off : Nat) : Nat :=
  ((x >>> n_low_bit off) >>> (8 * n_full_byte bl off)) % 256

/-- The accumulation the reader performs over a run of full bytes. -/
def orBytes : List Nat → Nat → Nat → Nat
  | [], x, _ => x
  | y :: ys, x, sh => orBytes ys (x ||| ((y <<< sh) % 2 ^ 64)) ((sh + 8) % 256)

/-- The look-ahead byte `b` and the reader `r` together present the byte sequence `V`:
`b` is its first byte (zero when `V` is empty) and `r` stands before the rest of it. -/
def View (b : Nat) (r : Reader) (V : List Nat) : Prop :=
  b = V.headD 0 ∧ r.s.drop r.i = V.tail ∧ r.i ≤ r.s.length

/-- Well-formedness of the limbs `cs` placed at table indices `j, j+1, ...`: each limb has `N`
coefficients and a table entry of at most 64 bits that bounds its coefficients. -/
def LimbsOK (N : Nat) (q : List Nat) : Nat → List (List Nat) → Prop
  | _, [] => True
  | j, c :: cs =>
    (∃ bl, q[j]? = some bl ∧ bl ≤ 64 ∧ c.length = N ∧ ∀ x ∈ c, x < 2 ^ bl) ∧ LimbsOK N q (j + 1) cs

/-- A ciphertext component is well formed for `param` at level `L`: it has `L+1` limbs, each of
`param.N` coefficients, and the coefficients of limb `j` are residues modulo `Q[j]`. -/
def PolyOK (param : Parameters) (L : Nat) (P : Poly) : Prop :=
  P.Coeffs.length = L + 1 ∧
    ∀ j, j < L + 1 → (P.Coeffs.getD j []).length = param.N ∧
      ∀ x ∈ P.Coeffs.getD j [], x < param.Q.getD j 0

instance (param : Parameters) (L : Nat) (P : Poly) : Decidable (PolyOK param L P) := by
  unfold PolyOK; infer_instance

/-- Bit at absolute position `p` of a byte sequence: bit `p mod 8`, counted from the least
significant, of byte `p div 8`. -/
def bit_at (bytes : List Nat) (p : Nat) : Bool := (bytes.getD (p / 8) 0).testBit (p % 8)

/-- The byte `BytesToCiphertext` takes as the level. -/
def level_byte (r : Reader) : Nat := (ReadByte (ReadByte (ReadUint32 r).2).2).1

/-- The reader `r` stands before exactly the bytes `rem`, inside its slice. -/
def At (r : Reader) (rem : List Nat) : Prop := r.s.drop r.i = rem ∧ r.i ≤ r.s.length

/-- A polynomial is well formed at level `L` over the modulus chain `chain` with ring degree
`N`: it has `L+1` limbs of `N` coefficients and the coefficients of limb `j` are residues modulo
`chain[j]`. -/
def ResiduesOK (chain : List Nat) (N L : Nat) (P : Poly) : Prop :=
  P.Coeffs.length = L + 1 ∧
    ∀ j, j < L + 1 → (P.Coeffs.getD j []).length = N ∧
      ∀ x ∈ P.Coeffs.getD j [], x < chain.getD j 0

instance (chain : List Nat) (N L : Nat) (P : Poly) : Decidable (ResiduesOK chain N L P) := by
  unfold ResiduesOK; infer_instance

/-- A QP ciphertext is well formed for `param`: `Value[0]` has a Q and a P polynomial, at levels
of at most 254 within the chains of `param`, with in-range residues, and the seed has 64
bytes. -/
def CiphertextQPOK (param : Parameters) (x : CiphertextQP) : Prop :=
  match x.Value.1.Q, x.Value.1.P with
  | some Q, some P =>
    Q.Level ≤ 254 ∧ P.Level ≤ 254 ∧ Q.Level + 1 ≤ param.Q.length ∧ P.Level + 1 ≤ param.P.length ∧
      x.Seed.length = 64 ∧ ResiduesOK param.Q param.N Q.Level Q ∧
      ResiduesOK param.P param.N P.Level P
  | _, _ => False

instance (param : Parameters) (x : CiphertextQP) : Decidable (CiphertextQPOK param x) := by
  unfold CiphertextQPOK; split <;> infer_instance

/-- The QP ciphertext that travels on the wire for `x`: the seed and `Value[0]` of `x`, with
`Value[1]` two nil pointers and `Compressed` set. -/
def CiphertextQP.wire (x : CiphertextQP) : CiphertextQP :=
  ⟨(x.Value.1, ⟨none, none⟩), x.Seed, true⟩

/-- The parameter set fits the header fields: the ring degree is a `uint32`, the moduli are
`uint64`s. -/
def ParamOK (param : Parameters) : Prop :=
  param.N < 2 ^ 32 ∧ (∀ q ∈ param.Q, q < 2 ^ 64) ∧ ∀ p ∈ param.P, p < 2 ^ 64

instance (param : Parameters) : Decidable (ParamOK param) := by
  unfold ParamOK; infer_instance

/-- A gadget ciphertext is well formed for `param`: between 1 and 255 rows, all of the length of
row 0, which is at most 255, and every entry a well-formed QP ciphertext. -/
def GadgetOK (param : Parameters) (g : GadgetCiphertext) : Prop :=
  1 ≤ g.Value.length ∧ g.Value.length ≤ 255 ∧ (g.Value.headD []).length ≤ 255 ∧
    (∀ row ∈ g.Value, row.length = (g.Value.headD []).length) ∧
    ∀ row ∈ g.Value, ∀ y ∈ row, CiphertextQPOK param y

instance (param : Parameters) (g : GadgetCiphertext) : Decidable (GadgetOK param g) := by
  unfold GadgetOK; infer_instance

/-- The gadget ciphertext that travels on the wire for `g`: every entry in its wire form. -/
def GadgetCiphertext.wire (g : GadgetCiphertext) : GadgetCiphertext :=
  ⟨g.Value.map (List.map CiphertextQP.wire)⟩

/-- The switching key that travels on the wire for `k`. -/
def SwitchingKey.wire (k : SwitchingKey) : SwitchingKey := ⟨k.GadgetCiphertext.wire⟩

/-- Example data: a parameter set with one Q modulus, one P modulus and ring degree 2. -/
def example_param : Parameters := ⟨[257], [12289], 2⟩

/-- Example data: a QP ciphertext over `example_param` whose `Value[1]` is populated and whose
`Compressed` flag is false. -/
def example_qp (a b : Nat) : CiphertextQP :=
  ⟨(⟨some ⟨[[a, 2]], true, false⟩, some ⟨[[b, 4]], false, true⟩⟩,
    ⟨some ⟨[[5, 6]], true, false⟩, none⟩), List.replicate 64 9, false⟩

/-- Example data: a gadget ciphertext of 2 rows of 2 entries. -/
def example_gadget (a : Nat) : GadgetCiphertext :=
  ⟨[[example_qp a 1, example_qp a 2], [example_qp a 3, example_qp a 4]]⟩

/-- Example data: a relinearization key of two distinct switching keys. -/
def example_rlk : RelinearizationKey := ⟨[⟨example_gadget 1⟩, ⟨example_gadget 7⟩]⟩

/-- The map obtained from `m` by assigning the entries of `es` in order. -/
def mapassign_all (m : KeyMap) (es : List (Nat × SwitchingKey)) : KeyMap :=
  es.foldl (fun m e => mapassign m e.1 e.2) m

/-- The entries with every switching key in its wire form. -/
def wire_entries (es : List (Nat × SwitchingKey)) : List (Nat × SwitchingKey) :=
  es.map (fun e => (e.1, e.2.wire))

/-- The entries of a rotation key set are well formed for `param`: every Galois element is a
`uint64` and every switching key a well-formed gadget ciphertext. -/
def EntriesOK (param : Parameters) (es : List (Nat × SwitchingKey)) : Prop :=
  ∀ e ∈ es, e.1 < 2 ^ 64 ∧ GadgetOK param e.2.GadgetCiphertext

instance (param : Parameters) (es : List (Nat × SwitchingKey)) : Decidable (EntriesOK param es) := by
  unfold EntriesOK; infer_instance

/-- Example data: a rotation key set with the Galois elements 3 and 5 and distinct keys. -/
def example_rotation_keys : RotationKeySet := ⟨[(3, ⟨example_gadget 1⟩), (5, ⟨example_gadget 7⟩)]⟩

/-- Example data: the entries of a stream before the last occurrence of the element 3. -/
def example_stream_pre : List (Nat × SwitchingKey) :=
  [(3, ⟨example_gadget 1⟩), (5, ⟨example_gadget 2⟩)]

/-- Example data: the entries of a stream after the last occurrence of the element 3. -/
def example_stream_post : List (Nat × SwitchingKey) := [(9, ⟨example_gadget 4⟩)]

/-- Example data: the entries of `example_rotation_keys` in the other order. -/
def example_visit : List (Nat × SwitchingKey) :=
  [(5, ⟨example_gadget 7⟩), (3, ⟨example_gadget 1⟩)]

/-- The bits of the out-of-range value `x` that the writer leaves in the carry byte above the
`n_high_bit` legitimate ones, when `x` is written at bit offset `off`. -/
def overflow_bits (bl x off : Nat) : Nat := (x >>> bl) % 2 ^ (8 - n_high_bit bl off)

/-- What follows an out-of-range value `x` written at bit offset `off` is read back as: its
immediate successor with the overflow bits of `x` OR-ed into its low bits, the later values
unchanged. -/
def after_overflow (bl x off : Nat) : List Nat → List Nat
  | [] => []
  | y :: post => (y ||| overflow_bits bl x off) :: post

/-- Example data: a CKKS ciphertext of two components at level 1 whose scale is `2^40`, the
`float64` with bit pattern `0x4270000000000000`. -/
def example_ckks : ckks.Ciphertext :=
  ⟨⟨[⟨[[1, 2, 3, 4], [0, 65536, 3, 4]], true, false⟩,
    ⟨[[8, 7, 6, 256], [9, 9, 9, 9]], true, false⟩]⟩, 0x4270000000000000⟩

/-- The number a byte sequence denotes, least significant byte first. -/
def le_value : List Nat → Nat
  | [] => 0
  | b :: bs => b + 256 * le_value bs

/-- The number obtained by placing values of `bl` bits each one above the other, the first value
lowest: bit `k` of value `i` is bit `i * bl + k`. -/
def pack_value (bl : Nat) : List Nat → Nat
  | [] => 0
  | x :: xs => x + 2 ^ bl * pack_value bl xs

/-- The limbs the slices `ss` present in the store `h`. -/
def Slice.values_all (h : Store) : List Slice → Option (List (List Nat))
  | [] => some []
  | s :: ss =>
    match Slice.values h s with
    | none => none
    | some v =>
      match Slice.values_all h ss with
      | none => none
      | some vs => some (v :: vs)

/-- The polynomial held at address `poly` of the store `h`: the values of its limb slices and
its flags. -/
def read_poly (h : Store) (poly : Nat) : Option Poly :=
  match h[poly]? with
  | some (Cell.poly Coeffs IsNTT IsMForm) =>
    match Slice.values_all h Coeffs with
    | none => none
    | some limbs => some ⟨limbs, IsNTT, IsMForm⟩
  | _ => none

/-- Example data: a store holding the backing array of a level-0 polynomial at address 0 and
the polynomial itself at address 1. -/
def example_store : Store :=
  [Cell.array [8190, 1, 2, 3, 4, 5, 6, 7], Cell.poly [⟨0, 0, 8⟩] true false]

/-! ## The wire layout as the specification states it -/

/-- Layout stated by the specification for one limb: packed unmodified with its table entry,
or, at level 0 with a non-zero drop-bits value, quantized and packed with the entry minus the
drop-bits value (the `uint8` difference). -/
def spec_limb_bytes (L d bl : Nat) (limb : List Nat) : List Nat :=
  if L = 0 ∧ d ≠ 0 then
    component_to_bytes (limb.map (quantize d)) ((256 + bl % 256 - d % 256) % 256) []
  else component_to_bytes limb bl []

/-- Layout stated by the specification for one polynomial: the 3-byte header `IsNTT` as 0/1,
`IsMForm` as 0/1, drop-bits, then the packed limbs in order. -/
def spec_poly_bytes (L d : Nat) (table : List Nat) (P : Poly) : List Nat :=
  [if P.IsNTT then 1 else 0, if P.IsMForm then 1 else 0, d]
    ++ (List.zipWith (spec_limb_bytes L d) table P.Coeffs).flatten

/-- Layout stated by the specification for the bit-length table: entry `j` is the bit length of
`Q[j]`, for `j = 0..L`. -/
def spec_table (Q : List Nat) (L : Nat) : List Nat :=
  (List.range (L + 1)).map (fun j => Len64 (Q.getD j 0))

/-- Layout stated by the specification for a 32-bit header field: 4 bytes, least significant
first. -/
def spec_uint32 (N : Nat) : List Nat :=
  [N % 256, N / 2 ^ 8 % 256, N / 2 ^ 16 % 256, N / 2 ^ 24 % 256]

/-- Layout stated by the specification for the ciphertext header: the ring size as 4
little-endian bytes, one byte `n_poly`, one byte `L`, then the `L+1` table bytes. -/
def spec_ciphertext_header (N n_poly L : Nat) (Q : List Nat) : List Nat :=
  spec_uint32 N ++ [n_poly, L] ++ spec_table Q L

/-- Layout stated by the specification for a ciphertext: the header, then one polynomial per
component in order, component `i` carrying the `i`-th drop-bits byte. -/
def spec_ciphertext_bytes (ct : Ciphertext) (param : Parameters) (L : Nat) (drops : List Nat) :
    List Nat :=
  spec_ciphertext_header param.N ct.Value.length L param.Q
    ++ (List.zipWith (fun d P => spec_poly_bytes L d (spec_table param.Q L) P) drops
          ct.Value).flatten

/-- Layout stated by the specification for the header of a QP object: ring size, Q level,
P level, Q table, P table. -/
def spec_qp_header (param : Parameters) (Lq Lp : Nat) : List Nat :=
  spec_uint32 param.N ++ [Lq, Lp] ++ spec_table param.Q Lq ++ spec_table param.P Lp

/-- Layout stated by the specification for the body of a QP object: the Q polynomial, then the
P polynomial, both with drop-bits 0. -/
def spec_qp_polys (param : Parameters) (Lq Lp : Nat) (Q P : Poly) : List Nat :=
  spec_poly_bytes Lq 0 (spec_table param.Q Lq) Q ++ spec_poly_bytes Lp 0 (spec_table param.P Lp) P

/-- Layout stated by the specification for a compressed ciphertext: ring size, level, the Q
table, the seed, one polynomial with drop-bits 0. -/
def spec_compressed_bytes (c : CompressedCiphertext) (param : Parameters) (L : Nat) : List Nat :=
  spec_uint32 param.N ++ [L] ++ spec_table param.Q L ++ c.Seed
    ++ spec_poly_bytes L 0 (spec_table param.Q L) c.Value

/-- Layout stated by the specification for a QP ciphertext: the QP header, the seed, then the Q
and P polynomials of `Value[0]`. -/
def spec_ciphertext_qp_bytes (Q P : Poly) (Seed : List Nat) (param : Parameters) (Lq Lp : Nat) :
    List Nat :=
  spec_qp_header param Lq Lp ++ Seed ++ spec_qp_polys param Lq Lp Q P

/-- Layout stated by the specification for a QP ciphertext, the levels being those of the Q and
P polynomials of `Value[0]`. -/
def spec_qp_element_bytes (param : Parameters) (x : CiphertextQP) : List Nat :=
  match x.Value.1.Q, x.Value.1.P with
  | some Q, some P => spec_ciphertext_qp_bytes Q P x.Seed param Q.Level P.Level
  | _, _ => []

/-- Layout stated by the specification for a gadget ciphertext: one byte digit count, one byte
split count, then the QP ciphertexts in row-major order. -/
def spec_gadget_bytes (param : Parameters) (g : GadgetCiphertext) : List Nat :=
  [g.Value.length, (g.Value.headD []).length]
    ++ (g.Value.map (fun row => (row.map (spec_qp_element_bytes param)).flatten)).flatten

/-- Layout stated by the specification for a relinearization key: one byte key count, then the
switching keys, each in the layout of a gadget ciphertext, in list order. -/
def spec_relinearization_bytes (param : Parameters) (rlk : RelinearizationKey) : List Nat :=
  [rlk.Keys.length] ++ (rlk.Keys.map (fun k => spec_gadget_bytes param k.GadgetCiphertext)).flatten

/-- Layout stated by the specification for a 16-bit header field: 2 bytes, least significant
first. -/
def spec_uint16 (n : Nat) : List Nat := [n % 256, n / 2 ^ 8 % 256]

/-- Layout stated by the specification for a 64-bit field: 8 bytes, least significant first. -/
def spec_uint64 (v : Nat) : List Nat :=
  [v % 256, v / 2 ^ 8 % 256, v / 2 ^ 16 % 256, v / 2 ^ 24 % 256, v / 2 ^ 32 % 256,
    v / 2 ^ 40 % 256, v / 2 ^ 48 % 256, v / 2 ^ 56 % 256]

/-- Layout stated by the specification for the body of a rotation key set: for each entry the
Galois element as 8 bytes, then the switching key in the layout of a gadget ciphertext. -/
def spec_rotation_entries (param : Parameters) (es : List (Nat × SwitchingKey)) : List Nat :=
  (es.map (fun e => spec_uint64 e.1 ++ spec_gadget_bytes param e.2.GadgetCiphertext)).flatten

/-- Layout stated by the specification for a rotation key set whose entries appear in the order
`es`: the entry count as 2 bytes, then the entries. -/
def spec_rotation_bytes (param : Parameters) (es : List (Nat × SwitchingKey)) : List Nat :=
  spec_uint16 es.length ++ spec_rotation_entries param es

/-! ## Lemmas -/

theorem byte_mask_eq (k : Nat) (hk : k ≤ 8) : byte_mask k = 2 ^ k - 1 := by
  interval_cases k <;> rfl

theorem n_low_bit_eq (off : Nat) (h : off ≤ 7) : n_low_bit off = 8 - off := by
  unfold n_low_bit; omega

theorem n_high_bit_le (bl off : Nat) : n_high_bit bl off ≤ 7 := by
  unfold n_high_bit; omega

theorem n_high_bit_normal (bl off : Nat) (h : off ≤ 7) (hbl : bl ≤ 64) (hn : 8 - off ≤ bl) :
    n_high_bit bl off = (bl - (8 - off)) % 8 := by
  unfold n_high_bit n_low_bit; omega

theorem n_full_byte_normal (bl off : Nat) (h : off ≤ 7) (hbl : bl ≤ 64) (hn : 8 - off ≤ bl) :
    n_full_byte bl off = (bl - (8 - off)) / 8 := by
  unfold n_full_byte n_high_bit n_low_bit; omega

theorem n_high_bit_short (bl off : Nat) (h : off ≤ 7) (hn : bl < 8 - off) :
    n_high_bit bl off = off + bl := by
  unfold n_high_bit n_low_bit; omega

theorem n_full_byte_short (bl off : Nat) (h : off ≤ 7) (hn : bl < 8 - off) :
    n_full_byte bl off = 31 := by
  unfold n_full_byte n_high_bit n_low_bit; omega

theorem or_shiftLeft_of_lt {a s : Nat} (c : Nat) (h : a < 2 ^ s) : a ||| (c <<< s) = a + c * 2 ^ s := by
  rw [Nat.shiftLeft_eq, Nat.or_comm, Nat.mul_comm, ← Nat.mul_add_lt_is_or h, Nat.add_comm]

theorem bytesLE_length (n x : Nat) : (bytesLE n x).length = n := by
  induction n generalizing x with
  | zero => rfl
  | succ n ih => simp [bytesLE, ih]

theorem write_full_bytes_eq (n x : Nat) (w : Writer) :
    write_full_bytes n x w = (x >>> (8 * n), w ++ bytesLE n x) := by
  induction n generalizing x w with
  | zero => simp [write_full_bytes, bytesLE]
  | succ n ih =>
    simp only [write_full_bytes, bytesLE, ih, WriteByte, List.append_assoc, List.singleton_append]
    rw [← Nat.shiftRight_add]
    congr 2
    omega

theorem component_to_bytes_loop_cons (bl x : Nat) (rest : List Nat) (b off : Nat) (w : Writer) :
    component_to_bytes_loop bl (x :: rest) b off w =
      component_to_bytes_loop bl rest (value_carry bl x off) (n_high_bit bl off)
        (w ++ value_bytes bl x b off) := by
  simp [component_to_bytes_loop, write_full_bytes_eq, value_bytes, value_carry, WriteByte]

theorem component_to_bytes_loop_append (bl : Nat) (src : List Nat) (b off : Nat) (w : Writer) :
    component_to_bytes_loop bl src b off w =
      ((component_to_bytes_loop bl src b off []).1, (component_to_bytes_loop bl src b off []).2.1,
        w ++ (component_to_bytes_loop bl src b off []).2.2) := by
  induction src generalizing b off w with
  | nil => simp [component_to_bytes_loop]
  | cons x rest ih =>
    rw [component_to_bytes_loop_cons, component_to_bytes_loop_cons, ih, ih (w := [] ++ _)]
    simp

theorem first_byte_eq (x b off : Nat) (hoff : off ≤ 7) (hb : b < 2 ^ off) :
    b ||| ((((x % 256) &&& byte_mask (n_low_bit off)) <<< off) % 256)
      = b + (x % 2 ^ (8 - off)) * 2 ^ off := by
  rw [n_low_bit_eq off hoff, byte_mask_eq _ (by omega), Nat.and_pow_two_sub_one_eq_mod]
  have h256 : (256 : Nat) = 2 ^ (8 - off) * 2 ^ off := by
    rw [← Nat.pow_add, show 8 - off + off = 8 by omega]
  have hdvd : 2 ^ (8 - off) ∣ 256 := ⟨2 ^ off, h256⟩
  rw [Nat.mod_mod_of_dvd _ hdvd]
  have hlt : x % 2 ^ (8 - off) < 2 ^ (8 - off) := Nat.mod_lt _ (by positivity)
  have hlt2 : (x % 2 ^ (8 - off)) <<< off < 256 := by
    rw [Nat.shiftLeft_eq, h256]
    exact Nat.mul_lt_mul_of_pos_right hlt (by positivity)
  rw [Nat.mod_eq_of_lt hlt2, or_shiftLeft_of_lt _ hb]

theorem first_byte_and_mask (x b off : Nat) (hoff : off ≤ 7) (hb : b < 2 ^ off) :
    (b ||| ((((x % 256) &&& byte_mask (n_low_bit off)) <<< off) % 256)) &&& byte_mask off = b := by
  rw [first_byte_eq x b off hoff hb, byte_mask_eq _ (by omega), Nat.and_pow_two_sub_one_eq_mod,
    Nat.add_mul_mod_self_right, Nat.mod_eq_of_lt hb]

theorem first_byte_shiftRight (x b off : Nat) (hoff : off ≤ 7) (hb : b < 2 ^ off) :
    (b ||| ((((x % 256) &&& byte_mask (n_low_bit off)) <<< off) % 256)) >>> off
      = x % 2 ^ (8 - off) := by
  rw [first_byte_eq x b off hoff hb, Nat.shiftRight_eq_div_pow,
    Nat.add_mul_div_right _ _ (by positivity), Nat.div_eq_of_lt hb, Nat.zero_add]

theorem orBytes_zero (n x sh : Nat) : orBytes (bytesLE n 0) x sh = x := by
  induction n generalizing sh with
  | zero => rfl
  | succ n ih => simp [bytesLE, orBytes, ih]

theorem orBytes_bytesLE (n y x sh : Nat) (hx : x < 2 ^ sh) (hsh : sh + 8 * n ≤ 64) :
    orBytes (bytesLE n y) x sh = x + (y % 2 ^ (8 * n)) * 2 ^ sh := by
  induction n generalizing y x sh with
  | zero => simp [bytesLE, orBytes, Nat.mod_one]
  | succ n ih =>
    simp only [bytesLE, orBytes]
    have hb : (y % 256) * 2 ^ sh < 2 ^ (sh + 8) := by
      rw [Nat.pow_add, Nat.mul_comm]
      exact Nat.mul_lt_mul_of_pos_left (Nat.mod_lt _ (by norm_num)) (by positivity)
    have h64 : (y % 256) <<< sh < 2 ^ 64 := by
      rw [Nat.shiftLeft_eq]
      exact lt_of_lt_of_le hb (Nat.pow_le_pow_right (by norm_num) (by omega))
    rw [Nat.mod_eq_of_lt h64, or_shiftLeft_of_lt _ hx, Nat.mod_eq_of_lt (by omega : sh + 8 < 256)]
    have hx1 : x + (y % 256) * 2 ^ sh < 2 ^ (sh + 8) := by
      have h1 : (y % 256) * 2 ^ sh ≤ 255 * 2 ^ sh :=
        Nat.mul_le_mul_right _ (by omega)
      have h2 : (2 : Nat) ^ (sh + 8) = 256 * 2 ^ sh := by rw [Nat.pow_add]; ring
      omega
    rw [ih _ _ _ hx1 (by omega), Nat.shiftRight_eq_div_pow]
    have e : (2 : Nat) ^ (8 * (n + 1)) = 256 * 2 ^ (8 * n) := by
      rw [show 8 * (n + 1) = 8 + 8 * n by ring, Nat.pow_add]
    rw [e, Nat.mod_mul, Nat.pow_add]
    norm_num
    ring

theorem value_carry_lt (bl x off : Nat) (hbl : bl ≤ 64) (hoff : off ≤ 7) (hx : x < 2 ^ bl) :
    value_carry bl x off < 2 ^ n_high_bit bl off := by
  unfold value_carry
  rw [n_low_bit_eq off hoff]
  by_cases hn : 8 - off ≤ bl
  · rw [n_full_byte_normal bl off hoff hbl hn, n_high_bit_normal bl off hoff hbl hn,
      ← Nat.shiftRight_add, Nat.shiftRight_eq_div_pow]
    have hsplit : bl = (8 - off + 8 * ((bl - (8 - off)) / 8)) + (bl - (8 - off)) % 8 := by omega
    have h1 : x / 2 ^ (8 - off + 8 * ((bl - (8 - off)) / 8)) < 2 ^ ((bl - (8 - off)) % 8) := by
      apply Nat.div_lt_of_lt_mul
      rw [← Nat.pow_add, ← hsplit]
      exact hx
    exact lt_of_le_of_lt (Nat.mod_le _ _) h1
  · have hn2 : bl < 8 - off := by omega
    have hx0 : x >>> (8 - off) = 0 := by
      rw [Nat.shiftRight_eq_div_pow]
      exact Nat.div_eq_of_lt (lt_of_lt_of_le hx (Nat.pow_le_pow_right (by norm_num) (by omega)))
    rw [hx0]
    simp

theorem value_decode (bl x bw off t : Nat) (hbl : bl ≤ 64) (hoff : off ≤ 7)
    (hbw : bw < 2 ^ off) (hx : x < 2 ^ bl)
    (ht : t &&& byte_mask (n_high_bit bl off) = value_carry bl x off) :
    orBytes (bytesLE (n_full_byte bl off) (x >>> n_low_bit off))
        ((bw ||| ((((x % 256) &&& byte_mask (n_low_bit off)) <<< off) % 256)) >>> off)
        (n_low_bit off)
      ||| (((t &&& byte_mask (n_high_bit bl off))
            <<< ((n_low_bit off + 8 * n_full_byte bl off) % 256)) % 2 ^ 64) = x := by
  rw [first_byte_shiftRight x bw off hoff hbw, ht]
  unfold value_carry
  rw [n_low_bit_eq off hoff]
  by_cases hn : 8 - off ≤ bl
  · rw [n_full_byte_normal bl off hoff hbl hn]
    generalize hnf : (bl - (8 - off)) / 8 = nf
    have hs64 : 8 - off + 8 * nf ≤ bl := by omega
    have hsplit : bl = (8 - off + 8 * nf) + (bl - (8 - off)) % 8 := by omega
    rw [orBytes_bytesLE _ _ _ _ (Nat.mod_lt _ (by positivity)) (by omega),
      ← Nat.shiftRight_add, Nat.shiftRight_eq_div_pow, Nat.shiftRight_eq_div_pow,
      Nat.mod_eq_of_lt (by omega : 8 - off + 8 * nf < 256)]
    have hq : x / 2 ^ (8 - off + 8 * nf) < 2 ^ ((bl - (8 - off)) % 8) := by
      apply Nat.div_lt_of_lt_mul
      rw [← Nat.pow_add, ← hsplit]
      exact hx
    have hq256 : x / 2 ^ (8 - off + 8 * nf) < 256 :=
      lt_of_lt_of_le hq (by
        calc 2 ^ ((bl - (8 - off)) % 8) ≤ 2 ^ 8 := Nat.pow_le_pow_right (by norm_num) (by omega)
          _ = 256 := by norm_num)
    rw [Nat.mod_eq_of_lt hq256]
    have hlow : x % 2 ^ (8 - off) + x / 2 ^ (8 - off) % 2 ^ (8 * nf) * 2 ^ (8 - off)
        = x % 2 ^ (8 - off + 8 * nf) := by
      rw [Nat.pow_add, Nat.mod_mul, Nat.mul_comm]
    rw [hlow]
    have hx64 : x < 2 ^ 64 := lt_of_lt_of_le hx (Nat.pow_le_pow_right (by norm_num) hbl)
    have hsh : (x / 2 ^ (8 - off + 8 * nf)) <<< (8 - off + 8 * nf) < 2 ^ 64 := by
      rw [Nat.shiftLeft_eq]
      exact lt_of_le_of_lt (Nat.div_mul_le_self _ _) hx64
    rw [Nat.mod_eq_of_lt hsh, or_shiftLeft_of_lt _ (Nat.mod_lt _ (by positivity))]
    exact Nat.mod_add_div' _ _
  · have hn2 : bl < 8 - off := by omega
    have hxl : x < 2 ^ (8 - off) :=
      lt_of_lt_of_le hx (Nat.pow_le_pow_right (by norm_num) (by omega))
    have hx0 : x >>> (8 - off) = 0 := by
      rw [Nat.shiftRight_eq_div_pow]
      exact Nat.div_eq_of_lt hxl
    rw [hx0, orBytes_zero, Nat.mod_eq_of_lt hxl]
    simp

theorem ReadByte_s (r : Reader) : (ReadByte r).2.s = r.s := by
  unfold ReadByte; split <;> rfl

theorem ReadByte_fst (r : Reader) : (ReadByte r).1 = (r.s.drop r.i).headD 0 := by
  unfold ReadByte
  split
  · rename_i h
    simp [List.drop_eq_nil_of_le h]
  · rename_i h
    have h2 : r.i < r.s.length := by omega
    rw [List.drop_eq_getElem_cons h2]
    simp [List.getD_eq_getElem _ _ h2]

theorem ReadByte_drop (r : Reader) :
    (ReadByte r).2.s.drop (ReadByte r).2.i = (r.s.drop r.i).tail := by
  unfold ReadByte
  split
  · rename_i h
    simp [List.drop_eq_nil_of_le h]
  · simp [List.tail_drop]

theorem ReadByte_le (r : Reader) (h : r.i ≤ r.s.length) :
    (ReadByte r).2.i ≤ (ReadByte r).2.s.length := by
  unfold ReadByte
  split
  · exact h
  · simp only; omega

theorem View_start (r : Reader) (h : r.i ≤ r.s.length) :
    View (ReadByte r).1 (ReadByte r).2 (r.s.drop r.i) :=
  ⟨ReadByte_fst r, ReadByte_drop r, ReadByte_le r h⟩

theorem View_next {b : Nat} {r : Reader} {V : List Nat} (h : View b r V) :
    View (ReadByte r).1 (ReadByte r).2 V.tail := by
  obtain ⟨_, h2, h3⟩ := h
  refine ⟨?_, ?_, ReadByte_le r h3⟩
  · rw [ReadByte_fst, h2]
  · rw [ReadByte_drop, h2]

theorem read_full_bytes_spec (bytes T : List Nat) (x b sh : Nat) (r : Reader)
    (hsh : sh < 256) (hv : View b r (bytes ++ T)) :
    (read_full_bytes bytes.length x b sh r).1 = orBytes bytes x sh ∧
    (read_full_bytes bytes.length x b sh r).2.2.1 = (sh + 8 * bytes.length) % 256 ∧
    (read_full_bytes bytes.length x b sh r).2.2.2.s = r.s ∧
    View (read_full_bytes bytes.length x b sh r).2.1
      (read_full_bytes bytes.length x b sh r).2.2.2 T := by
  induction bytes generalizing x b sh r with
  | nil =>
    refine ⟨rfl, ?_, rfl, hv⟩
    simp only [List.length_nil, read_full_bytes, Nat.mul_zero, Nat.add_zero]
    exact (Nat.mod_eq_of_lt hsh).symm
  | cons y ys ih =>
    have hb : b = y := hv.1
    have hv2 := View_next hv
    simp only [List.cons_append, List.tail_cons] at hv2
    simp only [List.length_cons, read_full_bytes, orBytes]
    obtain ⟨h1, h2, h3, h4⟩ := ih (x ||| ((b <<< sh) % 2 ^ 64)) (ReadByte r).1 ((sh + 8) % 256)
      (ReadByte r).2 (Nat.mod_lt _ (by norm_num)) hv2
    refine ⟨?_, ?_, ?_, h4⟩
    · rw [h1, hb]
    · rw [h2]; omega
    · rw [h3, ReadByte_s]

theorem component_to_bytes_loop_cons_nil (bl x : Nat) (rest : List Nat) (b off : Nat) :
    component_to_bytes_loop bl (x :: rest) b off [] =
      ((component_to_bytes_loop bl rest (value_carry bl x off) (n_high_bit bl off) []).1,
       (component_to_bytes_loop bl rest (value_carry bl x off) (n_high_bit bl off) []).2.1,
       value_bytes bl x b off
         ++ (component_to_bytes_loop bl rest (value_carry bl x off) (n_high_bit bl off) []).2.2) := by
  rw [component_to_bytes_loop_cons, component_to_bytes_loop_append]
  simp

theorem loop_carry_lt (bl : Nat) (hbl : bl ≤ 64) (src : List Nat) (bw off : Nat)
    (hoff : off ≤ 7) (hbw : bw < 2 ^ off) (hsrc : ∀ x ∈ src, x < 2 ^ bl) :
    (component_to_bytes_loop bl src bw off []).1
        < 2 ^ (component_to_bytes_loop bl src bw off []).2.1 ∧
      (component_to_bytes_loop bl src bw off []).2.1 ≤ 7 := by
  induction src generalizing bw off with
  | nil => exact ⟨hbw, hoff⟩
  | cons x rest ih =>
    rw [component_to_bytes_loop_cons_nil]
    exact ih _ _ (n_high_bit_le bl off)
      (value_carry_lt bl x off hbl hoff (hsrc x (List.mem_cons_self _ _)))
      (fun y hy => hsrc y (List.mem_cons_of_mem _ hy))

theorem loop_head_mask (bl : Nat) (src : List Nat) (bw off : Nat) (T : List Nat)
    (hoff : off ≤ 7) (hbw : bw < 2 ^ off)
    (hT : (T.headD 0) &&& byte_mask (component_to_bytes_loop bl src bw off []).2.1
      = (component_to_bytes_loop bl src bw off []).1) :
    (((component_to_bytes_loop bl src bw off []).2.2 ++ T).headD 0) &&& byte_mask off = bw := by
  cases src with
  | nil => simpa [component_to_bytes_loop] using hT
  | cons x rest =>
    rw [component_to_bytes_loop_cons_nil]
    simp only [value_bytes, List.cons_append, List.headD_cons]
    exact first_byte_and_mask x bw off hoff hbw

theorem bytes_to_component_loop_spec (bl : Nat) (hbl : bl ≤ 64) (src : List Nat)
    (bw off b : Nat) (r : Reader) (T : List Nat)
    (hoff : off ≤ 7) (hbw : bw < 2 ^ off) (hsrc : ∀ x ∈ src, x < 2 ^ bl)
    (hv : View b r ((component_to_bytes_loop bl src bw off []).2.2 ++ T))
    (hT : (T.headD 0) &&& byte_mask (component_to_bytes_loop bl src bw off []).2.1
      = (component_to_bytes_loop bl src bw off []).1) :
    (bytes_to_component_loop bl src.length b off r).1 = src ∧
    (bytes_to_component_loop bl src.length b off r).2.1
      = (component_to_bytes_loop bl src bw off []).2.1 ∧
    (bytes_to_component_loop bl src.length b off r).2.2.s = r.s ∧
    (∃ b2, View b2 (bytes_to_component_loop bl src.length b off r).2.2 T) := by
  induction src generalizing bw off b r with
  | nil =>
    exact ⟨rfl, rfl, rfl, b, hv⟩
  | cons x rest ih =>
    have hx : x < 2 ^ bl := hsrc x (List.mem_cons_self _ _)
    have hrest : ∀ y ∈ rest, y < 2 ^ bl := fun y hy => hsrc y (List.mem_cons_of_mem _ hy)
    rw [component_to_bytes_loop_cons_nil] at hv hT
    simp only at hv hT
    have hcl := value_carry_lt bl x off hbl hoff hx
    have hnh := n_high_bit_le bl off
    -- the tail of the stream after this value
    set T1 := (component_to_bytes_loop bl rest (value_carry bl x off) (n_high_bit bl off) []).2.2
      ++ T with hT1
    have hmask : (T1.headD 0) &&& byte_mask (n_high_bit bl off) = value_carry bl x off :=
      loop_head_mask bl rest _ _ T hnh hcl hT
    have hb : b = bw ||| ((((x % 256) &&& byte_mask (n_low_bit off)) <<< off) % 256) := by
      have := hv.1
      simpa [value_bytes] using this
    have hv1 := View_next hv
    simp only [value_bytes, List.cons_append, List.tail_cons, List.append_assoc] at hv1
    have hnl : n_low_bit off < 256 := by rw [n_low_bit_eq off hoff]; omega
    have hlen := bytesLE_length (n_full_byte bl off) (x >>> n_low_bit off)
    obtain ⟨h1, h2, h3, h4⟩ := read_full_bytes_spec
      (bytesLE (n_full_byte bl off) (x >>> n_low_bit off)) T1 (b >>> off) (ReadByte r).1
      (n_low_bit off) (ReadByte r).2 hnl hv1
    rw [hlen] at h1 h2 h3 h4
    obtain ⟨i1, i2, i3, i4⟩ := ih (value_carry bl x off) (n_high_bit bl off) _ _ hnh hcl hrest h4 hT
    simp only [List.length_cons, bytes_to_component_loop]
    refine ⟨?_, ?_, ?_, i4⟩
    · rw [i1]
      congr 1
      rw [h1, h2, h4.1, hb]
      exact value_decode bl x bw off _ hbl hoff hbw hx hmask
    · rw [i2, component_to_bytes_loop_cons_nil]
    · rw [i3, h3, ReadByte_s]

theorem component_to_bytes_append (src : List Nat) (bl : Nat) (w : Writer) :
    component_to_bytes src bl w = w ++ component_to_bytes src bl [] := by
  unfold component_to_bytes
  rw [component_to_bytes_loop_append]
  simp only [WriteByte]
  split <;> simp

theorem n_high_bit_eq_mod (bl off : Nat) (hoff : off ≤ 7) :
    n_high_bit bl off = (off + bl) % 8 := by
  unfold n_high_bit n_low_bit; omega

theorem loop_final_offset (bl : Nat) (src : List Nat) (b off : Nat) (hoff : off ≤ 7) :
    (component_to_bytes_loop bl src b off []).2.1 = (off + src.length * bl) % 8 := by
  induction src generalizing b off with
  | nil => simp [component_to_bytes_loop]; omega
  | cons x rest ih =>
    rw [component_to_bytes_loop_cons_nil]
    simp only [List.length_cons]
    rw [ih _ _ (n_high_bit_le bl off), n_high_bit_eq_mod bl off hoff, Nat.add_mul]
    omega

theorem Reader_pos_of_drop (r : Reader) (L : List Nat) (h : r.i ≤ r.s.length)
    (hd : r.s.drop r.i = L) : r.i = r.s.length - L.length := by
  have := congrArg List.length hd
  rw [List.length_drop] at this
  omega

/-- Reading back a component from the middle of a stream: the values are recovered, and the
cursor ends right after the component unless the component ends on a byte boundary at the very
end of the slice, in which case `UnreadByte` takes the cursor one byte back. -/
theorem bytes_to_component_stream (bl : Nat) (hbl : bl ≤ 64) (src : List Nat)
    (hsrc : ∀ x ∈ src, x < 2 ^ bl) (w rest : List Nat) :
    bytes_to_component ⟨component_to_bytes src bl w ++ rest, w.length⟩ bl src.length
      = (⟨component_to_bytes src bl w ++ rest,
          if rest = [] ∧ (src.length * bl) % 8 = 0
          then (component_to_bytes src bl w).length - 1
          else (component_to_bytes src bl w).length⟩, src) := by
  have hinv := loop_carry_lt bl hbl src 0 0 (by norm_num) (by norm_num) hsrc
  have hoffs := loop_final_offset bl src 0 0 (by norm_num)
  rw [Nat.zero_add] at hoffs
  have hspec := fun b r T => bytes_to_component_loop_spec bl hbl src 0 0 b r T
    (by norm_num) (by norm_num) hsrc
  have hW : component_to_bytes src bl w
      = w ++ (component_to_bytes_loop bl src 0 0 []).2.2
          ++ (if (component_to_bytes_loop bl src 0 0 []).2.1 > 0
              then [(component_to_bytes_loop bl src 0 0 []).1] else []) := by
    rw [component_to_bytes_append]
    unfold component_to_bytes
    simp only [WriteByte]
    split <;> simp
  -- name the loop output, the final carry and the final offset
  generalize (component_to_bytes_loop bl src 0 0 []).2.2 = out at hW hspec
  generalize (component_to_bytes_loop bl src 0 0 []).1 = bf at hW hspec hinv
  generalize (component_to_bytes_loop bl src 0 0 []).2.1 = offf at hW hspec hinv hoffs
  rw [← hoffs, hW]
  obtain ⟨T, hTdef⟩ : ∃ T, T = (if offf > 0 then [bf] else []) ++ rest := ⟨_, rfl⟩
  have hs : w ++ out ++ (if offf > 0 then [bf] else []) ++ rest = w ++ (out ++ T) := by
    rw [hTdef]; simp
  have hT : (T.headD 0) &&& byte_mask offf = bf := by
    by_cases ho : offf > 0
    · simp only [hTdef, if_pos ho, List.singleton_append, List.headD_cons]
      rw [byte_mask_eq _ (by omega), Nat.and_pow_two_sub_one_eq_mod, Nat.mod_eq_of_lt hinv.1]
    · have ho0 : offf = 0 := by omega
      have hb0 : bf = 0 := by
        have := hinv.1
        rw [ho0] at this
        simpa using this
      rw [ho0, hb0]
      simp [byte_mask]
  have hv0 : View (ReadByte ⟨w ++ (out ++ T), w.length⟩).1 (ReadByte ⟨w ++ (out ++ T), w.length⟩).2
      (out ++ T) := by
    have := View_start ⟨w ++ (out ++ T), w.length⟩ (by simp)
    simpa using this
  obtain ⟨h1, h2, h3, b2, -, h5, h6⟩ := hspec _ _ T hv0 hT
  rw [ReadByte_s] at h3
  have hpos := Reader_pos_of_drop _ _ h6 h5
  rw [h3] at hpos
  unfold bytes_to_component
  rw [hs]
  simp only [h1, h2]
  congr 1
  generalize bytes_to_component_loop bl src.length (ReadByte ⟨w ++ (out ++ T), w.length⟩).1 0
    (ReadByte ⟨w ++ (out ++ T), w.length⟩).2 = res at h3 hpos ⊢
  obtain ⟨d, o, rs, ri⟩ := res
  simp only at h3 hpos
  subst h3
  simp only [List.length_append] at hpos
  by_cases ho : offf > 0
  · have hne : offf ≠ 0 := by omega
    have hTl : T.tail.length = rest.length := by simp [hTdef, if_pos ho]
    have hTl2 : T.length = rest.length + 1 := by simp [hTdef, if_pos ho]
    simp only [if_neg hne, hne, and_false, if_false, Reader.mk.injEq, true_and]
    simp only [if_pos ho, List.length_append, List.length_singleton]
    omega
  · have ho0 : offf = 0 := by omega
    have hTr : T = rest := by simp [hTdef, ho]
    subst hTr
    subst ho0
    simp only [if_true, and_true]
    simp only [lt_self_iff_false, if_false, List.append_nil, List.length_append, gt_iff_lt]
    unfold UnreadByte
    by_cases hrest : T = []
    · subst hrest
      simp only [List.tail_nil, List.length_nil, Nat.sub_zero, Nat.add_zero] at hpos
      simp only [if_true]
      split
      · simp only [Reader.mk.injEq, true_and]; simp only at *; omega
      · simp only [Reader.mk.injEq, true_and]; omega
    · have hrl : T.tail.length = T.length - 1 := by simp
      have hrpos : 0 < T.length := List.length_pos.mpr hrest
      simp only [if_neg hrest]
      split
      · simp only [Reader.mk.injEq, true_and]; simp only at *; omega
      · simp only [Reader.mk.injEq, true_and]; omega

theorem ReadByte_at (pre post : List Nat) (x : Nat) :
    ReadByte ⟨pre ++ x :: post, pre.length⟩ = (x, ⟨pre ++ x :: post, pre.length + 1⟩) := by
  unfold ReadByte
  have h : (pre ++ x :: post)[pre.length]? = some x := by
    rw [List.getElem?_append_right (le_refl _)]; simp
  simp [List.getD_eq_getElem?_getD, h]

theorem ReadBool_at (pre post : List Nat) (x : Nat) (old : Bool) :
    ReadBool ⟨pre ++ x :: post, pre.length⟩ old = (x != 0, ⟨pre ++ x :: post, pre.length + 1⟩) := by
  unfold ReadBool
  have h : (pre ++ x :: post)[pre.length]? = some x := by
    rw [List.getElem?_append_right (le_refl _)]; simp
  simp [List.getD_eq_getElem?_getD, h]

theorem component_to_bytes_nil (bl : Nat) (w : Writer) : component_to_bytes [] bl w = w := by
  simp [component_to_bytes, component_to_bytes_loop]

theorem component_to_bytes_length_pos (x : Nat) (xs : List Nat) (bl : Nat) :
    1 ≤ (component_to_bytes (x :: xs) bl []).length := by
  unfold component_to_bytes
  rw [component_to_bytes_loop_cons_nil]
  simp only [value_bytes, WriteByte]
  split <;> simp

theorem bytes_to_component_zero (r : Reader) (bl : Nat) :
    (bytes_to_component r bl 0).2 = [] ∧ (bytes_to_component r bl 0).1.s = r.s ∧
      (r.i < r.s.length → (bytes_to_component r bl 0).1 = r) := by
  unfold bytes_to_component
  simp only [bytes_to_component_loop, if_true]
  refine ⟨trivial, ?_, ?_⟩
  · unfold UnreadByte ReadByte
    split <;> split <;> simp
  · intro h
    unfold UnreadByte ReadByte
    have h1 : ¬ (r.i ≥ r.s.length) := by omega
    simp [h1]

theorem LimbsOK_of_index (N : Nat) (q : List Nat) (cs : List (List Nat)) (j : Nat)
    (h : ∀ k c, cs[k]? = some c →
      ∃ bl, q[j + k]? = some bl ∧ bl ≤ 64 ∧ c.length = N ∧ ∀ x ∈ c, x < 2 ^ bl) :
    LimbsOK N q j cs := by
  induction cs generalizing j with
  | nil => trivial
  | cons c cs ih =>
    refine ⟨by simpa using h 0 c (by simp), ih (j + 1) ?_⟩
    intro k c' hk
    have := h (k + 1) c' (by simpa using hk)
    rwa [show j + (k + 1) = j + 1 + k by omega] at this

theorem LimbsOK_zero (q : List Nat) (j : Nat) (cs : List (List Nat)) (h : LimbsOK 0 q j cs) :
    cs = List.replicate cs.length [] := by
  induction cs generalizing j with
  | nil => rfl
  | cons c cs ih =>
    obtain ⟨⟨bl, -, -, hc, -⟩, h2⟩ := h
    rw [List.length_cons, List.replicate_succ, ← ih _ h2, List.length_eq_zero.mp hc]

theorem poly_to_bytes_loop_zero (level : Nat) (q : List Nat) (cs : List (List Nat)) (j : Nat)
    (w : Writer) (h : LimbsOK 0 q j cs) :
    poly_to_bytes_loop 0 level q 0 cs j w = some w := by
  induction cs generalizing j with
  | nil => rfl
  | cons c cs ih =>
    obtain ⟨⟨bl, hq, -, hc, -⟩, h2⟩ := h
    have hc0 : c = [] := List.length_eq_zero.mp hc
    simp only [poly_to_bytes_loop, hq, ne_eq, not_true_eq_false, and_false, if_false, hc0,
      component_to_bytes_nil]
    exact ih _ h2

theorem bytes_to_poly_loop_zero (level : Nat) (q : List Nat) (cs : List (List Nat)) (j : Nat)
    (r : Reader) (h : LimbsOK 0 q j cs) :
    ∃ r2, bytes_to_poly_loop 0 level q 0 cs.length j r = some (r2, cs) ∧ r2.s = r.s ∧
      (r.i < r.s.length → r2 = r) := by
  induction cs generalizing j r with
  | nil => exact ⟨r, rfl, rfl, fun _ => rfl⟩
  | cons c cs ih =>
    obtain ⟨⟨bl, hq, -, hc, -⟩, h2⟩ := h
    have hc0 : c = [] := List.length_eq_zero.mp hc
    obtain ⟨z1, z2, z3⟩ := bytes_to_component_zero r bl
    obtain ⟨r2, e1, e2, e3⟩ := ih (j + 1) (bytes_to_component r bl 0).1 h2
    refine ⟨r2, ?_, by rw [e2, z2], ?_⟩
    · simp only [List.length_cons, bytes_to_poly_loop, hq, ne_eq, not_true_eq_false, and_false,
        if_false, e1, z1, hc0]
    · intro hlt
      have := z3 hlt
      rw [this] at e3
      rw [e3 hlt]

theorem poly_to_bytes_loop_length (N level : Nat) (q : List Nat) (cs : List (List Nat)) (j : Nat)
    (w : Writer) (hN : 0 < N) (h : LimbsOK N q j cs) :
    ∃ out, poly_to_bytes_loop N level q 0 cs j w = some (w ++ out) ∧ cs.length ≤ out.length := by
  induction cs generalizing j w with
  | nil => exact ⟨[], by simp [poly_to_bytes_loop], le_refl _⟩
  | cons c cs ih =>
    obtain ⟨⟨bl, hq, -, hc, -⟩, h2⟩ := h
    obtain ⟨out, e1, e2⟩ := ih (j + 1) (component_to_bytes c bl w) h2
    refine ⟨component_to_bytes c bl [] ++ out, ?_, ?_⟩
    · simp only [poly_to_bytes_loop, hq, ne_eq, not_true_eq_false, and_false, if_false, e1]
      rw [component_to_bytes_append, List.append_assoc]
    · cases c with
      | nil => simp at hc; omega
      | cons x xs =>
        have := component_to_bytes_length_pos x xs bl
        simp only [List.length_append, List.length_cons]
        omega

theorem poly_loop_roundtrip_pos (N level : Nat) (q : List Nat) (cs : List (List Nat)) (j : Nat)
    (w : List Nat) (hN : 0 < N) (h : LimbsOK N q j cs) :
    ∃ out, poly_to_bytes_loop N level q 0 cs j w = some (w ++ out) ∧ ∀ rest, ∃ pos,
      bytes_to_poly_loop N level q 0 cs.length j ⟨w ++ out ++ rest, w.length⟩
        = some (⟨w ++ out ++ rest, pos⟩, cs) ∧
      (rest ≠ [] → pos = (w ++ out).length) := by
  induction cs generalizing j w with
  | nil =>
    exact ⟨[], by simp [poly_to_bytes_loop], fun rest =>
      ⟨w.length, by simp [bytes_to_poly_loop], by simp⟩⟩
  | cons c cs ih =>
    obtain ⟨⟨bl, hq, hbl, hc, hx⟩, h2⟩ := h
    obtain ⟨out, e1, e23⟩ := ih (j + 1) (component_to_bytes c bl w) h2
    obtain ⟨out', e1', hlen⟩ := poly_to_bytes_loop_length N level q cs (j + 1)
      (component_to_bytes c bl w) hN h2
    have hout : out' = out := by
      rw [e1] at e1'
      exact (List.append_cancel_left (Option.some.inj e1')).symm
    subst hout
    refine ⟨component_to_bytes c bl [] ++ out', ?_, ?_⟩
    · simp only [poly_to_bytes_loop, hq, ne_eq, not_true_eq_false, and_false, if_false, e1]
      rw [component_to_bytes_append c bl w, List.append_assoc]
    intro rest
    obtain ⟨pos, e2, e3⟩ := e23 rest
    have hstream := bytes_to_component_stream bl hbl c hx w (out' ++ rest)
    rw [hc] at hstream
    have hassoc : w ++ (component_to_bytes c bl [] ++ out') ++ rest
        = component_to_bytes c bl w ++ (out' ++ rest) := by
      rw [component_to_bytes_append c bl w]; simp
    have hassoc2 : component_to_bytes c bl w ++ out' ++ rest
        = component_to_bytes c bl w ++ (out' ++ rest) := by simp
    by_cases hemp : out' ++ rest = []
    · -- nothing follows this limb: it is the last one
      have ho : out' = [] := (List.append_eq_nil.mp hemp).1
      have hr : rest = [] := (List.append_eq_nil.mp hemp).2
      have hcs : cs = [] := by
        rw [ho] at hlen
        exact List.length_eq_zero.mp (Nat.le_zero.mp hlen)
      subst hcs
      refine ⟨(if out' ++ rest = [] ∧ N * bl % 8 = 0
          then (component_to_bytes c bl w).length - 1
          else (component_to_bytes c bl w).length), ?_, fun hne => absurd hr hne⟩
      simp only [List.length_cons, List.length_nil, bytes_to_poly_loop, hq, ne_eq,
        not_true_eq_false, and_false, if_false, Nat.zero_add]
      rw [hassoc, hstream]
    · refine ⟨pos, ?_, ?_⟩
      · have hne : ¬ (out' ++ rest = [] ∧ N * bl % 8 = 0) := fun hh => hemp hh.1
        rw [if_neg hne] at hstream
        simp only [List.length_cons, bytes_to_poly_loop, hq, ne_eq, not_true_eq_false, and_false,
          if_false]
        rw [hassoc, hstream]
        simp only
        rw [← hassoc2, e2]
      · intro hne
        rw [e3 hne, component_to_bytes_append c bl w]
        simp

/-- Polynomial limbs written without compression are read back, from any position of a stream;
when more bytes follow, the cursor ends right after the limbs. -/
theorem poly_loop_roundtrip (N level : Nat) (q : List Nat) (cs : List (List Nat)) (j : Nat)
    (w : List Nat) (h : LimbsOK N q j cs) :
    ∃ out, poly_to_bytes_loop N level q 0 cs j w = some (w ++ out) ∧ ∀ rest, ∃ pos,
      bytes_to_poly_loop N level q 0 cs.length j ⟨w ++ out ++ rest, w.length⟩
        = some (⟨w ++ out ++ rest, pos⟩, cs) ∧
      (rest ≠ [] → pos = (w ++ out).length) := by
  rcases Nat.eq_zero_or_pos N with hN | hN
  · subst hN
    refine ⟨[], by simp [poly_to_bytes_loop_zero level q cs j w h], fun rest => ?_⟩
    obtain ⟨r2, e1, e2, e3⟩ := bytes_to_poly_loop_zero level q cs j ⟨w ++ [] ++ rest, w.length⟩ h
    obtain ⟨s2, i2⟩ := r2
    simp only at e2
    subst e2
    refine ⟨i2, e1, ?_⟩
    intro hne
    have hlt : w.length < (w ++ [] ++ rest).length := by
      have := List.length_pos.mpr hne
      simp; omega
    have := e3 hlt
    simp only [Reader.mk.injEq, true_and] at this
    simp [this]
  · exact poly_loop_roundtrip_pos N level q cs j w hN h

theorem flag_byte_ne_zero (v : Bool) : ((if v then 1 else 0 : Nat) != 0) = v := by
  cases v <;> rfl

/-- A polynomial written without compression is read back, from any position of a stream;
when more bytes follow, the cursor ends right after the polynomial. -/
theorem poly_roundtrip_stream (P : Poly) (q : List Nat) (N : Nat) (w : List Nat)
    (hne : P.Coeffs ≠ []) (h : LimbsOK N q 0 P.Coeffs) :
    ∃ out, poly_to_bytes P q 0 w = some (P, w ++ out) ∧ 3 ≤ out.length ∧ ∀ rest P0, ∃ pos,
      bytes_to_poly ⟨w ++ out ++ rest, w.length⟩ N P.Level q P0
        = some (⟨w ++ out ++ rest, pos⟩, P) ∧
      (rest ≠ [] → pos = (w ++ out).length) := by
  obtain ⟨cs, ntt, mform⟩ := P
  simp only at hne h
  have hPN : Poly.N ⟨cs, ntt, mform⟩ = some N := by
    cases cs with
    | nil => exact absurd rfl hne
    | cons c cs' =>
      obtain ⟨⟨bl, -, -, hc, -⟩, -⟩ := h
      simp [Poly.N, hc]
  have hlev : Poly.Level ⟨cs, ntt, mform⟩ + 1 = cs.length := by
    have := List.length_pos.mpr hne
    simp only [Poly.Level]; omega
  obtain ⟨out, e1, e23⟩ := poly_loop_roundtrip N (Poly.Level ⟨cs, ntt, mform⟩) q cs 0
    (w ++ [if ntt then 1 else 0, if mform then 1 else 0, 0]) h
  refine ⟨[if ntt then 1 else 0, if mform then 1 else 0, 0] ++ out, ?_, ?_, ?_⟩
  · simp only [poly_to_bytes, hPN, WriteBool, WriteByte, List.append_assoc, List.singleton_append,
      List.cons_append, List.nil_append]
    simp only [List.append_assoc, List.cons_append, List.nil_append] at e1
    rw [e1]
  · simp
  intro rest P0
  obtain ⟨pos, e2, e3⟩ := e23 rest
  refine ⟨pos, ?_, ?_⟩
  · have hs : w ++ ([if ntt then 1 else 0, if mform then 1 else 0, 0] ++ out) ++ rest
        = w ++ (if ntt then 1 else 0) :: ((if mform then 1 else 0) :: 0 :: (out ++ rest)) := by
      simp
    have hs2 : w ++ (if ntt then 1 else 0) :: ((if mform then 1 else 0) :: 0 :: (out ++ rest))
        = (w ++ [if ntt then 1 else 0]) ++ (if mform then 1 else 0) :: (0 :: (out ++ rest)) := by
      simp
    have hs3 : (w ++ [if ntt then 1 else 0]) ++ (if mform then 1 else 0) :: (0 :: (out ++ rest))
        = (w ++ [if ntt then 1 else 0, if mform then 1 else 0]) ++ 0 :: (out ++ rest) := by
      simp
    have hs4 : (w ++ [if ntt then 1 else 0, if mform then 1 else 0]) ++ 0 :: (out ++ rest)
        = w ++ [if ntt then 1 else 0, if mform then 1 else 0, 0] ++ out ++ rest := by
      simp
    have hl2 : w.length + 1 = (w ++ [if ntt then 1 else 0]).length := by simp
    have hl3 : (w ++ [if ntt then 1 else 0]).length + 1
        = (w ++ [if ntt then 1 else 0, if mform then 1 else 0]).length := by simp
    have hl4 : (w ++ [if ntt then 1 else 0, if mform then 1 else 0]).length + 1
        = (w ++ [if ntt then 1 else 0, if mform then 1 else 0, 0]).length := by simp
    unfold bytes_to_poly
    rw [hs, ReadBool_at]
    simp only
    rw [hs2, hl2, ReadBool_at]
    simp only
    rw [hs3, hl3, ReadByte_at]
    simp only
    rw [hs4, hl4, hlev, e2]
    simp only [flag_byte_ne_zero]
  · intro hr
    rw [e3 hr]
    simp

theorem Len64Aux_le (fuel x : Nat) : Len64Aux fuel x ≤ fuel := by
  induction fuel generalizing x with
  | zero => simp [Len64Aux]
  | succ n ih =>
    simp only [Len64Aux]
    split
    · omega
    · have := ih (x / 2); omega

theorem Len64Aux_lt (fuel x : Nat) (h : x < 2 ^ fuel) : x < 2 ^ Len64Aux fuel x := by
  induction fuel generalizing x with
  | zero => simpa [Len64Aux] using h
  | succ n ih =>
    simp only [Len64Aux]
    split
    · omega
    · have h2 : x / 2 < 2 ^ n := by
        rw [Nat.pow_succ] at h
        omega
      have := ih (x / 2) h2
      rw [Nat.add_comm 1, Nat.pow_succ]
      omega

theorem Len64_le (x : Nat) : Len64 x ≤ 64 := Len64Aux_le 64 _

theorem lt_two_pow_Len64 (x : Nat) (h : x < 2 ^ 64) : x < 2 ^ Len64 x := by
  unfold Len64
  rw [Nat.mod_eq_of_lt h]
  exact Len64Aux_lt 64 x h

theorem q_bit_lengths_of_spec (Q : List Nat) (n j : Nat) (h : j + n ≤ Q.length) :
    ∃ t, q_bit_lengths_of Q n j = some t ∧ t.length = n ∧
      ∀ k, k < n → ∃ qk, Q[j + k]? = some qk ∧ t[k]? = some (Len64 qk) := by
  induction n generalizing j with
  | zero => exact ⟨[], rfl, rfl, fun k hk => absurd hk (by omega)⟩
  | succ n ih =>
    obtain ⟨t, e1, e2, e3⟩ := ih (j + 1) (by omega)
    have hj : j < Q.length := by omega
    refine ⟨Len64 Q[j] :: t, ?_, by simp [e2], ?_⟩
    · simp only [q_bit_lengths_of, List.getElem?_eq_getElem hj, e1]
      rw [Nat.mod_eq_of_lt (lt_of_le_of_lt (Len64_le _) (by norm_num))]
    · intro k hk
      cases k with
      | zero => exact ⟨Q[j], by simp [List.getElem?_eq_getElem hj], by simp⟩
      | succ k =>
        obtain ⟨qk, a1, a2⟩ := e3 k (by omega)
        exact ⟨qk, by rw [← a1]; congr 1; omega, by simpa using a2⟩

theorem write_table_eq (w : Writer) (t : List Nat) (h : ∀ b ∈ t, b < 256) :
    write_table w t = w ++ t := by
  unfold write_table
  induction t generalizing w with
  | nil => simp
  | cons b t ih =>
    simp only [List.foldl_cons]
    rw [ih _ (fun x hx => h x (List.mem_cons_of_mem _ hx)),
      Nat.mod_eq_of_lt (h b (List.mem_cons_self _ _))]
    simp [WriteByte]

theorem read_table_at (t : List Nat) (pre post : List Nat) :
    read_table t.length ⟨pre ++ t ++ post, pre.length⟩
      = (t, ⟨pre ++ t ++ post, pre.length + t.length⟩) := by
  induction t generalizing pre with
  | nil => simp [read_table]
  | cons b t ih =>
    have hs : pre ++ b :: t ++ post = pre ++ b :: (t ++ post) := by simp
    have hs2 : pre ++ b :: (t ++ post) = (pre ++ [b]) ++ t ++ post := by simp
    have hl : pre.length + 1 = (pre ++ [b]).length := by simp
    simp only [List.length_cons, read_table]
    rw [hs, ReadByte_at]
    simp only
    rw [hs2, hl, ih]
    simp only [List.length_append, List.length_singleton, Prod.mk.injEq, Reader.mk.injEq,
      true_and]
    omega

theorem ReadUint32_at (pre post : List Nat) (N : Nat) (hN : N < 2 ^ 32) :
    ReadUint32 ⟨WriteUint32 pre N ++ post, pre.length⟩
      = (N, ⟨WriteUint32 pre N ++ post, pre.length + 4⟩) := by
  unfold ReadUint32 WriteUint32
  simp only [Nat.mod_eq_of_lt hN]
  have h0 : ∀ a b c d : Nat, (pre ++ [a, b, c, d] ++ post)[pre.length]? = some a := by
    intro a b c d
    rw [List.append_assoc, List.getElem?_append_right (le_refl _)]; simp
  have h1 : ∀ a b c d : Nat, (pre ++ [a, b, c, d] ++ post)[pre.length + 1]? = some b := by
    intro a b c d
    rw [List.append_assoc, List.getElem?_append_right (by omega)]; simp
  have h2 : ∀ a b c d : Nat, (pre ++ [a, b, c, d] ++ post)[pre.length + 2]? = some c := by
    intro a b c d
    rw [List.append_assoc, List.getElem?_append_right (by omega)]; simp
  have h3 : ∀ a b c d : Nat, (pre ++ [a, b, c, d] ++ post)[pre.length + 3]? = some d := by
    intro a b c d
    rw [List.append_assoc, List.getElem?_append_right (by omega)]; simp
  have hlen : pre.length + 4 ≤ (pre ++ [N % 256, N >>> 8 % 256, N >>> 16 % 256, N >>> 24 % 256]
      ++ post).length := by simp
  rw [if_pos hlen]
  simp only [List.getD_eq_getElem?_getD, h0, h1, h2, h3, Option.getD_some,
    Nat.shiftRight_eq_div_pow]
  congr 1
  norm_num at hN ⊢
  omega

theorem LimbsOK_of_PolyOK (param : Parameters) (L : Nat) (P : Poly) (t : List Nat)
    (hQ : ∀ q ∈ param.Q, q < 2 ^ 64)
    (ht : ∀ k, k < L + 1 → ∃ qk, param.Q[0 + k]? = some qk ∧ t[k]? = some (Len64 qk))
    (h : PolyOK param L P) : LimbsOK param.N t 0 P.Coeffs := by
  apply LimbsOK_of_index
  intro k c hk
  obtain ⟨hlen, hall⟩ := h
  have hkl : k < P.Coeffs.length := by
    rcases Nat.lt_or_ge k P.Coeffs.length with h1 | h1
    · exact h1
    · rw [List.getElem?_eq_none h1] at hk; cases hk
  obtain ⟨qk, a1, a2⟩ := ht k (by omega)
  obtain ⟨b1, b2⟩ := hall k (by omega)
  have hc : P.Coeffs.getD k [] = c := by simp [List.getD_eq_getElem?_getD, hk]
  have hq : param.Q.getD k 0 = qk := by
    rw [Nat.zero_add] at a1
    simp [List.getD_eq_getElem?_getD, a1]
  rw [hc] at b1 b2
  rw [hq] at b2
  have hqk : qk < 2 ^ 64 := by
    rw [Nat.zero_add] at a1
    exact hQ qk (List.getElem?_mem a1)
  refine ⟨Len64 qk, by simpa using a2, Len64_le _, b1, fun x hx => ?_⟩
  exact lt_trans (b2 x hx) (lt_two_pow_Len64 qk hqk)

theorem polys_roundtrip (N L : Nat) (t : List Nat) (Ps : List Poly) (i : Nat) (w : List Nat)
    (hi : i + Ps.length ≤ 2)
    (h : ∀ P ∈ Ps, P.Coeffs ≠ [] ∧ P.Level = L ∧ LimbsOK N t 0 P.Coeffs) :
    ∃ out, ciphertext_polys_to_bytes t [0, 0] Ps i w = some (w ++ out) ∧
      3 * Ps.length ≤ out.length ∧
      ∀ rest, ∃ r2, bytes_to_polys N L t Ps.length ⟨w ++ out ++ rest, w.length⟩ = some (r2, Ps) := by
  induction Ps generalizing i w with
  | nil => exact ⟨[], by simp [ciphertext_polys_to_bytes], by simp, fun rest => ⟨_, rfl⟩⟩
  | cons P Ps ih =>
    obtain ⟨hne, hlev, hok⟩ := h P (List.mem_cons_self _ _)
    obtain ⟨out1, e1, e2, e3⟩ := poly_roundtrip_stream P t N w hne hok
    obtain ⟨out2, f1, f2, f3⟩ := ih (i + 1) (w ++ out1) (by simp at hi; omega)
      (fun P' hP' => h P' (List.mem_cons_of_mem _ hP'))
    have hd : ([0, 0] : List Nat)[i]? = some 0 := by
      have : i < 2 := by simp at hi; omega
      interval_cases i <;> rfl
    refine ⟨out1 ++ out2, ?_, ?_, ?_⟩
    · simp only [ciphertext_polys_to_bytes, hd, e1, f1, List.append_assoc]
    · simp only [List.length_cons, List.length_append]; omega
    intro rest
    obtain ⟨pos, g1, g2⟩ := e3 (out2 ++ rest) Poly.new
    rw [hlev] at g1
    have hs : w ++ (out1 ++ out2) ++ rest = w ++ out1 ++ (out2 ++ rest) := by simp
    cases Ps with
    | nil =>
      refine ⟨⟨w ++ out1 ++ (out2 ++ rest), pos⟩, ?_⟩
      simp only [List.length_cons, List.length_nil, bytes_to_polys, Nat.zero_add]
      rw [hs, g1]
    | cons P2 Ps2 =>
      have hne2 : out2 ++ rest ≠ [] := by
        intro hh
        have := congrArg List.length hh
        simp only [List.length_append, List.length_nil, List.length_cons] at this f2
        omega
      obtain ⟨r2, k1⟩ := f3 rest
      refine ⟨r2, ?_⟩
      rw [g2 hne2] at g1
      have hs2 : w ++ out1 ++ out2 ++ rest = w ++ out1 ++ (out2 ++ rest) := by simp
      rw [hs2] at k1
      rw [List.length_cons, bytes_to_polys, hs, g1]
      simp only
      rw [k1]

theorem WriteUint32_length (w : Writer) (N : Nat) : (WriteUint32 w N).length = w.length + 4 := by
  simp [WriteUint32]

/-- A well-formed ciphertext with one or two components, written with both drop-bit arguments
zero after any earlier output `w`, is read back from that position whatever follows it. -/
theorem ciphertext_roundtrip_stream (ct : Ciphertext) (param : Parameters) (L : Nat) (w : Writer)
    (hcount : 1 ≤ ct.Value.length ∧ ct.Value.length ≤ 2) (hL : L ≤ 254)
    (hN : param.N < 2 ^ 32) (hQlen : L + 1 ≤ param.Q.length) (hQ : ∀ q ∈ param.Q, q < 2 ^ 64)
    (hP : ∀ P ∈ ct.Value, PolyOK param L P) :
    ∃ out, CiphertextToBytes ct param 0 0 w = some (w ++ out) ∧
      ∀ rest, ∃ r2, BytesToCiphertext ⟨w ++ out ++ rest, w.length⟩ = some (ct, r2) := by
  obtain ⟨Ps⟩ := ct
  simp only at hcount hP
  obtain ⟨t, t1, t2, t3⟩ := q_bit_lengths_of_spec param.Q (L + 1) 0 (by omega)
  have ht256 : ∀ b ∈ t, b < 256 := by
    intro b hb
    obtain ⟨k, hk⟩ := List.mem_iff_getElem?.mp hb
    have hkl : k < L + 1 := by
      rcases Nat.lt_or_ge k t.length with h1 | h1
      · omega
      · rw [List.getElem?_eq_none h1] at hk; cases hk
    obtain ⟨qk, -, a2⟩ := t3 k hkl
    rw [a2] at hk
    have := Len64_le qk
    cases hk
    omega
  have hlevel : Ciphertext.Level ⟨Ps⟩ = some L := by
    cases Ps with
    | nil => simp at hcount
    | cons P0 Ps' =>
      have := (hP P0 (List.mem_cons_self _ _)).1
      simp [Ciphertext.Level, Poly.Level, this]
  have hpolys : ∀ P ∈ Ps, P.Coeffs ≠ [] ∧ P.Level = L ∧ LimbsOK param.N t 0 P.Coeffs := by
    intro P hPm
    have hok := hP P hPm
    refine ⟨?_, ?_, LimbsOK_of_PolyOK param L P t hQ t3 hok⟩
    · intro hh
      have := hok.1
      rw [hh] at this
      simp at this
    · simp [Poly.Level, hok.1]
  obtain ⟨out, e1, -, e3⟩ := polys_roundtrip param.N L t Ps 0
    (WriteUint32 w param.N ++ [Ps.length, L] ++ t) (by omega) hpolys
  have hhead : write_table (WriteByte (WriteByte (WriteUint32 w param.N) (Ps.length % 256))
      (L % 256)) t = WriteUint32 w param.N ++ [Ps.length, L] ++ t := by
    rw [write_table_eq _ _ ht256, Nat.mod_eq_of_lt (by omega : Ps.length < 256),
      Nat.mod_eq_of_lt (by omega : L < 256)]
    simp [WriteByte]
  have hpre : ∃ hd, WriteUint32 w param.N = w ++ hd := ⟨_, rfl⟩
  obtain ⟨hd, hhd⟩ := hpre
  refine ⟨hd ++ [Ps.length, L] ++ t ++ out, ?_, ?_⟩
  · simp only [CiphertextToBytes, hlevel, t1, hhead]
    have hz : ((0 : Int) % 256).toNat = 0 := by decide
    rw [hz, e1, hhd]
    simp
  intro rest
  obtain ⟨r2, f1⟩ := e3 rest
  refine ⟨r2, ?_⟩
  have hs1 : w ++ (hd ++ [Ps.length, L] ++ t ++ out) ++ rest
      = WriteUint32 w param.N ++ (Ps.length :: L :: (t ++ out ++ rest)) := by
    rw [hhd]; simp
  have hs2 : WriteUint32 w param.N ++ (Ps.length :: L :: (t ++ out ++ rest))
      = (WriteUint32 w param.N ++ [Ps.length]) ++ L :: (t ++ out ++ rest) := by simp
  have hs3 : (WriteUint32 w param.N ++ [Ps.length]) ++ L :: (t ++ out ++ rest)
      = (WriteUint32 w param.N ++ [Ps.length, L]) ++ t ++ (out ++ rest) := by simp
  have hs4 : (WriteUint32 w param.N ++ [Ps.length, L]) ++ t ++ (out ++ rest)
      = WriteUint32 w param.N ++ [Ps.length, L] ++ t ++ out ++ rest := by simp
  have hl1 : w.length + 4 = (WriteUint32 w param.N).length := (WriteUint32_length _ _).symm
  have hl2 : (WriteUint32 w param.N).length + 1 = (WriteUint32 w param.N ++ [Ps.length]).length := by
    simp
  have hl3 : (WriteUint32 w param.N ++ [Ps.length]).length + 1
      = (WriteUint32 w param.N ++ [Ps.length, L]).length := by simp
  have hl4 : (WriteUint32 w param.N ++ [Ps.length, L]).length + t.length
      = (WriteUint32 w param.N ++ [Ps.length, L] ++ t).length := by simp; omega
  unfold BytesToCiphertext
  rw [hs1, ReadUint32_at _ _ _ hN]
  simp only
  rw [hl1, ReadByte_at]
  simp only
  rw [hs2, hl2, ReadByte_at]
  simp only
  rw [Nat.mod_eq_of_lt (by omega : L + 1 < 256), ← t2, hs3, hl3, read_table_at]
  simp only
  rw [hs4, hl4, f1]

/-! ### Decoding never fails for a level byte below 255 -/

theorem bytes_to_poly_loop_some (N level : Nat) (q : List Nat) (d n j : Nat) (r : Reader)
    (h : j + n ≤ q.length) : ∃ res, bytes_to_poly_loop N level q d n j r = some res := by
  induction n generalizing j r with
  | zero => exact ⟨_, rfl⟩
  | succ n ih =>
    have hj : j < q.length := by omega
    simp only [bytes_to_poly_loop, List.getElem?_eq_getElem hj]
    obtain ⟨res, hres⟩ := ih (j + 1) (bytes_to_component r
      (if level = 0 ∧ d ≠ 0 then (256 + q[j] % 256 - d % 256) % 256 else q[j]) N).1 (by omega)
    rw [hres]
    exact ⟨_, rfl⟩

theorem bytes_to_poly_some (r : Reader) (N level : Nat) (q : List Nat) (P0 : Poly)
    (h : level + 1 ≤ q.length) : ∃ res, bytes_to_poly r N level q P0 = some res := by
  unfold bytes_to_poly
  obtain ⟨res, hres⟩ := bytes_to_poly_loop_some N level q
    (ReadByte (ReadBool (ReadBool r P0.IsNTT).2 P0.IsMForm).2).1 (level + 1) 0
    (ReadByte (ReadBool (ReadBool r P0.IsNTT).2 P0.IsMForm).2).2 (by omega)
  simp only [hres]
  exact ⟨_, rfl⟩

theorem bytes_to_polys_some (N level : Nat) (q : List Nat) (n : Nat) (r : Reader)
    (h : level + 1 ≤ q.length) : ∃ res, bytes_to_polys N level q n r = some res := by
  induction n generalizing r with
  | zero => exact ⟨_, rfl⟩
  | succ n ih =>
    obtain ⟨rp, hrp⟩ := bytes_to_poly_some r N level q Poly.new h
    obtain ⟨res, hres⟩ := ih rp.1
    simp only [bytes_to_polys, hrp, hres]
    exact ⟨_, rfl⟩

theorem read_table_length (n : Nat) (r : Reader) : (read_table n r).1.length = n := by
  induction n generalizing r with
  | zero => rfl
  | succ n ih => simp [read_table, ih]

theorem BytesToCiphertext_some (r : Reader) (h : level_byte r ≤ 254) :
    ∃ res, BytesToCiphertext r = some res := by
  unfold level_byte at h
  unfold BytesToCiphertext
  simp only
  obtain ⟨res, hres⟩ := bytes_to_polys_some (ReadUint32 r).1
    (ReadByte (ReadByte (ReadUint32 r).2).2).1
    (read_table (((ReadByte (ReadByte (ReadUint32 r).2).2).1 + 1) % 256)
      (ReadByte (ReadByte (ReadUint32 r).2).2).2).1
    (ReadByte (ReadUint32 r).2).1
    (read_table (((ReadByte (ReadByte (ReadUint32 r).2).2).1 + 1) % 256)
      (ReadByte (ReadByte (ReadUint32 r).2).2).2).2
    (by rw [read_table_length]; omega)
  rw [hres]
  exact ⟨_, rfl⟩

theorem level_byte_of_truncation (b0 b1 b2 b3 np lv : Nat) (tail pre : List Nat)
    (h : pre <+: b0 :: b1 :: b2 :: b3 :: np :: lv :: tail) :
    level_byte (NewReader pre) = lv ∨ level_byte (NewReader pre) = 0 := by
  rcases pre with _ | ⟨a0, _ | ⟨a1, _ | ⟨a2, _ | ⟨a3, _ | ⟨a4, _ | ⟨a5, rest⟩⟩⟩⟩⟩⟩
  · right; simp [level_byte, NewReader, ReadUint32, ReadByte]
  · right; simp [level_byte, NewReader, ReadUint32, ReadByte]
  · right; simp [level_byte, NewReader, ReadUint32, ReadByte]
  · right; simp [level_byte, NewReader, ReadUint32, ReadByte]
  · right; simp [level_byte, NewReader, ReadUint32, ReadByte]
  · right; simp [level_byte, NewReader, ReadUint32, ReadByte]
  · left
    simp only [List.cons_prefix_cons] at h
    obtain ⟨-, -, -, -, -, h5, -⟩ := h
    simp [level_byte, NewReader, ReadUint32, ReadByte, h5]

/-! ### The encoders only append -/

theorem poly_to_bytes_loop_appends (N level : Nat) (q : List Nat) (d : Nat) (cs : List (List Nat))
    (j : Nat) (w w2 : Writer) (h : poly_to_bytes_loop N level q d cs j w = some w2) : w <+: w2 := by
  induction cs generalizing j w with
  | nil =>
    simp only [poly_to_bytes_loop, Option.some.injEq] at h
    exact h ▸ List.prefix_refl _
  | cons c cs ih =>
    simp only [poly_to_bytes_loop] at h
    split at h
    · cases h
    · split at h
      · split at h
        · cases h
        · have := ih _ _ h
          rw [component_to_bytes_append] at this
          exact (List.prefix_append w _).trans this
      · have := ih _ _ h
        rw [component_to_bytes_append] at this
        exact (List.prefix_append w _).trans this

theorem poly_to_bytes_appends (P : Poly) (q : List Nat) (d : Nat) (w : Writer) (res : Poly × Writer)
    (h : poly_to_bytes P q d w = some res) : w <+: res.2 := by
  unfold poly_to_bytes at h
  split at h
  · cases h
  · simp only at h
    split at h
    · cases h
    · rename_i w4 hw4
      have := poly_to_bytes_loop_appends _ _ _ _ _ _ _ _ hw4
      simp only [Option.some.injEq] at h
      subst h
      simp only [WriteBool, WriteByte, List.append_assoc] at this
      exact (List.prefix_append w _).trans this

theorem ciphertext_polys_to_bytes_appends (q ds : List Nat) (Ps : List Poly) (i : Nat)
    (w w2 : Writer) (h : ciphertext_polys_to_bytes q ds Ps i w = some w2) : w <+: w2 := by
  induction Ps generalizing i w with
  | nil =>
    simp only [ciphertext_polys_to_bytes, Option.some.injEq] at h
    exact h ▸ List.prefix_refl _
  | cons P Ps ih =>
    simp only [ciphertext_polys_to_bytes] at h
    split at h
    · cases h
    · split at h
      · cases h
      · rename_i pw hpw
        exact (poly_to_bytes_appends _ _ _ _ _ hpw).trans (ih _ _ h)

theorem write_table_appends (w : Writer) (t : List Nat) : w <+: write_table w t := by
  unfold write_table
  induction t generalizing w with
  | nil => exact List.prefix_refl _
  | cons b t ih =>
    simp only [List.foldl_cons]
    exact (List.prefix_append w _).trans (ih _)

theorem CiphertextToBytes_header (ct : Ciphertext) (param : Parameters) (d0 d1 : Int)
    (enc : Writer) (L : Nat) (h : CiphertextToBytes ct param d0 d1 [] = some enc)
    (hL : ct.Level = some L) :
    ∃ b0 b1 b2 b3 tail,
      enc = b0 :: b1 :: b2 :: b3 :: (ct.Value.length % 256) :: (L % 256) :: tail := by
  unfold CiphertextToBytes at h
  simp only [hL] at h
  split at h
  · cases h
  · rename_i t ht
    have h1 := ciphertext_polys_to_bytes_appends _ _ _ _ _ _ h
    have h2 := (write_table_appends _ _).trans h1
    obtain ⟨tail, htail⟩ := h2
    refine ⟨param.N % 2 ^ 32 % 256, (param.N % 2 ^ 32) >>> 8 % 256,
      (param.N % 2 ^ 32) >>> 16 % 256, (param.N % 2 ^ 32) >>> 24 % 256, tail, ?_⟩
    rw [← htail]
    simp [WriteUint32, WriteByte]

/-! ### Readers positioned inside a stream, layouts, QP objects -/

theorem At_mk (pre rem : List Nat) : At ⟨pre ++ rem, pre.length⟩ rem := by
  constructor <;> simp

theorem At_NewReader (s : List Nat) : At (NewReader s) s := by
  constructor <;> simp [NewReader]

theorem At_split (r : Reader) (rem : List Nat) (h : At r rem) :
    ∃ pre, r = ⟨pre ++ rem, pre.length⟩ := by
  obtain ⟨s, i⟩ := r
  obtain ⟨h1, h2⟩ := h
  simp only at h1 h2
  refine ⟨s.take i, ?_⟩
  simp only [Reader.mk.injEq]
  refine ⟨?_, ?_⟩
  · rw [← h1, List.take_append_drop]
  · simp [List.length_take, h2]

theorem At_advance (r : Reader) (t rem : List Nat) (h : At r (t ++ rem)) :
    At ⟨r.s, r.i + t.length⟩ rem := by
  obtain ⟨pre, rfl⟩ := At_split r _ h
  have := At_mk (pre ++ t) rem
  simpa using this

theorem ReadByte_At (r : Reader) (x : Nat) (rem : List Nat) (h : At r (x :: rem)) :
    ReadByte r = (x, ⟨r.s, r.i + 1⟩) ∧ At ⟨r.s, r.i + 1⟩ rem := by
  refine ⟨?_, At_advance r [x] rem h⟩
  obtain ⟨pre, rfl⟩ := At_split r _ h
  exact ReadByte_at pre rem x

theorem read_table_At (t : List Nat) (r : Reader) (rem : List Nat) (h : At r (t ++ rem)) :
    read_table t.length r = (t, ⟨r.s, r.i + t.length⟩) := by
  obtain ⟨pre, rfl⟩ := At_split r _ h
  have := read_table_at t pre rem
  simpa using this

theorem ReadUint32_At (r : Reader) (N : Nat) (rem : List Nat) (hN : N < 2 ^ 32)
    (h : At r (WriteUint32 [] N ++ rem)) :
    ReadUint32 r = (N, ⟨r.s, r.i + 4⟩) ∧ At ⟨r.s, r.i + 4⟩ rem := by
  refine ⟨?_, by simpa [WriteUint32] using At_advance r _ _ h⟩
  obtain ⟨pre, rfl⟩ := At_split r _ h
  have hb := ReadUint32_at pre rem N hN
  have hw : WriteUint32 pre N = pre ++ WriteUint32 [] N := by simp [WriteUint32]
  rw [hw, List.append_assoc] at hb
  exact hb

theorem bytes_to_component_At (bl : Nat) (hbl : bl ≤ 64) (src : List Nat)
    (hsrc : ∀ x ∈ src, x < 2 ^ bl) (r : Reader) (rem : List Nat) (hne : rem ≠ [])
    (h : At r (component_to_bytes src bl [] ++ rem)) :
    bytes_to_component r bl src.length
        = (⟨r.s, r.i + (component_to_bytes src bl []).length⟩, src) ∧
      At ⟨r.s, r.i + (component_to_bytes src bl []).length⟩ rem := by
  refine ⟨?_, At_advance r _ _ h⟩
  obtain ⟨pre, rfl⟩ := At_split r _ h
  have hs := bytes_to_component_stream bl hbl src hsrc pre rem
  rw [component_to_bytes_append src bl pre] at hs
  have hc : ¬ (rem = [] ∧ src.length * bl % 8 = 0) := fun hh => hne hh.1
  rw [if_neg hc] at hs
  simp only [List.append_assoc, List.length_append] at hs ⊢
  exact hs

theorem poly_to_bytes_loop_hom (N level : Nat) (q : List Nat) (d : Nat) (cs : List (List Nat))
    (j : Nat) (w : Writer) :
    poly_to_bytes_loop N level q d cs j w
      = (poly_to_bytes_loop N level q d cs j []).map (fun o => w ++ o) := by
  induction cs generalizing j w with
  | nil => simp [poly_to_bytes_loop]
  | cons c cs ih =>
    simp only [poly_to_bytes_loop]
    split
    · rfl
    · split
      · split
        · rfl
        · rw [ih, ih (w := component_to_bytes _ _ []), component_to_bytes_append]
          simp [Option.map_map, Function.comp_def]
      · rw [ih, ih (w := component_to_bytes _ _ []), component_to_bytes_append]
        simp [Option.map_map, Function.comp_def]

theorem poly_to_bytes_hom (P : Poly) (q : List Nat) (d : Nat) (w : Writer) :
    poly_to_bytes P q d w
      = (poly_to_bytes P q d []).map (fun res => (res.1, w ++ res.2)) := by
  unfold poly_to_bytes
  split
  · rfl
  · simp only [WriteBool, WriteByte, List.nil_append]
    rw [poly_to_bytes_loop_hom, poly_to_bytes_loop_hom (w := [_] ++ _ ++ _)]
    cases poly_to_bytes_loop _ _ _ _ _ _ [] <;> simp

/-- A well-formed polynomial can be written without compression, and its bytes are read back
from any reader standing before them; when more bytes follow, the reader ends before those. -/
theorem bytes_to_poly_At (P : Poly) (q : List Nat) (N : Nat)
    (hne : P.Coeffs ≠ []) (h : LimbsOK N q 0 P.Coeffs) :
    ∃ out, poly_to_bytes P q 0 [] = some (P, out) ∧ 3 ≤ out.length ∧
      ∀ (r : Reader) (rem : List Nat) (P0 : Poly), At r (out ++ rem) →
        ∃ r2, bytes_to_poly r N P.Level q P0 = some (r2, P) ∧ (rem ≠ [] → At r2 rem) := by
  obtain ⟨out, e1, e2, -⟩ := poly_roundtrip_stream P q N [] hne h
  refine ⟨out, by simpa using e1, e2, ?_⟩
  intro r rem P0 hat
  obtain ⟨pre, rfl⟩ := At_split r _ hat
  obtain ⟨out2, f1, -, f3⟩ := poly_roundtrip_stream P q N pre hne h
  have ho : out2 = out := by
    rw [poly_to_bytes_hom, e1] at f1
    simpa using f1.symm
  subst ho
  obtain ⟨pos, g1, g2⟩ := f3 rem P0
  rw [List.append_assoc] at g1
  refine ⟨_, g1, fun hr => ?_⟩
  rw [g2 hr]
  have := At_mk (pre ++ out2) rem
  simpa using this

theorem ReadByte_next (r : Reader) (x : Nat) (rem : List Nat) (h : At r (x :: rem)) :
    ∃ r2, ReadByte r = (x, r2) ∧ At r2 rem :=
  ⟨_, (ReadByte_At r x rem h).1, (ReadByte_At r x rem h).2⟩

theorem ReadUint32_next (r : Reader) (N : Nat) (rem : List Nat) (hN : N < 2 ^ 32)
    (h : At r (WriteUint32 [] N ++ rem)) :
    ∃ r2, ReadUint32 r = (N, r2) ∧ At r2 rem :=
  ⟨_, (ReadUint32_At r N rem hN h).1, (ReadUint32_At r N rem hN h).2⟩

theorem read_table_next (t : List Nat) (n : Nat) (r : Reader) (rem : List Nat)
    (hn : t.length = n) (h : At r (t ++ rem)) :
    ∃ r2, read_table n r = (t, r2) ∧ At r2 rem := by
  subst hn
  exact ⟨_, read_table_At t r rem h, At_advance r t rem h⟩

theorem shiftLeft_mod_two_pow_dvd (x d : Nat) (hd : d ≤ 64) : (x <<< d) % 2 ^ 64 % 2 ^ d = 0 := by
  rw [Nat.mod_mod_of_dvd _ (Nat.pow_dvd_pow 2 hd), Nat.shiftLeft_eq, Nat.mul_mod_left]

theorem quantize_eq (c d : Nat) (hc : c < 2 ^ 64) (hd1 : 1 ≤ d) :
    quantize d c = (c + 2 ^ (d - 1)) / 2 ^ d := by
  obtain ⟨k, rfl⟩ : ∃ k, d = k + 1 := ⟨d - 1, by omega⟩
  unfold quantize
  simp only [Nat.add_sub_cancel, Nat.and_one_is_mod, Nat.shiftRight_eq_div_pow]
  have h1 : c / 2 ^ (k + 1) = c / 2 ^ k / 2 := by
    rw [Nat.pow_succ, Nat.div_div_eq_div_mul]
  have h2 : (c + 2 ^ k) / 2 ^ (k + 1) = (c / 2 ^ k + 1) / 2 := by
    rw [Nat.pow_succ, ← Nat.div_div_eq_div_mul, Nat.add_div_right _ (by positivity)]
  have h3 : c / 2 ^ k ≤ c := Nat.div_le_self _ _
  rw [h1, h2]
  have h4 : c / 2 ^ k / 2 + c / 2 ^ k % 2 = (c / 2 ^ k + 1) / 2 := by omega
  rw [h4]
  apply Nat.mod_eq_of_lt
  omega

theorem LimbsOK_of_table (cs : List (List Nat)) (q : List Nat) (N L : Nat)
    (hlimbs : cs.length = L + 1)
    (hq : ∀ j, j < L + 1 → 1 ≤ q.getD j 0 ∧ q.getD j 0 ≤ 64 ∧
      (cs.getD j []).length = N ∧ ∀ x ∈ cs.getD j [], x < 2 ^ q.getD j 0) :
    LimbsOK N q 0 cs := by
  apply LimbsOK_of_index
  intro k c hk
  have hkl : k < cs.length := by
    rcases Nat.lt_or_ge k cs.length with h1 | h1
    · exact h1
    · rw [List.getElem?_eq_none h1] at hk; cases hk
  obtain ⟨a1, a2, a3, a4⟩ := hq k (by omega)
  have hc : cs.getD k [] = c := by simp [List.getD_eq_getElem?_getD, hk]
  have hkq : k < q.length := by
    rcases Nat.lt_or_ge k q.length with h1 | h1
    · exact h1
    · rw [List.getD_eq_getElem?_getD, List.getElem?_eq_none h1] at a1
      simp at a1
  refine ⟨q.getD k 0, ?_, a2, hc ▸ a3, hc ▸ a4⟩
  rw [Nat.zero_add, List.getD_eq_getElem?_getD, List.getElem?_eq_getElem hkq]
  simp

theorem poly_to_bytes_loop_level_pos (N level : Nat) (q : List Nat) (d : Nat)
    (cs : List (List Nat)) (j : Nat) (w : Writer) (hl : 0 < level) :
    poly_to_bytes_loop N level q d cs j w = poly_to_bytes_loop N level q 0 cs j w := by
  have hne : level ≠ 0 := by omega
  induction cs generalizing j w with
  | nil => rfl
  | cons c cs ih =>
    simp only [poly_to_bytes_loop, hne, false_and, if_false]
    split
    · rfl
    · exact ih _ _

theorem bytes_to_poly_loop_level_pos (N level : Nat) (q : List Nat) (d n j : Nat) (r : Reader)
    (hl : 0 < level) :
    bytes_to_poly_loop N level q d n j r = bytes_to_poly_loop N level q 0 n j r := by
  have hne : level ≠ 0 := by omega
  induction n generalizing j r with
  | zero => rfl
  | succ n ih =>
    simp only [bytes_to_poly_loop, hne, false_and, if_false]
    split
    · rfl
    · rw [ih]

theorem spec_table_lt (Q : List Nat) (L : Nat) : ∀ b ∈ spec_table Q L, b < 256 := by
  intro b hb
  obtain ⟨j, -, rfl⟩ := List.mem_map.mp hb
  exact lt_of_le_of_lt (Len64_le _) (by norm_num)

theorem spec_table_length (Q : List Nat) (L : Nat) : (spec_table Q L).length = L + 1 := by
  simp [spec_table]

theorem poly_to_bytes_loop_layout (N L : Nat) (t : List Nat) (d : Nat) (cs : List (List Nat))
    (j : Nat) (hlen : j + cs.length ≤ t.length)
    (hN : L = 0 ∧ d ≠ 0 → ∀ c ∈ cs, c.length = N) :
    poly_to_bytes_loop N L t d cs j []
      = some (List.zipWith (spec_limb_bytes L d) (t.drop j) cs).flatten := by
  induction cs generalizing j with
  | nil => simp [poly_to_bytes_loop]
  | cons c cs ih =>
    have hj : j < t.length := by simp at hlen; omega
    have hih := ih (j + 1) (by simp at hlen; omega)
      (fun hc x hx => hN hc x (List.mem_cons_of_mem _ hx))
    rw [List.drop_eq_getElem_cons hj]
    simp only [poly_to_bytes_loop, List.getElem?_eq_getElem hj, List.zipWith_cons_cons,
      List.flatten_cons, spec_limb_bytes]
    by_cases hc : L = 0 ∧ d ≠ 0
    · have hcl : c.length = N := hN hc c (List.mem_cons_self _ _)
      subst hcl
      rw [if_pos hc, if_pos hc]
      simp only [component_shift, le_refl, if_true, List.take_length]
      rw [poly_to_bytes_loop_hom, hih]
      simp
    · rw [if_neg hc, if_neg hc, poly_to_bytes_loop_hom, hih]
      simp

theorem poly_to_bytes_layout (P : Poly) (L d : Nat) (t : List Nat)
    (hlimbs : P.Coeffs.length = L + 1) (ht : L + 1 ≤ t.length) :
    poly_to_bytes P t d [] = some (P, spec_poly_bytes L d t P) := by
  obtain ⟨cs, ntt, mform⟩ := P
  simp only at hlimbs
  cases cs with
  | nil => simp at hlimbs
  | cons c cs2 =>
    have hlev : Poly.Level ⟨c :: cs2, ntt, mform⟩ = L := by
      simp only [Poly.Level, hlimbs]; omega
    have hl := poly_to_bytes_loop_layout c.length L t d (c :: cs2) 0 (by rw [hlimbs]; omega)
      (by
        intro hc x hx
        have h0 : cs2 = [] := by
          have : cs2.length = 0 := by simp at hlimbs; omega
          exact List.length_eq_zero.mp this
        subst h0
        simp only [List.mem_singleton] at hx
        rw [hx])
    simp only [poly_to_bytes, Poly.N, hlev, WriteBool, WriteByte, List.nil_append]
    rw [poly_to_bytes_loop_hom, hl]
    simp [spec_poly_bytes]

theorem ciphertext_polys_to_bytes_layout (L : Nat) (t ds : List Nat) (Ps : List Poly) (i : Nat)
    (hi : i + Ps.length ≤ ds.length) (ht : L + 1 ≤ t.length)
    (hP : ∀ P ∈ Ps, P.Coeffs.length = L + 1) (w : Writer) :
    ciphertext_polys_to_bytes t ds Ps i w
      = some (w ++ (List.zipWith (fun d P => spec_poly_bytes L d t P) (ds.drop i) Ps).flatten) := by
  induction Ps generalizing i w with
  | nil => simp [ciphertext_polys_to_bytes]
  | cons P Ps ih =>
    have hj : i < ds.length := by simp at hi; omega
    have hih := ih (i + 1) (by simp at hi; omega) (fun x hx => hP x (List.mem_cons_of_mem _ hx))
    rw [List.drop_eq_getElem_cons hj]
    simp only [ciphertext_polys_to_bytes, List.getElem?_eq_getElem hj, List.zipWith_cons_cons,
      List.flatten_cons]
    rw [poly_to_bytes_hom, poly_to_bytes_layout P L _ t (hP P (List.mem_cons_self _ _)) ht]
    simp only [Option.map_some']
    rw [hih]
    simp

theorem WriteUint32_eq (w : Writer) (N : Nat) (hN : N < 2 ^ 32) :
    WriteUint32 w N = w ++ spec_uint32 N := by
  simp only [WriteUint32, Nat.mod_eq_of_lt hN]
  simp [spec_uint32, Nat.shiftRight_eq_div_pow]

theorem q_bit_lengths_of_eq (Q : List Nat) (n j : Nat) (h : j + n ≤ Q.length) :
    q_bit_lengths_of Q n j = some ((List.range n).map (fun k => Len64 (Q.getD (j + k) 0))) := by
  induction n generalizing j with
  | zero => rfl
  | succ n ih =>
    have hj : j < Q.length := by omega
    simp only [q_bit_lengths_of, List.getElem?_eq_getElem hj, ih (j + 1) (by omega)]
    rw [Nat.mod_eq_of_lt (lt_of_le_of_lt (Len64_le _) (by norm_num)), List.range_succ_eq_map]
    simp only [List.map_cons, List.map_map, Nat.add_zero, Option.some.injEq, List.cons.injEq]
    refine ⟨by simp [List.getD_eq_getElem?_getD, List.getElem?_eq_getElem hj], ?_⟩
    apply List.map_congr_left
    intro k _
    simp only [Function.comp, Nat.succ_eq_add_one]
    congr 2
    omega

theorem write_seed_eq (Seed : List Nat) (n i : Nat) (w : Writer) (h : i + n ≤ Seed.length) :
    write_seed Seed n i w = some (w ++ (Seed.drop i).take n) := by
  induction n generalizing i w with
  | zero => simp [write_seed]
  | succ n ih =>
    have hi : i < Seed.length := by omega
    simp only [write_seed, List.getElem?_eq_getElem hi, WriteByte]
    rw [ih (i + 1) _ (by omega)]
    conv_rhs => rw [List.drop_eq_getElem_cons hi, List.take_succ_cons]
    simp

theorem write_seed_64 (Seed : List Nat) (w : Writer) (h : Seed.length = 64) :
    write_seed Seed 64 0 w = some (w ++ Seed) := by
  rw [write_seed_eq Seed 64 0 w (by omega)]
  simp [← h]

theorem read_seed_next (Seed : List Nat) (r : Reader) (rem : List Nat) (h : Seed.length = 64)
    (hat : At r (Seed ++ rem)) :
    ∃ r2, read_seed r = (Seed, r2) ∧ At r2 rem :=
  read_table_next Seed 64 r rem h hat

theorem spec_table_getElem? (chain : List Nat) (L k : Nat) (hk : k < L + 1)
    (hlen : L + 1 ≤ chain.length) :
    ∃ qk, chain[0 + k]? = some qk ∧ (spec_table chain L)[k]? = some (Len64 qk) := by
  have hkc : k < chain.length := by omega
  refine ⟨chain[k], by simp [List.getElem?_eq_getElem hkc], ?_⟩
  simp [spec_table, List.getElem?_range hk, List.getD_eq_getElem?_getD,
    List.getElem?_eq_getElem hkc]

theorem LimbsOK_spec_table (chain : List Nat) (N L : Nat) (P : Poly)
    (hchain : ∀ q ∈ chain, q < 2 ^ 64) (hlen : L + 1 ≤ chain.length)
    (h : ResiduesOK chain N L P) : LimbsOK N (spec_table chain L) 0 P.Coeffs :=
  LimbsOK_of_PolyOK ⟨chain, [], N⟩ L P (spec_table chain L) hchain
    (fun k hk => spec_table_getElem? chain L k hk hlen) h

/-- A well-formed polynomial is written, with drop-bits 0, as the specified bytes, after any
earlier output, and these bytes are read back from any reader standing before them. -/
theorem poly_codec_At (chain : List Nat) (N L : Nat) (P : Poly)
    (hchain : ∀ q ∈ chain, q < 2 ^ 64) (hlen : L + 1 ≤ chain.length)
    (h : ResiduesOK chain N L P) :
    (∀ w, poly_to_bytes P (spec_table chain L) 0 w
        = some (P, w ++ spec_poly_bytes L 0 (spec_table chain L) P)) ∧
    3 ≤ (spec_poly_bytes L 0 (spec_table chain L) P).length ∧
    ∀ (r : Reader) (rem : List Nat) (P0 : Poly),
      At r (spec_poly_bytes L 0 (spec_table chain L) P ++ rem) →
      ∃ r2, bytes_to_poly r N L (spec_table chain L) P0 = some (r2, P) ∧
        (rem ≠ [] → At r2 rem) := by
  have hne : P.Coeffs ≠ [] := by
    intro hh; have := h.1; rw [hh] at this; simp at this
  have hlev : P.Level = L := by simp [Poly.Level, h.1]
  have hlay := poly_to_bytes_layout P L 0 (spec_table chain L) h.1
    (by rw [spec_table_length])
  obtain ⟨out, e1, e2, e3⟩ := bytes_to_poly_At P (spec_table chain L) N hne
    (LimbsOK_spec_table chain N L P hchain hlen h)
  have ho : out = spec_poly_bytes L 0 (spec_table chain L) P := by
    rw [hlay] at e1
    simpa using e1.symm
  subst ho
  rw [hlev] at e3
  refine ⟨fun w => ?_, e2, e3⟩
  rw [poly_to_bytes_hom, hlay]
  rfl

theorem q_bit_lengths_of_spec_table (chain : List Nat) (L : Nat) (hlen : L + 1 ≤ chain.length) :
    q_bit_lengths_of chain (L + 1) 0 = some (spec_table chain L) := by
  rw [q_bit_lengths_of_eq chain (L + 1) 0 (by omega)]
  simp [spec_table]

theorem Poly_Level_of_ResiduesOK (chain : List Nat) (N L : Nat) (P : Poly)
    (h : ResiduesOK chain N L P) : P.Level = L := by
  simp [Poly.Level, h.1]

theorem qp_header_to_bytes_eq (Q P : Poly) (param : Parameters) (Lq Lp : Nat) (w : Writer)
    (hq : Q.Level = Lq) (hp : P.Level = Lp) (hLq : Lq ≤ 254) (hLp : Lp ≤ 254)
    (hN : param.N < 2 ^ 32) (hQlen : Lq + 1 ≤ param.Q.length) (hPlen : Lp + 1 ≤ param.P.length) :
    qp_header_to_bytes Q P param w
      = some (spec_table param.Q Lq, spec_table param.P Lp, w ++ spec_qp_header param Lq Lp) := by
  simp only [qp_header_to_bytes, hq, hp, q_bit_lengths_of_spec_table _ _ hQlen,
    q_bit_lengths_of_spec_table _ _ hPlen]
  rw [write_table_eq _ _ (spec_table_lt _ _), write_table_eq _ _ (spec_table_lt _ _),
    WriteUint32_eq _ _ hN, Nat.mod_eq_of_lt (by omega : Lq < 256),
    Nat.mod_eq_of_lt (by omega : Lp < 256)]
  simp [WriteByte, spec_qp_header]

theorem spec_uint32_eq (N : Nat) (hN : N < 2 ^ 32) : spec_uint32 N = WriteUint32 [] N := by
  rw [WriteUint32_eq _ _ hN]; rfl

theorem bytes_to_qp_header_At (param : Parameters) (Lq Lp : Nat) (r : Reader) (rem : List Nat)
    (hLq : Lq ≤ 254) (hLp : Lp ≤ 254) (hN : param.N < 2 ^ 32)
    (hat : At r (spec_qp_header param Lq Lp ++ rem)) :
    ∃ r2, bytes_to_qp_header r
        = (param.N, Lq, Lp, spec_table param.Q Lq, spec_table param.P Lp, r2) ∧ At r2 rem := by
  have hs : spec_qp_header param Lq Lp ++ rem
      = WriteUint32 [] param.N
        ++ (Lq :: Lp :: (spec_table param.Q Lq ++ (spec_table param.P Lp ++ rem))) := by
    simp [spec_qp_header, spec_uint32_eq _ hN]
  rw [hs] at hat
  obtain ⟨r1, e1, h1⟩ := ReadUint32_next r param.N _ hN hat
  obtain ⟨r2, e2, h2⟩ := ReadByte_next r1 Lq _ h1
  obtain ⟨r3, e3, h3⟩ := ReadByte_next r2 Lp _ h2
  obtain ⟨r4, e4, h4⟩ := read_table_next (spec_table param.Q Lq) (Lq + 1) r3 _
    (spec_table_length _ _) h3
  obtain ⟨r5, e5, h5⟩ := read_table_next (spec_table param.P Lp) (Lp + 1) r4 _
    (spec_table_length _ _) h4
  refine ⟨r5, ?_, h5⟩
  simp only [bytes_to_qp_header, e1, e2, e3, Nat.mod_eq_of_lt (by omega : Lq + 1 < 256),
    Nat.mod_eq_of_lt (by omega : Lp + 1 < 256), e4, e5]

theorem qp_polys_codec_At (param : Parameters) (Lq Lp : Nat) (Q P : Poly)
    (hQlen : Lq + 1 ≤ param.Q.length) (hPlen : Lp + 1 ≤ param.P.length)
    (hQ : ∀ q ∈ param.Q, q < 2 ^ 64) (hPc : ∀ p ∈ param.P, p < 2 ^ 64)
    (hQok : ResiduesOK param.Q param.N Lq Q) (hPok : ResiduesOK param.P param.N Lp P) :
    (∀ w, ∃ pw1 pw2, poly_to_bytes Q (spec_table param.Q Lq) 0 w = some pw1 ∧
        poly_to_bytes P (spec_table param.P Lp) 0 pw1.2 = some pw2 ∧
        pw2.2 = w ++ spec_qp_polys param Lq Lp Q P) ∧
    ∀ (r : Reader) (rem : List Nat), At r (spec_qp_polys param Lq Lp Q P ++ rem) →
      ∃ r2, bytes_to_qp_polys r param.N Lq Lp (spec_table param.Q Lq) (spec_table param.P Lp)
          = some (⟨some Q, some P⟩, r2) ∧ (rem ≠ [] → At r2 rem) := by
  obtain ⟨a1, -, a3⟩ := poly_codec_At param.Q param.N Lq Q hQ hQlen hQok
  obtain ⟨b1, b2, b3⟩ := poly_codec_At param.P param.N Lp P hPc hPlen hPok
  refine ⟨fun w => ⟨_, _, a1 w, b1 _, by simp [spec_qp_polys]⟩, ?_⟩
  intro r rem hat
  simp only [spec_qp_polys, List.append_assoc] at hat
  obtain ⟨r1, c1, c2⟩ := a3 r _ Poly.new hat
  have hne : spec_poly_bytes Lp 0 (spec_table param.P Lp) P ++ rem ≠ [] := by
    intro hh
    have := congrArg List.length hh
    simp only [List.length_append, List.length_nil] at this
    omega
  obtain ⟨r2, d1, d2⟩ := b3 r1 rem Poly.new (c2 hne)
  exact ⟨r2, by simp only [bytes_to_qp_polys, c1, d1], d2⟩

/-! ### Composite keys, out-of-range values, exact packing, scheme wrappers -/

theorem spec_poly_bytes_length (L d : Nat) (t : List Nat) (P : Poly) :
    3 ≤ (spec_poly_bytes L d t P).length := by
  simp [spec_poly_bytes]

/-- A well-formed QP ciphertext is written as the specified bytes after any earlier output, and
these bytes are read back, as the wire form of the object, from any reader standing before
them; when more bytes follow, the reader ends before those. -/
theorem ciphertext_qp_codec_At (param : Parameters) (x : CiphertextQP) (hp : ParamOK param)
    (hx : CiphertextQPOK param x) :
    (∀ w, CiphertextQPToBytes x param w = some (w ++ spec_qp_element_bytes param x)) ∧
    1 ≤ (spec_qp_element_bytes param x).length ∧
    ∀ (r : Reader) (rem : List Nat), At r (spec_qp_element_bytes param x ++ rem) →
      ∃ r2, BytesToCiphertextQP r = some (x.wire, r2) ∧ (rem ≠ [] → At r2 rem) := by
  obtain ⟨hN, hQ, hPc⟩ := hp
  obtain ⟨⟨⟨oQ, oP⟩, v1⟩, seed, comp⟩ := x
  unfold CiphertextQPOK at hx
  simp only at hx
  cases oQ with
  | none => simp at hx
  | some Q =>
    cases oP with
    | none => simp at hx
    | some P =>
      simp only at hx
      obtain ⟨hLq, hLp, hQlen, hPlen, hseed, hQok, hPok⟩ := hx
      obtain ⟨b1, b2⟩ := qp_polys_codec_At param Q.Level P.Level Q P hQlen hPlen hQ hPc hQok hPok
      have hspec : spec_qp_element_bytes param ⟨(⟨some Q, some P⟩, v1), seed, comp⟩
          = spec_ciphertext_qp_bytes Q P seed param Q.Level P.Level := rfl
      rw [hspec]
      refine ⟨fun w => ?_, ?_, ?_⟩
      · obtain ⟨pw1, pw2, c1, c2, c3⟩ := b1 (w ++ (spec_qp_header param Q.Level P.Level ++ seed))
        simp only [CiphertextQPToBytes, qp_header_to_bytes_eq Q P param Q.Level P.Level w rfl rfl
          hLq hLp hN hQlen hPlen, write_seed_64 _ _ hseed, c1, c2, c3, spec_ciphertext_qp_bytes,
          List.append_assoc]
      · simp only [spec_ciphertext_qp_bytes, List.length_append, hseed]
        omega
      · intro r rem h0
        simp only [spec_ciphertext_qp_bytes, List.append_assoc] at h0
        obtain ⟨r1, e1, h1⟩ := bytes_to_qp_header_At param Q.Level P.Level r _ hLq hLp hN h0
        obtain ⟨r2, e2, h2⟩ := read_seed_next seed r1 _ hseed h1
        obtain ⟨r3, e3, h3⟩ := b2 r2 rem h2
        exact ⟨r3, by simp only [BytesToCiphertextQP, e1, e2, e3, CiphertextQP.wire], h3⟩

theorem gadget_row_codec_At (param : Parameters) (row : List CiphertextQP) (hp : ParamOK param)
    (hrow : ∀ y ∈ row, CiphertextQPOK param y) :
    (∀ w, gadget_row_to_bytes param row w
        = some (w ++ (row.map (spec_qp_element_bytes param)).flatten)) ∧
    ∀ (r : Reader) (rem : List Nat),
      ((row.map (spec_qp_element_bytes param)).flatten ++ rem ≠ [] →
        At r ((row.map (spec_qp_element_bytes param)).flatten ++ rem)) →
      ∃ r2, bytes_to_gadget_row row.length r = some (row.map CiphertextQP.wire, r2) ∧
        (rem ≠ [] → At r2 rem) := by
  induction row with
  | nil =>
    refine ⟨fun w => by simp [gadget_row_to_bytes], fun r rem h => ⟨r, rfl, ?_⟩⟩
    simpa using h
  | cons y rest ih =>
    obtain ⟨a1, a2, a3⟩ := ciphertext_qp_codec_At param y hp (hrow y (List.mem_cons_self _ _))
    obtain ⟨i1, i2⟩ := ih (fun z hz => hrow z (List.mem_cons_of_mem _ hz))
    refine ⟨fun w => ?_, fun r rem h => ?_⟩
    · simp only [gadget_row_to_bytes, a1, i1, List.map_cons, List.flatten_cons, List.append_assoc]
    · simp only [List.map_cons, List.flatten_cons, List.append_assoc] at h
      have hne : spec_qp_element_bytes param y
          ++ ((rest.map (spec_qp_element_bytes param)).flatten ++ rem) ≠ [] := by
        intro hh
        have := congrArg List.length hh
        simp only [List.length_append, List.length_nil] at this
        omega
      obtain ⟨r1, e1, h1⟩ := a3 r _ (h hne)
      obtain ⟨r2, e2, h2⟩ := i2 r1 rem h1
      exact ⟨r2, by simp only [List.length_cons, bytes_to_gadget_row, e1, e2, List.map_cons], h2⟩

theorem gadget_rows_codec_At (param : Parameters) (rows : List (List CiphertextQP)) (n1 : Nat)
    (hp : ParamOK param) (hlen : ∀ row ∈ rows, row.length = n1)
    (hrows : ∀ row ∈ rows, ∀ y ∈ row, CiphertextQPOK param y) :
    (∀ w, gadget_rows_to_bytes param rows w
        = some (w ++ (rows.map
            (fun row => (row.map (spec_qp_element_bytes param)).flatten)).flatten)) ∧
    ∀ (r : Reader) (rem : List Nat),
      ((rows.map (fun row => (row.map (spec_qp_element_bytes param)).flatten)).flatten ++ rem ≠ [] →
        At r ((rows.map (fun row => (row.map (spec_qp_element_bytes param)).flatten)).flatten
          ++ rem)) →
      ∃ r2, bytes_to_gadget_rows n1 rows.length r
          = some (rows.map (List.map CiphertextQP.wire), r2) ∧
        (rem ≠ [] → At r2 rem) := by
  induction rows with
  | nil =>
    refine ⟨fun w => by simp [gadget_rows_to_bytes], fun r rem h => ⟨r, rfl, ?_⟩⟩
    simpa using h
  | cons x rest ih =>
    obtain ⟨a1, a3⟩ := gadget_row_codec_At param x hp (hrows x (List.mem_cons_self _ _))
    obtain ⟨i1, i2⟩ := ih (fun z hz => hlen z (List.mem_cons_of_mem _ hz))
      (fun z hz => hrows z (List.mem_cons_of_mem _ hz))
    have hx : x.length = n1 := hlen x (List.mem_cons_self _ _)
    refine ⟨fun w => ?_, fun r rem h => ?_⟩
    · simp only [gadget_rows_to_bytes, a1, i1, List.map_cons, List.flatten_cons,
        List.append_assoc]
    · simp only [List.map_cons, List.flatten_cons, List.append_assoc] at h
      obtain ⟨r1, e1, h1⟩ := a3 r _ h
      rw [hx] at e1
      obtain ⟨r2, e2, h2⟩ := i2 r1 rem h1
      exact ⟨r2, by simp only [List.length_cons, bytes_to_gadget_rows, e1, e2, List.map_cons], h2⟩

/-- A well-formed gadget ciphertext is written as the specified bytes after any earlier output,
and these bytes are read back, as the wire form of the object, from any reader standing before
them; when more bytes follow, the reader ends before those. -/
theorem gadget_codec_At (param : Parameters) (g : GadgetCiphertext) (hp : ParamOK param)
    (hg : GadgetOK param g) :
    (∀ w, GadgetCiphertextToBytes g param w = some (w ++ spec_gadget_bytes param g)) ∧
    2 ≤ (spec_gadget_bytes param g).length ∧
    ∀ (r : Reader) (rem : List Nat), At r (spec_gadget_bytes param g ++ rem) →
      ∃ r2, BytesToGadgetCiphertext r = some (g.wire, r2) ∧ (rem ≠ [] → At r2 rem) := by
  obtain ⟨rows⟩ := g
  obtain ⟨h1, h2, h3, h4, h5⟩ := hg
  simp only at h1 h2 h3 h4 h5
  obtain ⟨a1, a3⟩ := gadget_rows_codec_At param rows (rows.headD []).length hp h4 h5
  refine ⟨fun w => ?_, by simp [spec_gadget_bytes], fun r rem h => ?_⟩
  · cases rows with
    | nil => simp at h1
    | cons x0 rest =>
      simp only [GadgetCiphertextToBytes, a1, WriteByte, spec_gadget_bytes, List.headD_cons,
        Nat.mod_eq_of_lt (by omega : (x0 :: rest).length < 256),
        Nat.mod_eq_of_lt (by simpa using (by omega : ((x0 :: rest).headD []).length < 256)
          : x0.length < 256)]
      simp
  · simp only [spec_gadget_bytes, List.cons_append, List.nil_append] at h
    obtain ⟨r1, e1, g1⟩ := ReadByte_next r _ _ h
    obtain ⟨r2, e2, g2⟩ := ReadByte_next r1 _ _ g1
    obtain ⟨r3, e3, g3⟩ := a3 r2 rem (fun _ => g2)
    exact ⟨r3, by simp only [BytesToGadgetCiphertext, e1, e2, e3, GadgetCiphertext.wire], g3⟩

theorem switching_keys_codec_At (param : Parameters) (keys : List SwitchingKey)
    (hp : ParamOK param) (hk : ∀ k ∈ keys, GadgetOK param k.GadgetCiphertext) :
    (∀ w, switching_keys_to_bytes param keys w
        = some (w ++ (keys.map (fun k => spec_gadget_bytes param k.GadgetCiphertext)).flatten)) ∧
    ∀ (r : Reader) (rem : List Nat),
      ((keys.map (fun k => spec_gadget_bytes param k.GadgetCiphertext)).flatten ++ rem ≠ [] →
        At r ((keys.map (fun k => spec_gadget_bytes param k.GadgetCiphertext)).flatten ++ rem)) →
      ∃ r2, bytes_to_switching_keys keys.length r = some (keys.map SwitchingKey.wire, r2) ∧
        (rem ≠ [] → At r2 rem) := by
  induction keys with
  | nil =>
    refine ⟨fun w => by simp [switching_keys_to_bytes], fun r rem h => ⟨r, rfl, ?_⟩⟩
    simpa using h
  | cons k rest ih =>
    obtain ⟨a1, a2, a3⟩ := gadget_codec_At param k.GadgetCiphertext hp
      (hk k (List.mem_cons_self _ _))
    obtain ⟨i1, i2⟩ := ih (fun z hz => hk z (List.mem_cons_of_mem _ hz))
    refine ⟨fun w => ?_, fun r rem h => ?_⟩
    · simp only [switching_keys_to_bytes, SwitchingKeyToBytes, a1, i1, List.map_cons,
        List.flatten_cons, List.append_assoc]
    · simp only [List.map_cons, List.flatten_cons, List.append_assoc] at h
      have hne : spec_gadget_bytes param k.GadgetCiphertext
          ++ ((rest.map (fun k => spec_gadget_bytes param k.GadgetCiphertext)).flatten ++ rem)
            ≠ [] := by
        intro hh
        have := congrArg List.length hh
        simp only [List.length_append, List.length_nil] at this
        omega
      obtain ⟨r1, e1, h1⟩ := a3 r _ (h hne)
      obtain ⟨r2, e2, h2⟩ := i2 r1 rem h1
      exact ⟨r2, by simp only [List.length_cons, bytes_to_switching_keys, BytesToSwitchingKey, e1,
        e2, List.map_cons, SwitchingKey.wire], h2⟩

theorem mapaccess_filter_ne (m : KeyMap) (k g : Nat) (h : g ≠ k) :
    mapaccess (m.filter (fun e => e.1 != k)) g = mapaccess m g := by
  induction m with
  | nil => rfl
  | cons e m ih =>
    unfold mapaccess at ih ⊢
    obtain ⟨a, b⟩ := e
    by_cases he : a = k
    · have hge : (g == a) = false := by
        simp only [beq_eq_false_iff_ne, ne_eq]; rw [he]; exact h
      have hf : List.filter (fun e => e.1 != k) ((a, b) :: m)
          = List.filter (fun e => e.1 != k) m := by
        simp [List.filter_cons, he]
      rw [hf, List.lookup_cons, hge, ih]
    · have hf : List.filter (fun e => e.1 != k) ((a, b) :: m)
          = (a, b) :: List.filter (fun e => e.1 != k) m := by
        simp [List.filter_cons, he]
      rw [hf, List.lookup_cons, List.lookup_cons, ih]

theorem mapaccess_mapassign_self (m : KeyMap) (k : Nat) (v : SwitchingKey) :
    mapaccess (mapassign m k v) k = some v := by
  simp [mapaccess, mapassign, List.lookup_cons]

theorem mapaccess_mapassign_ne (m : KeyMap) (k g : Nat) (v : SwitchingKey) (h : g ≠ k) :
    mapaccess (mapassign m k v) g = mapaccess m g := by
  have hg : (g == k) = false := by simpa using h
  have := mapaccess_filter_ne m k g h
  unfold mapaccess at this ⊢
  unfold mapassign
  rw [List.lookup_cons, hg, this]

theorem mapassign_keys_nodup (m : KeyMap) (k : Nat) (v : SwitchingKey)
    (h : (m.map Prod.fst).Nodup) : ((mapassign m k v).map Prod.fst).Nodup := by
  unfold mapassign
  rw [List.map_cons, List.nodup_cons]
  refine ⟨?_, ?_⟩
  · intro hk
    obtain ⟨e, he, hek⟩ := List.mem_map.mp hk
    have := (List.mem_filter.mp he).2
    simp [hek] at this
  · exact List.Nodup.sublist (List.Sublist.map _ (List.filter_sublist _)) h

theorem mapassign_all_keys_nodup (es : List (Nat × SwitchingKey)) (m : KeyMap)
    (h : (m.map Prod.fst).Nodup) : ((mapassign_all m es).map Prod.fst).Nodup := by
  induction es generalizing m with
  | nil => exact h
  | cons e es ih => exact ih _ (mapassign_keys_nodup m e.1 e.2 h)

theorem mapassign_all_append (m : KeyMap) (es fs : List (Nat × SwitchingKey)) :
    mapassign_all m (es ++ fs) = mapassign_all (mapassign_all m es) fs := by
  simp [mapassign_all, List.foldl_append]

theorem mapaccess_mapassign_all_not_mem (es : List (Nat × SwitchingKey)) (m : KeyMap) (g : Nat)
    (h : g ∉ es.map Prod.fst) : mapaccess (mapassign_all m es) g = mapaccess m g := by
  induction es generalizing m with
  | nil => rfl
  | cons e es ih =>
    simp only [List.map_cons, List.mem_cons, not_or] at h
    have := ih (mapassign m e.1 e.2) h.2
    simp only [mapassign_all, List.foldl_cons] at this ⊢
    rw [this, mapaccess_mapassign_ne _ _ _ _ h.1]

/-- Last write wins: after assigning `pre`, then `(g, k)`, then entries `post` none of which has
key `g`, the map holds `k` at `g`. -/
theorem mapaccess_mapassign_all_last (pre post : List (Nat × SwitchingKey)) (m : KeyMap)
    (g : Nat) (k : SwitchingKey) (h : g ∉ post.map Prod.fst) :
    mapaccess (mapassign_all m (pre ++ (g, k) :: post)) g = some k := by
  rw [mapassign_all_append]
  have : mapassign_all (mapassign_all m pre) ((g, k) :: post)
      = mapassign_all (mapassign (mapassign_all m pre) g k) post := rfl
  rw [this, mapaccess_mapassign_all_not_mem post _ g h, mapaccess_mapassign_self]

theorem mem_keys_mapassign (m : KeyMap) (k g : Nat) (v : SwitchingKey) :
    g ∈ (mapassign m k v).map Prod.fst ↔ g = k ∨ g ∈ m.map Prod.fst := by
  unfold mapassign
  rw [List.map_cons, List.mem_cons]
  constructor
  · rintro (h | h)
    · exact Or.inl h
    · obtain ⟨e, he, rfl⟩ := List.mem_map.mp h
      exact Or.inr (List.mem_map.mpr ⟨e, (List.mem_filter.mp he).1, rfl⟩)
  · rintro (h | h)
    · exact Or.inl h
    · by_cases hg : g = k
      · exact Or.inl hg
      · obtain ⟨e, he, rfl⟩ := List.mem_map.mp h
        exact Or.inr (List.mem_map.mpr ⟨e, List.mem_filter.mpr ⟨he, by simpa using hg⟩, rfl⟩)

theorem mem_keys_mapassign_all (es : List (Nat × SwitchingKey)) (m : KeyMap) (g : Nat) :
    g ∈ (mapassign_all m es).map Prod.fst ↔ g ∈ es.map Prod.fst ∨ g ∈ m.map Prod.fst := by
  induction es generalizing m with
  | nil => simp [mapassign_all]
  | cons e es ih =>
    have := ih (mapassign m e.1 e.2)
    simp only [mapassign_all, List.foldl_cons] at this ⊢
    rw [this, mem_keys_mapassign]
    simp only [List.map_cons, List.mem_cons]
    tauto

theorem mapaccess_of_mem (m : KeyMap) (g : Nat) (k : SwitchingKey)
    (hnd : (m.map Prod.fst).Nodup) (h : (g, k) ∈ m) : mapaccess m g = some k := by
  induction m with
  | nil => simp at h
  | cons e m ih =>
    obtain ⟨a, b⟩ := e
    rw [List.map_cons, List.nodup_cons] at hnd
    unfold mapaccess at ih ⊢
    rw [List.lookup_cons]
    rcases List.mem_cons.mp h with h1 | h1
    · cases h1
      simp
    · have hne : g ≠ a := by
        intro hga
        apply hnd.1
        rw [← hga]
        exact List.mem_map.mpr ⟨(g, k), h1, rfl⟩
      have : (g == a) = false := by simpa using hne
      rw [this]
      exact ih hnd.2 h1

theorem WriteUint16_eq (w : Writer) (n : Nat) (hn : n < 2 ^ 16) :
    WriteUint16 w n = w ++ spec_uint16 n := by
  simp only [WriteUint16, Nat.mod_eq_of_lt hn]
  simp [spec_uint16, Nat.shiftRight_eq_div_pow]

theorem WriteUint64_eq (w : Writer) (v : Nat) (hv : v < 2 ^ 64) :
    WriteUint64 w v = w ++ spec_uint64 v := by
  simp only [WriteUint64, Nat.mod_eq_of_lt hv]
  have : List.range 8 = [0, 1, 2, 3, 4, 5, 6, 7] := by decide
  rw [this]
  simp [spec_uint64, Nat.shiftRight_eq_div_pow]

theorem ReadUint16_next (r : Reader) (n : Nat) (rem : List Nat) (hn : n < 2 ^ 16)
    (h : At r (spec_uint16 n ++ rem)) :
    ∃ r2, ReadUint16 r = (n, r2) ∧ At r2 rem := by
  have hadv := At_advance r _ _ h
  obtain ⟨pre, rfl⟩ := At_split r _ h
  refine ⟨_, ?_, hadv⟩
  unfold ReadUint16
  have hlen : pre.length + 2 ≤ (pre ++ (spec_uint16 n ++ rem)).length := by
    simp [spec_uint16]
  rw [if_pos hlen]
  have h0 : (pre ++ (spec_uint16 n ++ rem)).getD pre.length 0 = n % 256 := by
    rw [List.getD_append_right _ _ _ _ (le_refl _)]; simp [spec_uint16]
  have h1 : (pre ++ (spec_uint16 n ++ rem)).getD (pre.length + 1) 0 = n / 2 ^ 8 % 256 := by
    rw [List.getD_append_right _ _ _ _ (by omega)]; simp [spec_uint16]
  simp only [h0, h1]
  congr 1
  · norm_num at hn ⊢
    omega

theorem ReadUint64_next (r : Reader) (v old : Nat) (rem : List Nat) (hv : v < 2 ^ 64)
    (h : At r (spec_uint64 v ++ rem)) :
    ∃ r2, ReadUint64 r old = (v, r2) ∧ At r2 rem := by
  have hadv := At_advance r _ _ h
  obtain ⟨pre, rfl⟩ := At_split r _ h
  refine ⟨_, ?_, hadv⟩
  unfold ReadUint64
  have hlen : pre.length + 8 ≤ (pre ++ (spec_uint64 v ++ rem)).length := by
    simp [spec_uint64]
  rw [if_pos hlen]
  have hg : ∀ k, (pre ++ (spec_uint64 v ++ rem)).getD (pre.length + k) 0
      = (spec_uint64 v ++ rem).getD k 0 := by
    intro k
    rw [List.getD_append_right _ _ _ _ (by omega)]
    congr 1
    omega
  have hr : List.range 8 = [0, 1, 2, 3, 4, 5, 6, 7] := by decide
  simp only [hr, List.map_cons, List.map_nil, hg, List.sum_cons, List.sum_nil]
  congr 1
  · simp only [spec_uint64, List.cons_append, List.getD_cons_zero, List.getD_cons_succ]
    norm_num at hv ⊢
    omega

theorem rotation_keys_codec_At (param : Parameters) (es : List (Nat × SwitchingKey))
    (hp : ParamOK param) (hes : EntriesOK param es) :
    (∀ w, rotation_keys_to_bytes param es w = some (w ++ spec_rotation_entries param es)) ∧
    ∀ (r : Reader) (rem : List Nat) (m : KeyMap),
      (spec_rotation_entries param es ++ rem ≠ [] →
        At r (spec_rotation_entries param es ++ rem)) →
      ∃ r2, bytes_to_rotation_keys es.length r m
          = some (mapassign_all m (wire_entries es), r2) ∧
        (rem ≠ [] → At r2 rem) := by
  induction es with
  | nil =>
    refine ⟨fun w => by simp [rotation_keys_to_bytes, spec_rotation_entries],
      fun r rem m h => ⟨r, rfl, ?_⟩⟩
    simpa [spec_rotation_entries] using h
  | cons e rest ih =>
    obtain ⟨he1, he2⟩ := hes e (List.mem_cons_self _ _)
    obtain ⟨a1, a2, a3⟩ := gadget_codec_At param e.2.GadgetCiphertext hp he2
    obtain ⟨i1, i2⟩ := ih (fun z hz => hes z (List.mem_cons_of_mem _ hz))
    refine ⟨fun w => ?_, fun r rem m h => ?_⟩
    · simp only [rotation_keys_to_bytes, WriteUint64_eq _ _ he1, a1, i1, spec_rotation_entries,
        List.map_cons, List.flatten_cons, List.append_assoc]
    · simp only [spec_rotation_entries, List.map_cons, List.flatten_cons, List.append_assoc]
        at h
      have h0 := h (by simp [spec_uint64])
      obtain ⟨r1, e1, h1⟩ := ReadUint64_next r e.1 0 _ he1 h0
      obtain ⟨r2, e2, h2⟩ := a3 r1 _ h1
      have hne : (rest.map (fun e => spec_uint64 e.1
          ++ spec_gadget_bytes param e.2.GadgetCiphertext)).flatten ++ rem ≠ [] →
          At r2 ((rest.map (fun e => spec_uint64 e.1
            ++ spec_gadget_bytes param e.2.GadgetCiphertext)).flatten ++ rem) := h2
      obtain ⟨r3, e3, h3⟩ := i2 r2 rem (mapassign m e.1 ⟨e.2.GadgetCiphertext.wire⟩) hne
      refine ⟨r3, ?_, h3⟩
      simp only [List.length_cons, bytes_to_rotation_keys, e1, e2, e3]
      rfl

/-- Decoding a rotation key set laid out with its entries in the order `es`, duplicates
allowed: the result is the map obtained by assigning the decoded entries in stream order. -/
theorem rotation_key_set_decode (param : Parameters) (es : List (Nat × SwitchingKey))
    (hp : ParamOK param) (hn : es.length < 2 ^ 16) (hes : EntriesOK param es) :
    ∃ r, BytesToRotationKeySet (NewReader (spec_rotation_bytes param es))
      = some (⟨mapassign_all [] (wire_entries es)⟩, r) := by
  obtain ⟨-, a3⟩ := rotation_keys_codec_At param es hp hes
  have h0 := At_NewReader (spec_rotation_bytes param es)
  generalize NewReader (spec_rotation_bytes param es) = r0 at h0 ⊢
  unfold spec_rotation_bytes at h0
  obtain ⟨r1, e1, h1⟩ := ReadUint16_next r0 _ _ hn h0
  rw [← List.append_nil (spec_rotation_entries param es)] at h1
  obtain ⟨r2, e2, -⟩ := a3 r1 [] [] (fun _ => h1)
  exact ⟨r2, by simp only [BytesToRotationKeySet, e1, e2]⟩

theorem mapassign_all_fresh (es : List (Nat × SwitchingKey)) (m : KeyMap)
    (hnd : ((m.reverse ++ es).map Prod.fst).Nodup) :
    mapassign_all m es = es.reverse ++ m := by
  induction es generalizing m with
  | nil => simp [mapassign_all]
  | cons e es ih =>
    have hfresh : m.filter (fun x => x.1 != e.1) = m := by
      rw [List.filter_eq_self]
      intro x hx
      simp only [bne_iff_ne, ne_eq]
      intro hxe
      rw [List.map_append, List.nodup_append] at hnd
      have h3 := hnd.2.2
      exact h3 (List.mem_map.mpr ⟨x, List.mem_reverse.mpr hx, rfl⟩)
        (List.mem_map.mpr ⟨e, List.mem_cons_self _ _, hxe.symm⟩)
    have hstep : mapassign_all m (e :: es) = mapassign_all (mapassign m e.1 e.2) es := rfl
    rw [hstep]
    have hm : mapassign m e.1 e.2 = e :: m := by
      unfold mapassign
      rw [hfresh]
    rw [hm, ih (e :: m) (by simpa using hnd)]
    simp

theorem bytesLE_congr (n a b : Nat) (h : a % 2 ^ (8 * n) = b % 2 ^ (8 * n)) :
    bytesLE n a = bytesLE n b := by
  induction n generalizing a b with
  | zero => rfl
  | succ n ih =>
    have hp : 2 ^ (8 * (n + 1)) = 256 * 2 ^ (8 * n) := by
      rw [show 8 * (n + 1) = 8 + 8 * n by ring, Nat.pow_add]
    rw [hp] at h
    simp only [bytesLE]
    congr 1
    · have := congrArg (fun t => t % 256) h
      simpa [Nat.mod_mod_of_dvd _ (Dvd.intro _ rfl : 256 ∣ 256 * 2 ^ (8 * n))] using this
    · apply ih
      rw [Nat.shiftRight_eq_div_pow, Nat.shiftRight_eq_div_pow]
      have ha := Nat.mod_mul_right_div_self a 256 (2 ^ (8 * n))
      have hb := Nat.mod_mul_right_div_self b 256 (2 ^ (8 * n))
      norm_num at ha hb ⊢
      rw [← ha, ← hb, h]

theorem div_mod_two_pow_of_mod (x bl s m : Nat) (h : s + m ≤ bl) :
    (x % 2 ^ bl) / 2 ^ s % 2 ^ m = x / 2 ^ s % 2 ^ m := by
  rw [← Nat.mod_mul_right_div_self, ← Nat.mod_mul_right_div_self x, ← Nat.pow_add,
    Nat.mod_mod_of_dvd _ (Nat.pow_dvd_pow 2 h)]

theorem or_shiftRight_of_lt (y leak m : Nat) (h : leak < 2 ^ m) :
    (y ||| leak) >>> m = y >>> m := by
  apply Nat.eq_of_testBit_eq
  intro i
  rw [Nat.testBit_shiftRight, Nat.testBit_shiftRight, Nat.testBit_or]
  have : leak.testBit (m + i) = false :=
    Nat.testBit_eq_false_of_lt (lt_of_lt_of_le h (Nat.pow_le_pow_right (by norm_num) (by omega)))
  rw [this, Bool.or_false]

theorem or_mod_two_pow_of_lt (y leak m : Nat) (h : leak < 2 ^ m) :
    (y ||| leak) % 2 ^ m = (y % 2 ^ m) ||| leak := by
  apply Nat.eq_of_testBit_eq
  intro i
  rw [Nat.testBit_mod_two_pow, Nat.testBit_or, Nat.testBit_or, Nat.testBit_mod_two_pow]
  by_cases hi : i < m
  · simp [hi]
  · have : leak.testBit i = false :=
      Nat.testBit_eq_false_of_lt (lt_of_lt_of_le h (Nat.pow_le_pow_right (by norm_num) (by omega)))
    simp [hi, this]

theorem add_or_mul_two_pow (a p q n : Nat) (ha : a < 2 ^ n) :
    (a + 2 ^ n * p) ||| (q * 2 ^ n) = a + (q ||| p) * 2 ^ n := by
  rw [Nat.mul_comm (2 ^ n) p, ← or_shiftLeft_of_lt p ha, ← or_shiftLeft_of_lt (q ||| p) ha,
    ← Nat.shiftLeft_eq]
  apply Nat.eq_of_testBit_eq
  intro i
  simp only [Nat.testBit_or, Nat.testBit_shiftLeft]
  cases a.testBit i <;> cases decide (i ≥ n) <;> cases p.testBit (i - n) <;>
    cases q.testBit (i - n) <;> rfl

/-- With at least 8 bits per value, the bytes a value contributes depend only on its low
`bit_length` bits. -/
theorem value_bytes_mod (bl x b off : Nat) (h8 : 8 ≤ bl) (hbl : bl ≤ 64) (hoff : off ≤ 7) :
    value_bytes bl x b off = value_bytes bl (x % 2 ^ bl) b off := by
  unfold value_bytes
  have h256 : (x % 2 ^ bl) % 256 = x % 256 :=
    Nat.mod_mod_of_dvd x (by
      have : (256 : Nat) = 2 ^ 8 := by norm_num
      rw [this]; exact Nat.pow_dvd_pow 2 h8)
  rw [h256]
  congr 1
  apply bytesLE_congr
  rw [Nat.shiftRight_eq_div_pow, Nat.shiftRight_eq_div_pow, n_low_bit_eq off hoff,
    n_full_byte_normal bl off hoff hbl (by omega)]
  exact (div_mod_two_pow_of_mod x bl _ _ (by omega)).symm

/-- The carry byte left by a value that need not fit: the carry of its low `bit_length` bits,
with the next `8 - n_high_bit` bits of the value on top. -/
theorem value_carry_overflow (bl x off : Nat) (h8 : 8 ≤ bl) (hbl : bl ≤ 64) (hoff : off ≤ 7) :
    value_carry bl x off = value_carry bl (x % 2 ^ bl) off
      + 2 ^ n_high_bit bl off * ((x >>> bl) % 2 ^ (8 - n_high_bit bl off)) := by
  have hnh := n_high_bit_normal bl off hoff hbl (by omega)
  have hnf := n_full_byte_normal bl off hoff hbl (by omega)
  have hle := n_high_bit_le bl off
  obtain ⟨s, hs⟩ : ∃ s, s = n_low_bit off + 8 * n_full_byte bl off := ⟨_, rfl⟩
  have hsum : s + n_high_bit bl off = bl := by
    rw [hs, n_low_bit_eq off hoff, hnf, hnh]; omega
  unfold value_carry
  rw [← Nat.shiftRight_add, ← Nat.shiftRight_add, ← hs]
  simp only [Nat.shiftRight_eq_div_pow]
  generalize n_high_bit bl off = nh at hsum hle
  have hpow : 2 ^ bl = 2 ^ s * 2 ^ nh := by rw [← Nat.pow_add, hsum]
  have h1 : x % 2 ^ bl / 2 ^ s % 256 = x / 2 ^ s % 2 ^ nh := by
    have e : x % 2 ^ bl / 2 ^ s = x / 2 ^ s % 2 ^ nh := by
      rw [hpow, Nat.mod_mul_right_div_self]
    rw [e]
    apply Nat.mod_eq_of_lt
    exact lt_of_lt_of_le (Nat.mod_lt _ (by positivity))
      (by
        have : (256 : Nat) = 2 ^ 8 := by norm_num
        rw [this]; exact Nat.pow_le_pow_right (by norm_num) (by omega))
  have h2 : x / 2 ^ bl = x / 2 ^ s / 2 ^ nh := by
    rw [hpow, Nat.div_div_eq_div_mul]
  have h3 : (256 : Nat) = 2 ^ nh * 2 ^ (8 - nh) := by
    rw [← Nat.pow_add, show nh + (8 - nh) = 8 by omega]
  rw [h1, h2]
  conv_lhs => rw [h3]
  exact Nat.mod_mul

theorem overflow_bits_lt (bl x off : Nat) :
    overflow_bits bl x off < 2 ^ (8 - n_high_bit bl off) :=
  Nat.mod_lt _ (by positivity)

theorem component_to_bytes_loop_app (bl : Nat) (pre l : List Nat) (b off : Nat) (w : Writer) :
    component_to_bytes_loop bl (pre ++ l) b off w
      = component_to_bytes_loop bl l (component_to_bytes_loop bl pre b off w).1
          (component_to_bytes_loop bl pre b off w).2.1
          (component_to_bytes_loop bl pre b off w).2.2 := by
  induction pre generalizing b off w with
  | nil => rfl
  | cons x pre ih =>
    rw [List.cons_append, component_to_bytes_loop_cons, component_to_bytes_loop_cons, ih]

/-- Writing an out-of-range value and then an in-range one leaves the writer in the state in
which writing the low bits of the first and the second with the overflow bits OR-ed in leaves
it. -/
theorem component_to_bytes_loop_overflow (bl x y : Nat) (rest : List Nat) (b off : Nat)
    (w : Writer) (h8 : 8 ≤ bl) (hbl : bl ≤ 64) (hoff : off ≤ 7) :
    component_to_bytes_loop bl (x :: y :: rest) b off w
      = component_to_bytes_loop bl ((x % 2 ^ bl) :: (y ||| overflow_bits bl x off) :: rest)
          b off w := by
  have hnh := n_high_bit_le bl off
  have hleak := overflow_bits_lt bl x off
  have hc := value_carry_overflow bl x off h8 hbl hoff
  have hclt := value_carry_lt bl (x % 2 ^ bl) off hbl hoff (Nat.mod_lt _ (by positivity))
  have hnl : n_low_bit (n_high_bit bl off) = 8 - n_high_bit bl off := n_low_bit_eq _ hnh
  have hshift : (y ||| overflow_bits bl x off) >>> n_low_bit (n_high_bit bl off)
      = y >>> n_low_bit (n_high_bit bl off) := by
    rw [hnl]; exact or_shiftRight_of_lt _ _ _ hleak
  have hcarry : value_carry bl (y ||| overflow_bits bl x off) (n_high_bit bl off)
      = value_carry bl y (n_high_bit bl off) := by
    unfold value_carry; rw [hshift]
  have hfirst : ∀ v, (((v % 256) &&& byte_mask (n_low_bit (n_high_bit bl off)))
      <<< n_high_bit bl off) % 256 = (v % 2 ^ (8 - n_high_bit bl off)) * 2 ^ n_high_bit bl off := by
    intro v
    have := first_byte_eq v 0 (n_high_bit bl off) hnh (by positivity)
    simpa using this
  have hbytes : value_bytes bl y (value_carry bl x off) (n_high_bit bl off)
      = value_bytes bl (y ||| overflow_bits bl x off) (value_carry bl (x % 2 ^ bl) off)
          (n_high_bit bl off) := by
    unfold value_bytes
    rw [hshift]
    congr 1
    rw [first_byte_eq _ _ _ hnh hclt, hfirst, hc]
    unfold overflow_bits at hleak ⊢
    rw [add_or_mul_two_pow _ _ _ _ hclt, or_mod_two_pow_of_lt _ _ _ hleak]
  rw [component_to_bytes_loop_cons, component_to_bytes_loop_cons, component_to_bytes_loop_cons,
    component_to_bytes_loop_cons, ← value_bytes_mod bl x b off h8 hbl hoff, hbytes, hcarry]

/-- The values are read back from the bytes of the writer loop followed by any bytes `T` whose
first byte agrees with the final carry byte on its low `bit_offset` bits. -/
theorem bytes_to_component_values (bl : Nat) (hbl : bl ≤ 64) (src : List Nat)
    (hsrc : ∀ x ∈ src, x < 2 ^ bl) (T : List Nat)
    (hT : (T.headD 0) &&& byte_mask (component_to_bytes_loop bl src 0 0 []).2.1
      = (component_to_bytes_loop bl src 0 0 []).1) :
    (bytes_to_component (NewReader ((component_to_bytes_loop bl src 0 0 []).2.2 ++ T)) bl
      src.length).2 = src := by
  have hv0 := View_start (NewReader ((component_to_bytes_loop bl src 0 0 []).2.2 ++ T))
    (by simp [NewReader])
  have hd : (NewReader ((component_to_bytes_loop bl src 0 0 []).2.2 ++ T)).s.drop
      (NewReader ((component_to_bytes_loop bl src 0 0 []).2.2 ++ T)).i
      = (component_to_bytes_loop bl src 0 0 []).2.2 ++ T := by simp [NewReader]
  rw [hd] at hv0
  obtain ⟨h1, -⟩ := bytes_to_component_loop_spec bl hbl src 0 0 _ _ T (by norm_num)
    (by norm_num) hsrc hv0 hT
  unfold bytes_to_component
  exact h1

theorem component_to_bytes_eq_loop (src : List Nat) (bl : Nat) :
    component_to_bytes src bl []
      = (component_to_bytes_loop bl src 0 0 []).2.2
        ++ (if (component_to_bytes_loop bl src 0 0 []).2.1 > 0
            then [(component_to_bytes_loop bl src 0 0 []).1] else []) := by
  unfold component_to_bytes
  simp only [WriteByte]
  split <;> simp

/-- Decoding after an out-of-range value (bit lengths of at least 8): the values before it
are read back intact, the value itself is read back reduced to its low `bit_length` bits, its
immediate successor is read back with the overflow bits OR-ed in, and all later values are
read back intact. -/
theorem decode_with_overflow (bl : Nat) (pre rest : List Nat) (x : Nat)
    (h8 : 8 ≤ bl) (hbl : bl ≤ 64) (hpre : ∀ v ∈ pre, v < 2 ^ bl)
    (hrest : ∀ v ∈ rest, v < 2 ^ bl) :
    (bytes_to_component (NewReader (component_to_bytes (pre ++ x :: rest) bl [])) bl
        (pre ++ x :: rest).length).2
      = pre ++ (x % 2 ^ bl) :: after_overflow bl x (pre.length * bl % 8) rest := by
  have hoffv := loop_final_offset bl pre 0 0 (by norm_num)
  rw [Nat.zero_add] at hoffv
  have hst := loop_carry_lt bl hbl pre 0 0 (by norm_num) (by norm_num) hpre
  have hxm : x % 2 ^ bl < 2 ^ bl := Nat.mod_lt _ (by positivity)
  rw [← hoffv]
  generalize hb0 : (component_to_bytes_loop bl pre 0 0 []).1 = b0 at hst
  generalize ho0 : (component_to_bytes_loop bl pre 0 0 []).2.1 = off at hst
  generalize hw0 : (component_to_bytes_loop bl pre 0 0 []).2.2 = w0
  obtain ⟨hb0lt, hoff⟩ := hst
  cases rest with
  | nil =>
    have hsrc : ∀ v ∈ pre ++ [x % 2 ^ bl], v < 2 ^ bl := by
      intro v hv
      rcases List.mem_append.mp hv with h | h
      · exact hpre v h
      · rw [List.mem_singleton.mp h]; exact hxm
    have hL : ∀ z, component_to_bytes_loop bl (pre ++ [z]) 0 0 []
        = (value_carry bl z off, n_high_bit bl off, w0 ++ value_bytes bl z b0 off) := by
      intro z
      rw [component_to_bytes_loop_app, hb0, ho0, hw0, component_to_bytes_loop_cons]
      rfl
    have hc := value_carry_overflow bl x off h8 hbl hoff
    have hclt := value_carry_lt bl (x % 2 ^ bl) off hbl hoff hxm
    have hnh := n_high_bit_le bl off
    have hval := bytes_to_component_values bl hbl (pre ++ [x % 2 ^ bl]) hsrc
      (if n_high_bit bl off > 0 then [value_carry bl x off] else [])
      (by
        rw [hL]
        simp only
        by_cases hpos : n_high_bit bl off > 0
        · rw [if_pos hpos, List.headD_cons, byte_mask_eq _ (by omega),
            Nat.and_pow_two_sub_one_eq_mod, hc, Nat.add_mul_mod_self_left,
            Nat.mod_eq_of_lt hclt]
        · have h0 : n_high_bit bl off = 0 := by omega
          rw [h0] at hclt
          rw [if_neg hpos, h0]
          simp only [List.headD_nil, Nat.zero_and]
          omega)
    have hbytes : component_to_bytes (pre ++ [x]) bl []
        = (component_to_bytes_loop bl (pre ++ [x % 2 ^ bl]) 0 0 []).2.2
          ++ (if n_high_bit bl off > 0 then [value_carry bl x off] else []) := by
      rw [component_to_bytes_eq_loop, hL, hL, ← value_bytes_mod bl x b0 off h8 hbl hoff]
    rw [hbytes]
    simp only [after_overflow]
    have hlen : (pre ++ [x]).length = (pre ++ [x % 2 ^ bl]).length := by simp
    rw [hlen]
    exact hval
  | cons y post =>
    have hy : y < 2 ^ bl := hrest y (List.mem_cons_self _ _)
    have hleak : overflow_bits bl x off < 2 ^ bl :=
      lt_of_lt_of_le (overflow_bits_lt bl x off) (Nat.pow_le_pow_right (by norm_num) (by omega))
    have hsrc : ∀ v ∈ pre ++ (x % 2 ^ bl) :: (y ||| overflow_bits bl x off) :: post,
        v < 2 ^ bl := by
      intro v hv
      rcases List.mem_append.mp hv with h | h
      · exact hpre v h
      · rcases List.mem_cons.mp h with h | h
        · rw [h]; exact hxm
        · rcases List.mem_cons.mp h with h | h
          · rw [h]; exact Nat.or_lt_two_pow hy hleak
          · exact hrest v (List.mem_cons_of_mem _ h)
    have hloop : component_to_bytes_loop bl (pre ++ x :: y :: post) 0 0 []
        = component_to_bytes_loop bl
            (pre ++ (x % 2 ^ bl) :: (y ||| overflow_bits bl x off) :: post) 0 0 [] := by
      rw [component_to_bytes_loop_app, component_to_bytes_loop_app, ho0,
        component_to_bytes_loop_overflow bl x y post _ off _ h8 hbl hoff]
    have hbytes : component_to_bytes (pre ++ x :: y :: post) bl []
        = component_to_bytes (pre ++ (x % 2 ^ bl) :: (y ||| overflow_bits bl x off) :: post)
            bl [] := by
      rw [component_to_bytes_eq_loop, component_to_bytes_eq_loop, hloop]
    have hs := bytes_to_component_stream bl hbl _ hsrc [] []
    simp only [List.append_nil, List.length_nil] at hs
    have hlen : (pre ++ x :: y :: post).length
        = (pre ++ (x % 2 ^ bl) :: (y ||| overflow_bits bl x off) :: post).length := by simp
    rw [hbytes, hlen]
    unfold NewReader
    rw [hs]
    rfl

theorem Len64Aux_zero (fuel : Nat) : Len64Aux fuel 0 = 0 := by
  cases fuel <;> simp [Len64Aux]

theorem two_pow_Len64Aux_le (fuel x : Nat) (hx : x ≠ 0) : 2 ^ Len64Aux fuel x ≤ 2 * x := by
  induction fuel generalizing x with
  | zero => simp [Len64Aux]; omega
  | succ n ih =>
    simp only [Len64Aux, if_neg hx]
    rw [Nat.pow_add, Nat.pow_one]
    by_cases h2 : x / 2 = 0
    · rw [h2, Len64Aux_zero]; omega
    · have := ih (x / 2) h2
      omega

theorem two_pow_Len64_le (x : Nat) (hx : x ≠ 0) (h64 : x < 2 ^ 64) : 2 ^ Len64 x ≤ 2 * x := by
  unfold Len64
  rw [Nat.mod_eq_of_lt h64]
  exact two_pow_Len64Aux_le 64 x hx

/-- For an odd modulus `q ≥ 3` that is a `uint64`, `Len64 q` bits hold every residue and no
smaller number of bits does. -/
theorem Len64_minimal (q : Nat) (hodd : q % 2 = 1) (h3 : 3 ≤ q) (h64 : q < 2 ^ 64) :
    (∀ r, r < q → r < 2 ^ Len64 q) ∧ ∀ b, (∀ r, r < q → r < 2 ^ b) → Len64 q ≤ b := by
  have hup := lt_two_pow_Len64 q h64
  have hlow := two_pow_Len64_le q (by omega) h64
  refine ⟨fun r hr => lt_trans hr hup, fun b hb => ?_⟩
  by_contra hcon
  have hlt : b < Len64 q := by omega
  obtain ⟨k, hk⟩ : ∃ k, Len64 q = k + 1 := ⟨Len64 q - 1, by omega⟩
  rw [hk, Nat.pow_succ] at hlow hup
  have hk1 : 1 ≤ k := by
    rcases Nat.eq_zero_or_pos k with h0 | h0
    · rw [h0] at hup; omega
    · exact h0
  have heven : 2 ^ k % 2 = 0 := by
    obtain ⟨m, rfl⟩ : ∃ m, k = m + 1 := ⟨k - 1, by omega⟩
    rw [Nat.pow_succ]; omega
  have hq : 2 ^ k < q := by omega
  have := hb (2 ^ k) hq
  have hle : 2 ^ b ≤ 2 ^ k := Nat.pow_le_pow_right (by norm_num) (by omega)
  omega

theorem ciphertext_polys_to_bytes_third (t : List Nat) (a b : Nat) (p0 p1 p2 : Poly)
    (rest : List Poly) (w : Writer) :
    ciphertext_polys_to_bytes t [a, b] (p0 :: p1 :: p2 :: rest) 0 w = none := by
  simp only [ciphertext_polys_to_bytes, List.getElem?_cons_zero, Nat.zero_add,
    List.getElem?_cons_succ]
  cases poly_to_bytes p0 t a w with
  | none => rfl
  | some pw0 =>
    simp only
    cases poly_to_bytes p1 t b pw0.2 with
    | none => rfl
    | some pw1 => rfl

theorem CiphertextToBytes_third (ct : Ciphertext) (param : Parameters) (d0 d1 : Int) (w : Writer)
    (h : 3 ≤ ct.Value.length) : CiphertextToBytes ct param d0 d1 w = none := by
  obtain ⟨Ps⟩ := ct
  match Ps, h with
  | p0 :: p1 :: p2 :: rest, _ =>
    simp only [CiphertextToBytes, Ciphertext.Level]
    cases q_bit_lengths_of param.Q (p0.Level + 1) 0 with
    | none => rfl
    | some t => exact ciphertext_polys_to_bytes_third _ _ _ _ _ _ _ _

/-- A ciphertext whose components have `L+1` limbs each is written, after any earlier output
`w`, as the specified bytes. -/
theorem CiphertextToBytes_layout (ct : Ciphertext) (param : Parameters) (L : Nat) (d0 d1 : Int)
    (w : Writer) (hcount : 1 ≤ ct.Value.length ∧ ct.Value.length ≤ 2) (hL : L ≤ 254)
    (hN : param.N < 2 ^ 32) (hQlen : L + 1 ≤ param.Q.length)
    (hP : ∀ P ∈ ct.Value, P.Coeffs.length = L + 1) :
    CiphertextToBytes ct param d0 d1 w
      = some (w ++ spec_ciphertext_bytes ct param L [(d0 % 256).toNat, (d1 % 256).toNat]) := by
  obtain ⟨Ps⟩ := ct
  simp only at hcount hP
  have hlevel : Ciphertext.Level ⟨Ps⟩ = some L := by
    cases Ps with
    | nil => simp at hcount
    | cons P0 Ps2 =>
      have := hP P0 (List.mem_cons_self _ _)
      simp [Ciphertext.Level, Poly.Level, this]
  have htab := q_bit_lengths_of_spec_table param.Q L hQlen
  have hw : write_table (WriteByte (WriteByte (WriteUint32 w param.N) (Ps.length % 256))
      (L % 256)) (spec_table param.Q L)
        = w ++ spec_ciphertext_header param.N Ps.length L param.Q := by
    rw [write_table_eq _ _ (spec_table_lt _ _), Nat.mod_eq_of_lt (by omega : Ps.length < 256),
      Nat.mod_eq_of_lt (by omega : L < 256)]
    rw [WriteUint32_eq _ _ hN]
    simp [WriteByte, spec_ciphertext_header]
  simp only [CiphertextToBytes, hlevel, htab, hw]
  rw [ciphertext_polys_to_bytes_layout L _ _ Ps 0 (by simp; omega)
    (by rw [spec_table_length]) hP]
  simp [spec_ciphertext_bytes]

theorem round_to_nearest_error (c d : Nat) (hd1 : 1 ≤ d) :
    ((c + 2 ^ (d - 1)) / 2 ^ d) <<< d ≤ c + 2 ^ (d - 1) ∧
      c ≤ (((c + 2 ^ (d - 1)) / 2 ^ d) <<< d) + 2 ^ (d - 1) := by
  obtain ⟨k, rfl⟩ : ∃ k, d = k + 1 := ⟨d - 1, by omega⟩
  simp only [Nat.add_sub_cancel, Nat.shiftLeft_eq]
  have hD : 2 ^ (k + 1) = 2 * 2 ^ k := by rw [Nat.pow_succ]; ring
  have hpos : 0 < 2 ^ (k + 1) := by positivity
  have h1 := Nat.div_mul_le_self (c + 2 ^ k) (2 ^ (k + 1))
  have h2 := Nat.lt_div_mul_add (a := c + 2 ^ k) hpos
  refine ⟨h1, ?_⟩
  omega

/-- The level-0 compression path read back: the values packed are the quantized coefficients
and each is shifted back by the drop-bits value. -/
theorem lossy_poly_roundtrip (limb : List Nat) (ntt mform : Bool) (q : List Nat) (b d : Nat)
    (P0 : Poly) (hq : q[0]? = some b) (hb : b ≤ 64) (hd1 : 1 ≤ d) (hdb : d < b)
    (hc : ∀ c ∈ limb, quantize d c < 2 ^ (b - d)) :
    ∃ out r, poly_to_bytes ⟨[limb], ntt, mform⟩ q d [] = some (⟨[limb], ntt, mform⟩, out) ∧
      bytes_to_poly (NewReader out) limb.length 0 q P0
        = some (r, ⟨[limb.map (fun c => quantize d c <<< d)], ntt, mform⟩) := by
  have hdne : d ≠ 0 := by omega
  have hbl : (256 + b % 256 - d % 256) % 256 = b - d := by omega
  have henc : poly_to_bytes ⟨[limb], ntt, mform⟩ q d []
      = some (⟨[limb], ntt, mform⟩,
          component_to_bytes (limb.map (quantize d)) (b - d)
            [if ntt then 1 else 0, if mform then 1 else 0, d]) := by
    simp [poly_to_bytes, Poly.N, Poly.Level, poly_to_bytes_loop, hq, hdne, component_shift,
      WriteBool, WriteByte, hbl]
  have hvals : ∀ x ∈ limb.map (quantize d), x < 2 ^ (b - d) := by
    intro x hx
    obtain ⟨c, hcm, rfl⟩ := List.mem_map.mp hx
    exact hc c hcm
  have hs := bytes_to_component_stream (b - d) (by omega) (limb.map (quantize d)) hvals
    [if ntt then 1 else 0, if mform then 1 else 0, d] []
  simp only [List.append_nil, List.length_map, List.length_cons, List.length_nil] at hs
  have hval2 : (bytes_to_component
      ⟨component_to_bytes (limb.map (quantize d)) (b - d)
        [if ntt then 1 else 0, if mform then 1 else 0, d], 3⟩ (b - d) limb.length).2
      = limb.map (quantize d) := by
    rw [show (3 : Nat) = 0 + 1 + 1 + 1 by rfl, hs]
  have happ := component_to_bytes_append (limb.map (quantize d)) (b - d)
    [if ntt then 1 else 0, if mform then 1 else 0, d]
  have hshift : ∀ c ∈ limb, (quantize d c <<< d) % 2 ^ 64 = quantize d c <<< d := by
    intro c hcm
    apply Nat.mod_eq_of_lt
    rw [Nat.shiftLeft_eq]
    calc quantize d c * 2 ^ d < 2 ^ (b - d) * 2 ^ d :=
          Nat.mul_lt_mul_of_pos_right (hc c hcm) (by positivity)
      _ = 2 ^ b := by rw [← Nat.pow_add]; congr 1; omega
      _ ≤ 2 ^ 64 := Nat.pow_le_pow_right (by norm_num) hb
  refine ⟨_, (bytes_to_component
      ⟨component_to_bytes (limb.map (quantize d)) (b - d)
        [if ntt then 1 else 0, if mform then 1 else 0, d], 3⟩ (b - d) limb.length).1, henc, ?_⟩
  rw [happ] at hval2 ⊢
  simp only [bytes_to_poly, NewReader, ReadBool, ReadByte, List.cons_append, List.nil_append,
    List.length_cons, Nat.zero_add, bytes_to_poly_loop, hq, hdne, hbl]
  simp only [List.cons_append, List.nil_append] at hval2
  simp [flag_byte_ne_zero, hval2, hdne, hbl]
  intro c hcm
  have := hshift c hcm
  rw [Nat.mod_eq_iff_lt (by norm_num)] at this
  norm_num at this
  exact this

theorem le_value_append (a b : List Nat) :
    le_value (a ++ b) = le_value a + 2 ^ (8 * a.length) * le_value b := by
  induction a with
  | nil => simp [le_value]
  | cons x a ih =>
    rw [List.cons_append]
    simp only [le_value, List.length_cons]
    rw [ih, show 8 * (a.length + 1) = 8 + 8 * a.length by ring, Nat.pow_add]
    ring

theorem le_value_bytesLE (n y : Nat) : le_value (bytesLE n y) = y % 2 ^ (8 * n) := by
  induction n generalizing y with
  | zero => simp [bytesLE, le_value, Nat.mod_one]
  | succ n ih =>
    simp only [bytesLE, le_value, ih, Nat.shiftRight_eq_div_pow]
    rw [show 8 * (n + 1) = 8 + 8 * n by ring, Nat.pow_add, Nat.mod_mul]

/-- One value in the writer: the bytes it completes and the carry byte it leaves denote the old
carry with the value placed above its `off` bits. -/
theorem le_value_value_bytes (bl x b off : Nat) (h8 : 8 ≤ bl) (hbl : bl ≤ 64) (hoff : off ≤ 7)
    (hb : b < 2 ^ off) (hx : x < 2 ^ bl) :
    le_value (value_bytes bl x b off)
        + 2 ^ (8 * (value_bytes bl x b off).length) * value_carry bl x off
      = b + 2 ^ off * x ∧
    8 * (value_bytes bl x b off).length + n_high_bit bl off = off + bl := by
  have hnh := n_high_bit_normal bl off hoff hbl (by omega)
  have hnf := n_full_byte_normal bl off hoff hbl (by omega)
  have hnl := n_low_bit_eq off hoff
  have hlen : (value_bytes bl x b off).length = 1 + n_full_byte bl off := by
    simp [value_bytes, bytesLE_length]; omega
  refine ⟨?_, by rw [hlen, hnf, hnh]; omega⟩
  have hcl := value_carry_lt bl x off hbl hoff hx
  have hcarry : value_carry bl x off = x / 2 ^ n_low_bit off / 2 ^ (8 * n_full_byte bl off) := by
    unfold value_carry
    simp only [Nat.shiftRight_eq_div_pow]
    apply Nat.mod_eq_of_lt
    have : x / 2 ^ n_low_bit off / 2 ^ (8 * n_full_byte bl off) < 2 ^ n_high_bit bl off := by
      rw [Nat.div_div_eq_div_mul, ← Nat.pow_add]
      apply Nat.div_lt_of_lt_mul
      rw [← Nat.pow_add]
      refine lt_of_lt_of_le hx (Nat.pow_le_pow_right (by norm_num) ?_)
      rw [hnl, hnf, hnh]; omega
    exact lt_of_lt_of_le this (by
      have : (256 : Nat) = 2 ^ 8 := by norm_num
      rw [this]; exact Nat.pow_le_pow_right (by norm_num) (by have := n_high_bit_le bl off; omega))
  rw [hlen, hcarry]
  simp only [value_bytes, le_value, le_value_bytesLE, Nat.shiftRight_eq_div_pow]
  rw [first_byte_eq x b off hoff hb, hnl]
  have h256 : (256 : Nat) = 2 ^ off * 2 ^ (8 - off) := by
    rw [← Nat.pow_add, show off + (8 - off) = 8 by omega]
  generalize n_full_byte bl off = nf
  have hpow : 2 ^ (8 * (1 + nf)) = 256 * 2 ^ (8 * nf) := by
    rw [show 8 * (1 + nf) = 8 + 8 * nf by ring, Nat.pow_add]
  generalize hy : x / 2 ^ (8 - off) = y
  have hxy : x = x % 2 ^ (8 - off) + 2 ^ (8 - off) * y := by
    rw [← hy]; exact (Nat.mod_add_div x _).symm
  have hyy : y = y % 2 ^ (8 * nf) + 2 ^ (8 * nf) * (y / 2 ^ (8 * nf)) :=
    (Nat.mod_add_div y _).symm
  rw [hpow]
  calc b + x % 2 ^ (8 - off) * 2 ^ off + 256 * (y % 2 ^ (8 * nf))
        + 256 * 2 ^ (8 * nf) * (y / 2 ^ (8 * nf))
      = b + x % 2 ^ (8 - off) * 2 ^ off
          + 256 * (y % 2 ^ (8 * nf) + 2 ^ (8 * nf) * (y / 2 ^ (8 * nf))) := by ring
    _ = b + x % 2 ^ (8 - off) * 2 ^ off + 256 * y := by rw [← hyy]
    _ = b + 2 ^ off * (x % 2 ^ (8 - off) + 2 ^ (8 - off) * y) := by rw [h256]; ring
    _ = b + 2 ^ off * x := by rw [← hxy]

/-- Invariant of the writer loop, for bit lengths of at least 8: the bytes written together with
the carry byte denote the initial carry with the packed values placed above it, and the number
of bits accounted for is the initial offset plus `bl` per value. -/
theorem loop_le_value (bl : Nat) (h8 : 8 ≤ bl) (hbl : bl ≤ 64) (src : List Nat) (b off : Nat)
    (hoff : off ≤ 7) (hb : b < 2 ^ off) (hsrc : ∀ x ∈ src, x < 2 ^ bl) :
    le_value (component_to_bytes_loop bl src b off []).2.2
        + 2 ^ (8 * (component_to_bytes_loop bl src b off []).2.2.length)
          * (component_to_bytes_loop bl src b off []).1
      = b + 2 ^ off * pack_value bl src ∧
    8 * (component_to_bytes_loop bl src b off []).2.2.length
        + (component_to_bytes_loop bl src b off []).2.1
      = off + src.length * bl := by
  induction src generalizing b off with
  | nil => simp [component_to_bytes_loop, le_value, pack_value]
  | cons x rest ih =>
    have hx := hsrc x (List.mem_cons_self _ _)
    obtain ⟨v1, v2⟩ := le_value_value_bytes bl x b off h8 hbl hoff hb hx
    obtain ⟨i1, i2⟩ := ih (value_carry bl x off) (n_high_bit bl off) (n_high_bit_le bl off)
      (value_carry_lt bl x off hbl hoff hx) (fun y hy => hsrc y (List.mem_cons_of_mem _ hy))
    rw [component_to_bytes_loop_cons_nil]
    simp only [le_value_append, List.length_append, pack_value, List.length_cons]
    generalize (component_to_bytes_loop bl rest (value_carry bl x off) (n_high_bit bl off) []).2.2
      = out at i1 i2 ⊢
    generalize (component_to_bytes_loop bl rest (value_carry bl x off) (n_high_bit bl off) []).1
      = cf at i1 ⊢
    generalize (component_to_bytes_loop bl rest (value_carry bl x off) (n_high_bit bl off) []).2.1
      = of at i2 ⊢
    generalize value_bytes bl x b off = vb at v1 v2 ⊢
    generalize value_carry bl x off = c at v1 i1
    generalize n_high_bit bl off = nh at v2 i1 i2
    refine ⟨?_, by rw [Nat.add_mul]; omega⟩
    have hp : 2 ^ (8 * vb.length) * 2 ^ nh = 2 ^ off * 2 ^ bl := by
      rw [← Nat.pow_add, ← Nat.pow_add, v2]
    calc le_value vb + 2 ^ (8 * vb.length) * le_value out
          + 2 ^ (8 * (vb.length + out.length)) * cf
        = le_value vb + 2 ^ (8 * vb.length)
            * (le_value out + 2 ^ (8 * out.length) * cf) := by
          rw [Nat.mul_add 8, Nat.pow_add]; ring
      _ = le_value vb + 2 ^ (8 * vb.length) * (c + 2 ^ nh * pack_value bl rest) := by rw [i1]
      _ = (le_value vb + 2 ^ (8 * vb.length) * c)
            + 2 ^ (8 * vb.length) * 2 ^ nh * pack_value bl rest := by ring
      _ = (b + 2 ^ off * x) + 2 ^ off * 2 ^ bl * pack_value bl rest := by rw [v1, hp]
      _ = b + 2 ^ off * (x + 2 ^ bl * pack_value bl rest) := by ring

theorem testBit_add_two_pow_mul (a v n p : Nat) (ha : a < 2 ^ n) :
    (a + 2 ^ n * v).testBit p = if p < n then a.testBit p else v.testBit (p - n) := by
  rw [Nat.mul_comm, ← or_shiftLeft_of_lt v ha, Nat.testBit_or, Nat.testBit_shiftLeft]
  by_cases hp : p < n
  · simp [hp, Nat.not_le.mpr hp]
  · have hfalse : a.testBit p = false :=
      Nat.testBit_eq_false_of_lt (lt_of_lt_of_le ha (Nat.pow_le_pow_right (by norm_num) (by omega)))
    simp [hp, hfalse, Nat.not_lt.mp hp]

theorem bit_at_eq_testBit (bytes : List Nat) (hbytes : ∀ x ∈ bytes, x < 256) (p : Nat) :
    bit_at bytes p = (le_value bytes).testBit p := by
  induction bytes generalizing p with
  | nil => simp [bit_at, le_value]
  | cons b bs ih =>
    have hb : b < 2 ^ 8 := hbytes b (List.mem_cons_self _ _)
    have hih := ih (fun x hx => hbytes x (List.mem_cons_of_mem _ hx)) (p - 8)
    simp only [le_value]
    rw [show (256 : Nat) = 2 ^ 8 by norm_num, testBit_add_two_pow_mul b _ 8 p hb]
    by_cases hp : p < 8
    · rw [if_pos hp]
      simp [bit_at, Nat.div_eq_of_lt hp, Nat.mod_eq_of_lt hp]
    · rw [if_neg hp, ← hih]
      obtain ⟨k, rfl⟩ : ∃ k, p = k + 8 := ⟨p - 8, by omega⟩
      simp [bit_at, Nat.add_div_right, Nat.add_mod_right]

theorem pack_value_lt (bl : Nat) (src : List Nat) (hsrc : ∀ x ∈ src, x < 2 ^ bl) :
    pack_value bl src < 2 ^ (src.length * bl) := by
  induction src with
  | nil => simp [pack_value]
  | cons x rest ih =>
    have hx := hsrc x (List.mem_cons_self _ _)
    have hr := ih (fun y hy => hsrc y (List.mem_cons_of_mem _ hy))
    simp only [pack_value, List.length_cons]
    rw [show (rest.length + 1) * bl = bl + rest.length * bl by ring, Nat.pow_add]
    calc x + 2 ^ bl * pack_value bl rest < 2 ^ bl + 2 ^ bl * pack_value bl rest := by omega
      _ = 2 ^ bl * (pack_value bl rest + 1) := by ring
      _ ≤ 2 ^ bl * 2 ^ (rest.length * bl) := Nat.mul_le_mul_left _ hr

theorem pack_value_testBit (bl : Nat) (src : List Nat) (hsrc : ∀ x ∈ src, x < 2 ^ bl)
    (i k : Nat) (hk : k < bl) :
    (pack_value bl src).testBit (i * bl + k) = (src.getD i 0).testBit k := by
  induction src generalizing i with
  | nil => simp [pack_value]
  | cons x rest ih =>
    have hx := hsrc x (List.mem_cons_self _ _)
    simp only [pack_value]
    rw [testBit_add_two_pow_mul x _ bl _ hx]
    cases i with
    | zero => simp [hk]
    | succ i =>
      have hge : ¬ ((i + 1) * bl + k < bl) := by
        rw [Nat.add_mul]; omega
      rw [if_neg hge, show (i + 1) * bl + k - bl = i * bl + k by rw [Nat.add_mul]; omega,
        ih (fun y hy => hsrc y (List.mem_cons_of_mem _ hy))]
      simp

theorem value_bytes_lt (bl x b off : Nat) (hb : b < 256) :
    ∀ y ∈ value_bytes bl x b off, y < 256 := by
  have hbytes : ∀ n v, ∀ y ∈ bytesLE n v, y < 256 := by
    intro n
    induction n with
    | zero => intro v y hy; simp [bytesLE] at hy
    | succ n ih =>
      intro v y hy
      simp only [bytesLE, List.mem_cons] at hy
      rcases hy with h | h
      · rw [h]; exact Nat.mod_lt _ (by norm_num)
      · exact ih _ y h
  intro y hy
  simp only [value_bytes, List.mem_cons] at hy
  rcases hy with h | h
  · rw [h]
    exact Nat.or_lt_two_pow (n := 8) hb (Nat.mod_lt _ (by norm_num))
  · exact hbytes _ _ y h

theorem loop_bytes_lt (bl : Nat) (src : List Nat) (b off : Nat) (hb : b < 256) :
    (∀ y ∈ (component_to_bytes_loop bl src b off []).2.2, y < 256) ∧
      (component_to_bytes_loop bl src b off []).1 < 256 := by
  induction src generalizing b off with
  | nil => exact ⟨by simp [component_to_bytes_loop], hb⟩
  | cons x rest ih =>
    have hc : value_carry bl x off < 256 := Nat.mod_lt _ (by norm_num)
    obtain ⟨i1, i2⟩ := ih (value_carry bl x off) (n_high_bit bl off) hc
    rw [component_to_bytes_loop_cons_nil]
    refine ⟨fun y hy => ?_, i2⟩
    rcases List.mem_append.mp hy with h | h
    · exact value_bytes_lt bl x b off hb y h
    · exact i1 y h

/-- For bit lengths of at least 8 the bytes of `component_to_bytes` denote the packed values,
their number is `ceil(N * bl / 8)`, and each of them is a byte. -/
theorem component_to_bytes_le_value (bl : Nat) (h8 : 8 ≤ bl) (hbl : bl ≤ 64) (src : List Nat)
    (hsrc : ∀ x ∈ src, x < 2 ^ bl) :
    le_value (component_to_bytes src bl []) = pack_value bl src ∧
      (component_to_bytes src bl []).length = (src.length * bl + 7) / 8 ∧
      ∀ y ∈ component_to_bytes src bl [], y < 256 := by
  obtain ⟨l1, l2⟩ := loop_le_value bl h8 hbl src 0 0 (by norm_num) (by norm_num) hsrc
  obtain ⟨c1, c2⟩ := loop_carry_lt bl hbl src 0 0 (by norm_num) (by norm_num) hsrc
  obtain ⟨b1, b2⟩ := loop_bytes_lt bl src 0 0 (by norm_num)
  rw [component_to_bytes_eq_loop]
  generalize (component_to_bytes_loop bl src 0 0 []).2.2 = out at l1 l2 b1 ⊢
  generalize (component_to_bytes_loop bl src 0 0 []).1 = cf at l1 c1 b2 ⊢
  generalize (component_to_bytes_loop bl src 0 0 []).2.1 = of at l2 c1 c2 ⊢
  simp only [Nat.zero_add, pow_zero, one_mul] at l1 l2
  by_cases ho : of > 0
  · rw [if_pos ho]
    refine ⟨?_, ?_, ?_⟩
    · rw [le_value_append]
      simpa [le_value] using l1
    · simp only [List.length_append, List.length_singleton]; omega
    · intro y hy
      rcases List.mem_append.mp hy with h | h
      · exact b1 y h
      · rw [List.mem_singleton.mp h]; exact b2
  · have h0 : of = 0 := by omega
    subst h0
    have hc0 : cf = 0 := by simpa using c1
    subst hc0
    rw [if_neg ho, List.append_nil]
    refine ⟨by simpa using l1, by omega, b1⟩

/-! ### The store-level polynomial encoder, decoding of arbitrary values -/

theorem getElem?_append_of_some {α : Type} (h f : List α) (a : Nat) (c : α)
    (hc : h[a]? = some c) : (h ++ f)[a]? = some c := by
  have hlt : a < h.length := by
    rcases Nat.lt_or_ge a h.length with h1 | h1
    · exact h1
    · rw [List.getElem?_eq_none h1] at hc; cases hc
  rw [List.getElem?_append_left hlt, hc]

theorem Slice.values_append (h f : Store) (s : Slice) (vs : List Nat)
    (hv : Slice.values h s = some vs) : Slice.values (h ++ f) s = some vs := by
  unfold Slice.values at hv ⊢
  cases hc : h[s.addr]? with
  | none => rw [hc] at hv; cases hv
  | some c =>
    rw [hc] at hv
    rw [getElem?_append_of_some h f s.addr c hc]
    exact hv

theorem Slice.values_all_append (h f : Store) (ss : List Slice) (limbs : List (List Nat))
    (hv : Slice.values_all h ss = some limbs) : Slice.values_all (h ++ f) ss = some limbs := by
  induction ss generalizing limbs with
  | nil => exact hv
  | cons s ss ih =>
    simp only [Slice.values_all] at hv ⊢
    cases h1 : Slice.values h s with
    | none => rw [h1] at hv; cases hv
    | some v =>
      rw [h1] at hv
      cases h2 : Slice.values_all h ss with
      | none => rw [h2] at hv; cases hv
      | some vs =>
        rw [h2] at hv
        rw [Slice.values_append h f s v h1, ih vs h2]
        exact hv

theorem Slice.values_length (h : Store) (s : Slice) (vs : List Nat)
    (hv : Slice.values h s = some vs) : vs.length = s.len := by
  unfold Slice.values at hv
  split at hv
  · split at hv
    · simp only [Option.some.injEq] at hv
      rw [← hv, List.length_take, List.length_drop]
      omega
    · cases hv
  · cases hv

theorem Slice.load_of_values (h : Store) (s : Slice) (vs : List Nat) (k : Nat)
    (hv : Slice.values h s = some vs) : Slice.load h s k = vs[k]? := by
  have hlen := Slice.values_length h s vs hv
  unfold Slice.values at hv
  unfold Slice.load
  split at hv
  · rename_i xs hx
    split at hv
    · simp only [Option.some.injEq] at hv
      by_cases hk : k < s.len
      · rw [if_pos hk, ← hv, List.getElem?_take_of_lt hk, List.getElem?_drop]
      · rw [if_neg hk, List.getElem?_eq_none (by omega)]
    · cases hv
  · cases hv

theorem Slice.store_fresh (h : Store) (zs : List Nat) (N k v : Nat) (hz : zs.length = N)
    (hk : k < N) :
    Slice.store (h ++ [Cell.array zs]) ⟨h.length, 0, N⟩ k v
      = some (h ++ [Cell.array (zs.set k v)]) := by
  unfold Slice.store
  simp only [hk, if_true, List.getElem?_append_right (le_refl _), Nat.sub_self,
    List.getElem?_cons_zero, Nat.zero_add, hz]
  congr 1
  rw [List.set_append_right _ _ (le_refl _)]
  simp

theorem Slice.values_fresh (h : Store) (zs : List Nat) (N : Nat) (hz : zs.length = N) :
    Slice.values (h ++ [Cell.array zs]) ⟨h.length, 0, N⟩ = some zs := by
  unfold Slice.values
  simp only [List.getElem?_append_right (le_refl _), Nat.sub_self, List.getElem?_cons_zero,
    Nat.zero_add, hz, le_refl, if_true, List.drop_zero]
  rw [← hz, List.take_length]

theorem set_take_succ (zs : List Nat) (k v : Nat) (hk : k < zs.length) :
    (zs.set k v).take (k + 1) = zs.take k ++ [v] := by
  rw [List.set_eq_take_append_cons_drop, if_pos hk, List.take_append_eq_append_take]
  simp [List.take_take, List.length_take, Nat.min_eq_left (Nat.le_of_lt hk)]

/-- The quantization loop writes into the fresh array only: run on a store whose last cell is
that array, it leaves the cells before it alone and fills positions `k .. k+n-1` with the
quantized values of the component; it fails exactly when the component is too short. -/
theorem component_shift_loop_fresh (d : Nat) (h : Store) (component : Slice) (vs : List Nat)
    (N : Nat) (hv : Slice.values h component = some vs) (n k : Nat) (zs : List Nat)
    (hz : zs.length = N) (hkn : k + n ≤ N) (hkv : k ≤ vs.length) :
    component_shift_loop d component ⟨h.length, 0, N⟩ n k (h ++ [Cell.array zs])
      = if k + n ≤ vs.length then
          some (h ++ [Cell.array (zs.take k ++ ((vs.drop k).take n).map (quantize d)
            ++ zs.drop (k + n))])
        else none := by
  induction n generalizing k zs with
  | zero =>
    simp only [component_shift_loop, Nat.add_zero, List.take_zero, List.map_nil, List.append_nil,
      List.take_append_drop, if_pos hkv]
  | succ n ih =>
    simp only [component_shift_loop]
    rw [Slice.load_of_values (h ++ [Cell.array zs]) component vs k
      (Slice.values_append h _ component vs hv)]
    by_cases hk : k < vs.length
    · rw [List.getElem?_eq_getElem hk]
      simp only
      rw [Slice.store_fresh h zs N k _ hz (by omega)]
      simp only
      rw [ih (k + 1) (zs.set k (quantize d vs[k])) (by simp [hz]) (by omega) (by omega)]
      by_cases hkn2 : k + (n + 1) ≤ vs.length
      · rw [if_pos (by omega), if_pos hkn2]
        congr 3
        have hkz : k < zs.length := by omega
        rw [set_take_succ zs k _ hkz, List.drop_set_of_lt _ _ (by omega),
          List.drop_eq_getElem_cons hk, List.take_succ_cons, List.map_cons,
          show k + 1 + n = k + (n + 1) by omega]
        simp
      · rw [if_neg (by omega), if_neg hkn2]
    · rw [List.getElem?_eq_none (by omega)]
      simp only
      rw [if_neg (by omega)]

theorem Slice.values_all_length (h : Store) (ss : List Slice) (limbs : List (List Nat))
    (hv : Slice.values_all h ss = some limbs) : limbs.length = ss.length := by
  induction ss generalizing limbs with
  | nil =>
    simp only [Slice.values_all, Option.some.injEq] at hv
    subst hv
    rfl
  | cons s ss ih =>
    simp only [Slice.values_all] at hv
    cases h1 : Slice.values h s with
    | none => rw [h1] at hv; cases hv
    | some v =>
      rw [h1] at hv
      cases h2 : Slice.values_all h ss with
      | none => rw [h2] at hv; cases hv
      | some vs =>
        rw [h2] at hv
        simp only [Option.some.injEq] at hv
        rw [← hv, List.length_cons, List.length_cons, ih vs h2]

/-- The limb loop on a store does what the limb loop on the values of the limbs does to the
writer, and the store it returns is the store it was given followed by newly allocated
cells. -/
theorem poly_to_bytes_store_loop_spec (N level : Nat) (q : List Nat) (d : Nat) (ss : List Slice)
    (limbs : List (List Nat)) (j : Nat) (h : Store) (w : Writer)
    (hv : Slice.values_all h ss = some limbs) :
    ∃ fresh, poly_to_bytes_store_loop N level q d ss j h w
      = (poly_to_bytes_loop N level q d limbs j w).map (fun w2 => (h ++ fresh, w2)) := by
  induction ss generalizing limbs j h w with
  | nil =>
    simp only [Slice.values_all, Option.some.injEq] at hv
    subst hv
    exact ⟨[], by simp [poly_to_bytes_store_loop, poly_to_bytes_loop]⟩
  | cons s ss ih =>
    simp only [Slice.values_all] at hv
    cases h1 : Slice.values h s with
    | none => rw [h1] at hv; cases hv
    | some v =>
      rw [h1] at hv
      cases h2 : Slice.values_all h ss with
      | none => rw [h2] at hv; cases hv
      | some vs =>
        rw [h2] at hv
        simp only [Option.some.injEq] at hv
        subst hv
        simp only [poly_to_bytes_store_loop, poly_to_bytes_loop]
        cases hq : q[j]? with
        | none => exact ⟨[], rfl⟩
        | some bit_length =>
          simp only
          by_cases hc : level = 0 ∧ d ≠ 0
          · rw [if_pos hc, if_pos hc]
            simp only [make_uint64, component_shift]
            rw [component_shift_loop_fresh d h s v N h1 N 0 (List.replicate N 0) (by simp)
              (by omega) (by omega)]
            simp only [Nat.zero_add, List.take_zero, List.nil_append, List.drop_zero]
            by_cases hN : N ≤ v.length
            · rw [if_pos hN, if_pos hN]
              have hdrop : List.drop N (List.replicate N 0) = ([] : List Nat) := by simp
              rw [hdrop, List.append_nil]
              simp only
              rw [Slice.values_fresh h _ N (by simp [List.length_take, Nat.min_eq_left hN])]
              simp only
              obtain ⟨fresh, hf⟩ := ih vs (j + 1)
                (h ++ [Cell.array ((v.take N).map (quantize d))])
                (component_to_bytes ((v.take N).map (quantize d))
                  ((256 + bit_length % 256 - d % 256) % 256) w)
                (Slice.values_all_append h _ ss vs h2)
              refine ⟨Cell.array ((v.take N).map (quantize d)) :: fresh, ?_⟩
              rw [hf]
              simp
            · rw [if_neg hN, if_neg hN]
              exact ⟨[], rfl⟩
          · rw [if_neg hc, if_neg hc, h1]
            simp only
            exact ih vs (j + 1) h _ h2

theorem read_poly_append (h f : Store) (poly : Nat) (P : Poly) (hP : read_poly h poly = some P) :
    read_poly (h ++ f) poly = some P := by
  unfold read_poly at hP ⊢
  cases hc : h[poly]? with
  | none => rw [hc] at hP; cases hP
  | some c =>
    rw [hc] at hP
    rw [getElem?_append_of_some h f poly c hc]
    cases c with
    | array xs => cases hP
    | poly cs ntt mf =>
      simp only at hP ⊢
      cases hv : Slice.values_all h cs with
      | none => rw [hv] at hP; cases hP
      | some limbs =>
        rw [hv] at hP
        rw [Slice.values_all_append h f cs limbs hv]
        exact hP

/-- On a store that holds the polynomial `P` at address `poly`, `poly_to_bytes_store` fails
exactly when `poly_to_bytes P` fails, writes the bytes `poly_to_bytes P` writes, and returns the
store it was given followed by newly allocated cells. -/
theorem poly_to_bytes_store_spec (h : Store) (poly : Nat) (P : Poly) (q : List Nat) (d : Nat)
    (w : Writer) (hP : read_poly h poly = some P) :
    ∃ fresh, poly_to_bytes_store h poly q d w
      = (poly_to_bytes P q d w).map (fun res => (h ++ fresh, res.2)) := by
  unfold read_poly at hP
  cases hc : h[poly]? with
  | none => rw [hc] at hP; cases hP
  | some c =>
    rw [hc] at hP
    cases c with
    | array xs => cases hP
    | poly cs ntt mf =>
      simp only at hP
      cases hv : Slice.values_all h cs with
      | none => rw [hv] at hP; cases hP
      | some limbs =>
        rw [hv] at hP
        simp only [Option.some.injEq] at hP
        subst hP
        have hlen := Slice.values_all_length h cs limbs hv
        cases cs with
        | nil =>
          have : limbs = [] := List.length_eq_zero.mp (by simpa using hlen)
          subst this
          exact ⟨[], by simp [poly_to_bytes_store, hc, poly_to_bytes, Poly.N]⟩
        | cons c0 cs2 =>
          cases limbs with
          | nil => simp at hlen
          | cons l0 ls =>
            have hl0 : l0.length = c0.len := by
              simp only [Slice.values_all] at hv
              cases h1 : Slice.values h c0 with
              | none => rw [h1] at hv; cases hv
              | some v =>
                rw [h1] at hv
                cases h2 : Slice.values_all h cs2 with
                | none => rw [h2] at hv; cases hv
                | some vs =>
                  rw [h2] at hv
                  simp only [Option.some.injEq, List.cons.injEq] at hv
                  rw [← hv.1]
                  exact Slice.values_length h c0 v h1
            obtain ⟨fresh, hf⟩ := poly_to_bytes_store_loop_spec c0.len ((c0 :: cs2).length - 1) q d
              (c0 :: cs2) (l0 :: ls) 0 h
              (WriteByte (WriteBool (WriteBool w ntt) mf) d) hv
            refine ⟨fresh, ?_⟩
            simp only [poly_to_bytes_store, hc, hf, poly_to_bytes, Poly.N, Poly.Level, hl0, hlen]
            cases poly_to_bytes_loop c0.len ((c0 :: cs2).length - 1) q d (l0 :: ls) 0
              (WriteByte (WriteBool (WriteBool w ntt) mf) d) <;> rfl

theorem loop_head_mask_mod (bl : Nat) (src : List Nat) (bw off : Nat) (T : List Nat)
    (hoff : off ≤ 7) (hbw : bw < 2 ^ off)
    (hT : (T.headD 0) &&& byte_mask (component_to_bytes_loop bl src bw off []).2.1
      = (component_to_bytes_loop bl src bw off []).1
          % 2 ^ (component_to_bytes_loop bl src bw off []).2.1) :
    (((component_to_bytes_loop bl src bw off []).2.2 ++ T).headD 0) &&& byte_mask off = bw := by
  cases src with
  | nil =>
    simp only [component_to_bytes_loop, List.nil_append] at hT ⊢
    rw [hT, Nat.mod_eq_of_lt hbw]
  | cons x rest =>
    rw [component_to_bytes_loop_cons_nil]
    simp only [value_bytes, List.cons_append, List.headD_cons]
    exact first_byte_and_mask x bw off hoff hbw

/-- The reader loop over the output of the writer loop for arbitrary values and an arbitrary
incoming carry byte: it returns as many values as were written, and every value that fits in
`bl` bits and was written on a carry byte confined to its `bit_offset` bits (the incoming one
for the first value, the one its predecessor left for the others, which is confined whenever
the predecessor fits) is read back intact. -/
theorem bytes_to_component_loop_clean (bl : Nat) (hbl : bl ≤ 64) (src : List Nat)
    (bw off b : Nat) (r : Reader) (T : List Nat) (hoff : off ≤ 7)
    (hv : View b r ((component_to_bytes_loop bl src bw off []).2.2 ++ T))
    (hT : (T.headD 0) &&& byte_mask (component_to_bytes_loop bl src bw off []).2.1
      = (component_to_bytes_loop bl src bw off []).1
          % 2 ^ (component_to_bytes_loop bl src bw off []).2.1) :
    (bytes_to_component_loop bl src.length b off r).1.length = src.length ∧
    ∀ j x, src[j]? = some x → x < 2 ^ bl → (j = 0 → bw < 2 ^ off) →
      (∀ p, 0 < j → src[j - 1]? = some p → p < 2 ^ bl) →
      (bytes_to_component_loop bl src.length b off r).1[j]? = some x := by
  induction src generalizing bw off b r with
  | nil =>
    refine ⟨rfl, ?_⟩
    intro j x hj
    simp at hj
  | cons x0 rest ih =>
    rw [component_to_bytes_loop_cons_nil] at hv hT
    simp only at hv hT
    have hnh := n_high_bit_le bl off
    set T1 := (component_to_bytes_loop bl rest (value_carry bl x0 off) (n_high_bit bl off) []).2.2
      ++ T with hT1
    have hb : b = bw ||| ((((x0 % 256) &&& byte_mask (n_low_bit off)) <<< off) % 256) := by
      have := hv.1
      simpa [value_bytes] using this
    have hv1 := View_next hv
    simp only [value_bytes, List.cons_append, List.tail_cons, List.append_assoc] at hv1
    have hnl : n_low_bit off < 256 := by rw [n_low_bit_eq off hoff]; omega
    have hlen := bytesLE_length (n_full_byte bl off) (x0 >>> n_low_bit off)
    obtain ⟨h1, h2, h3, h4⟩ := read_full_bytes_spec
      (bytesLE (n_full_byte bl off) (x0 >>> n_low_bit off)) T1 (b >>> off) (ReadByte r).1
      (n_low_bit off) (ReadByte r).2 hnl hv1
    rw [hlen] at h1 h2 h3 h4
    obtain ⟨i1, i2⟩ := ih (value_carry bl x0 off) (n_high_bit bl off) _ _ hnh h4 hT
    simp only [List.length_cons, bytes_to_component_loop]
    refine ⟨by rw [i1], ?_⟩
    intro j x hj hx hfirst hpred
    cases j with
    | zero =>
      simp only [List.getElem?_cons_zero, Option.some.injEq] at hj ⊢
      subst hj
      have hbw := hfirst rfl
      have hcl := value_carry_lt bl x0 off hbl hoff hx
      have hmask : (T1.headD 0) &&& byte_mask (n_high_bit bl off) = value_carry bl x0 off :=
        loop_head_mask_mod bl rest _ _ T hnh hcl hT
      rw [h1, h2, h4.1, hb]
      exact value_decode bl x0 bw off _ hbl hoff hbw hx hmask
    | succ j =>
      simp only [List.getElem?_cons_succ] at hj ⊢
      apply i2 j x hj hx
      · intro hj0
        subst hj0
        have hp := hpred x0 (by omega) (by simp)
        exact value_carry_lt bl x0 off hbl hoff hp
      · intro p hjpos hp
        apply hpred p (by omega)
        obtain ⟨k, rfl⟩ : ∃ k, j = k + 1 := ⟨j - 1, by omega⟩
        simpa using hp

/-- Decoding the output of `component_to_bytes` for arbitrary values: as many values come back
as were written, and every value that fits and whose predecessor, if any, fits is read back
intact. -/
theorem bytes_to_component_clean (bl : Nat) (hbl : bl ≤ 64) (src : List Nat) :
    (bytes_to_component (NewReader (component_to_bytes src bl [])) bl src.length).2.length
        = src.length ∧
    ∀ j x, src[j]? = some x → x < 2 ^ bl →
      (∀ p, 0 < j → src[j - 1]? = some p → p < 2 ^ bl) →
      (bytes_to_component (NewReader (component_to_bytes src bl [])) bl src.length).2[j]?
        = some x := by
  rw [component_to_bytes_eq_loop]
  have hv0 := View_start (NewReader ((component_to_bytes_loop bl src 0 0 []).2.2
    ++ (if (component_to_bytes_loop bl src 0 0 []).2.1 > 0
        then [(component_to_bytes_loop bl src 0 0 []).1] else []))) (by simp [NewReader])
  simp only [NewReader, List.drop_zero] at hv0
  have hfo := (n_high_bit_le bl 0)
  have hoffle : (component_to_bytes_loop bl src 0 0 []).2.1 ≤ 7 := by
    rw [loop_final_offset bl src 0 0 (by norm_num)]
    omega
  obtain ⟨g1, g2⟩ := bytes_to_component_loop_clean bl hbl src 0 0 _ _
    (if (component_to_bytes_loop bl src 0 0 []).2.1 > 0
        then [(component_to_bytes_loop bl src 0 0 []).1] else []) (by norm_num) hv0
    (by
      by_cases hpos : (component_to_bytes_loop bl src 0 0 []).2.1 > 0
      · rw [if_pos hpos, List.headD_cons, byte_mask_eq _ (by omega),
          Nat.and_pow_two_sub_one_eq_mod]
      · have h0 : (component_to_bytes_loop bl src 0 0 []).2.1 = 0 := by omega
        rw [if_neg hpos, h0]
        simp [Nat.mod_one])
  unfold bytes_to_component NewReader
  refine ⟨g1, fun j x hj hx hpred => g2 j x hj hx (fun _ => by norm_num) hpred⟩

/-! ## The claims -/

/-- C1. Bit-stream round trip: for every `bit_length` up to 64 (in particular every one in
1..64) and every array `src`, of any length, of values smaller than `2 ^ bit_length`,
`bytes_to_component` run with the same `bit_length` and a destination of length `src.length`
over the bytes `component_to_bytes src bit_length` wrote yields a destination equal to `src`. -/
theorem component_roundtrip (bit_length : Nat) (src : List Nat)
    (h64 : bit_length ≤ 64) (hsrc : ∀ x ∈ src, x < 2 ^ bit_length) :
    (bytes_to_component (NewReader (component_to_bytes src bit_length [])) bit_length
      src.length).2 = src := by
  have h := bytes_to_component_stream bit_length h64 src hsrc [] []
  simp only [List.append_nil, List.length_nil] at h
  unfold NewReader
  rw [h]

theorem component_roundtrip_witness :
    (5 ≤ 64 ∧ ∀ x ∈ [1, 2, 3, 4, 5, 6, 7, 8], x < 2 ^ 5) ∧
      (bytes_to_component (NewReader (component_to_bytes [1, 2, 3, 4, 5, 6, 7, 8] 5 [])) 5
        [1, 2, 3, 4, 5, 6, 7, 8].length).2 = [1, 2, 3, 4, 5, 6, 7, 8] :=
  ⟨by decide, component_roundtrip 5 [1, 2, 3, 4, 5, 6, 7, 8] (by decide) (by decide)⟩

set_option maxRecDepth 8192 in
/-- C2 (evaluation at the failing input). For `N = 8` values of `bit_length = 5` the writer
appends 101 bytes, not `ceil(8*5/8) = 5`: whenever a value does not reach the end of the carry
byte, `bit_length - n_low_bit` wraps around in `uint8` and `n_full_byte` becomes 31. For a
single value of one bit it appends 33 bytes, not 1. -/
theorem component_to_bytes_length_short_bit_length :
    (component_to_bytes [1, 2, 3, 4, 5, 6, 7, 8] 5 []).length = 101 ∧ (8 * 5 + 7) / 8 = 5 ∧
      n_full_byte 5 0 = 31 ∧ (component_to_bytes [1] 1 []).length = 33 := by
  decide

/-- C3 (evaluation at the failing input). With `bit_length = 5` and values `[0, 1]`, bit 0 of
value 1 is set but the bit at absolute position `1*5 + 0` of the output is clear: the first
byte is flushed holding value 0 only, 31 zero bytes follow, and value 1 starts in byte 32. -/
theorem component_to_bytes_layout_short_bit_length :
    Nat.testBit 1 0 = true ∧ bit_at (component_to_bytes [0, 1] 5 []) (1 * 5 + 0) = false ∧
      bit_at (component_to_bytes [0, 1] 5 []) (32 * 8 + 5) = true := by
  decide

/-- C4 (evaluation at the failing input). One value of `bit_length = 8` is written as the single
byte `[7]`; reading it back from a reader over exactly that byte returns the value but leaves
the cursor at 0, not at `ceil(1*8/8) = 1`: the look-ahead `ReadByte` fails at the end of the
slice without moving the cursor and `UnreadByte` then steps back over a byte that was used. -/
theorem bytes_to_component_cursor_at_end :
    component_to_bytes [7] 8 [] = [7] ∧
      bytes_to_component (NewReader [7]) 8 1 = (⟨[7], 0⟩, [7]) ∧ (1 * 8 + 7) / 8 = 1 := by
  decide

/-- C5. Polynomial round trip without compression: for every polynomial `P` with `L+1` limbs
of `N` coefficients and every table `q` with `q[j]` in 1..64 bounding the coefficients of limb
`j` by `2 ^ q[j]`, `poly_to_bytes P q 0` succeeds and leaves `P` as it was, and `bytes_to_poly`
over its output with `N`, `L`, `q` yields exactly `P`: same `IsNTT`, same `IsMForm`, same limbs
(whatever polynomial object `P0` it decodes into). -/
theorem poly_roundtrip (P : Poly) (q : List Nat) (N L : Nat) (P0 : Poly)
    (hlimbs : P.Coeffs.length = L + 1)
    (hq : ∀ j, j < L + 1 → 1 ≤ q.getD j 0 ∧ q.getD j 0 ≤ 64 ∧
      (P.Coeffs.getD j []).length = N ∧ ∀ x ∈ P.Coeffs.getD j [], x < 2 ^ q.getD j 0) :
    ∃ w, poly_to_bytes P q 0 [] = some (P, w) ∧
      ∃ r, bytes_to_poly (NewReader w) N L q P0 = some (r, P) := by
  have hne : P.Coeffs ≠ [] := by
    intro hh; rw [hh] at hlimbs; simp at hlimbs
  have hok : LimbsOK N q 0 P.Coeffs := by
    apply LimbsOK_of_index
    intro k c hk
    have hkl : k < P.Coeffs.length := by
      rcases Nat.lt_or_ge k P.Coeffs.length with h1 | h1
      · exact h1
      · rw [List.getElem?_eq_none h1] at hk; cases hk
    obtain ⟨a1, a2, a3, a4⟩ := hq k (by omega)
    have hc : P.Coeffs.getD k [] = c := by simp [List.getD_eq_getElem?_getD, hk]
    have hkq : k < q.length := by
      rcases Nat.lt_or_ge k q.length with h1 | h1
      · exact h1
      · rw [List.getD_eq_getElem?_getD, List.getElem?_eq_none h1] at a1
        simp at a1
    refine ⟨q.getD k 0, ?_, a2, hc ▸ a3, hc ▸ a4⟩
    rw [Nat.zero_add, List.getD_eq_getElem?_getD, List.getElem?_eq_getElem hkq]
    simp
  obtain ⟨out, e1, -, e3⟩ := poly_roundtrip_stream P q N [] hne hok
  obtain ⟨pos, g1, -⟩ := e3 [] P0
  have hlev : P.Level = L := by simp [Poly.Level, hlimbs]
  rw [hlev] at g1
  simp only [List.nil_append, List.append_nil, List.length_nil] at e1 g1
  exact ⟨out, e1, ⟨out, pos⟩, g1⟩

theorem poly_roundtrip_witness :
    (([[1, 2, 3], [100, 200, 511]] : List (List Nat)).length = 1 + 1 ∧
      ∀ j, j < 1 + 1 → 1 ≤ [5, 9].getD j 0 ∧ [5, 9].getD j 0 ≤ 64 ∧
        (([[1, 2, 3], [100, 200, 511]] : List (List Nat)).getD j []).length = 3 ∧
        ∀ x ∈ ([[1, 2, 3], [100, 200, 511]] : List (List Nat)).getD j [], x < 2 ^ [5, 9].getD j 0) ∧
      ∃ w, poly_to_bytes ⟨[[1, 2, 3], [100, 200, 511]], true, false⟩ [5, 9] 0 []
          = some (⟨[[1, 2, 3], [100, 200, 511]], true, false⟩, w) ∧
        ∃ r, bytes_to_poly (NewReader w) 3 1 [5, 9] Poly.new
          = some (r, ⟨[[1, 2, 3], [100, 200, 511]], true, false⟩) :=
  ⟨by decide, poly_roundtrip ⟨[[1, 2, 3], [100, 200, 511]], true, false⟩ [5, 9] 3 1 Poly.new
    (by decide) (by decide)⟩

/-- C6 (evaluation at the failing input). Level 0, one modulus of bit length 13, `drop_bits = 2`,
coefficients `[8190, 1, 2, 3, 4, 5, 6, 7]` (residues modulo 8191): the value packed for 8190 is
`2047 + 1 = 2048`, which does not fit the `13 - 2 = 11` bits it is packed with; the coefficient
decodes as 0, which differs from 8190 by more than `2 ^ 2`. -/
theorem lossy_roundtrip_rounding_overflow :
    quantize 2 8190 = 2048 ∧
      poly_to_bytes ⟨[[8190, 1, 2, 3, 4, 5, 6, 7]], false, false⟩ [13] 2 [] =
        some (⟨[[8190, 1, 2, 3, 4, 5, 6, 7]], false, false⟩,
          [0, 0, 2, 0, 8, 64, 0, 2, 16, 128, 0, 8, 64, 0]) ∧
      (bytes_to_poly (NewReader [0, 0, 2, 0, 8, 64, 0, 2, 16, 128, 0, 8, 64, 0]) 8 0 [13]
          Poly.new).map (fun res => res.2)
        = some ⟨[[0, 4, 4, 4, 4, 4, 8, 8]], false, false⟩ ∧
      2 ^ 2 < 8190 - 0 := by
  decide

/-- C7. Ciphertext round trip: for every ciphertext `ct` with one or two components at level
`L ≤ 254`, each component having `L+1` limbs of `param.N` coefficients with the coefficients of
limb `j` smaller than `Q[j]` (a `uint64` modulus; the ring degree fits the 32-bit header field),
`CiphertextToBytes ct param 0 0` succeeds and `BytesToCiphertext` over its output returns `ct`:
the same number of components, each with the same flags and limbs. `BytesToCiphertext` takes
the reader alone, no parameter object. -/
theorem ciphertext_roundtrip (ct : Ciphertext) (param : Parameters) (L : Nat)
    (hcount : ct.Value.length = 1 ∨ ct.Value.length = 2) (hL : L ≤ 254)
    (hN : param.N < 2 ^ 32) (hQlen : L + 1 ≤ param.Q.length) (hQ : ∀ q ∈ param.Q, q < 2 ^ 64)
    (hP : ∀ P ∈ ct.Value, PolyOK param L P) :
    ∃ w, CiphertextToBytes ct param 0 0 [] = some w ∧
      ∃ r, BytesToCiphertext (NewReader w) = some (ct, r) := by
  obtain ⟨out, e1, e2⟩ := ciphertext_roundtrip_stream ct param L [] (by omega) hL hN hQlen hQ hP
  obtain ⟨r, e3⟩ := e2 []
  exact ⟨out, by simpa using e1, r, by simpa [NewReader] using e3⟩

theorem ciphertext_roundtrip_witness :
    ((([⟨[[1, 2, 3, 4, 5, 6, 7, 8], [0, 65536, 3, 4, 5, 6, 7, 8]], true, false⟩,
        ⟨[[8, 7, 6, 5, 4, 3, 2, 256], [9, 9, 9, 9, 9, 9, 9, 9]], false, true⟩] : List Poly).length = 1 ∨
      ([⟨[[1, 2, 3, 4, 5, 6, 7, 8], [0, 65536, 3, 4, 5, 6, 7, 8]], true, false⟩,
        ⟨[[8, 7, 6, 5, 4, 3, 2, 256], [9, 9, 9, 9, 9, 9, 9, 9]], false, true⟩] : List Poly).length = 2) ∧
      1 ≤ 254 ∧ 8 < 2 ^ 32 ∧ 1 + 1 ≤ [257, 65537].length ∧ (∀ q ∈ [257, 65537], q < 2 ^ 64) ∧
      ∀ P ∈ ([⟨[[1, 2, 3, 4, 5, 6, 7, 8], [0, 65536, 3, 4, 5, 6, 7, 8]], true, false⟩,
        ⟨[[8, 7, 6, 5, 4, 3, 2, 256], [9, 9, 9, 9, 9, 9, 9, 9]], false, true⟩] : List Poly),
        PolyOK ⟨[257, 65537], [], 8⟩ 1 P) ∧
      ∃ w, CiphertextToBytes
          ⟨[⟨[[1, 2, 3, 4, 5, 6, 7, 8], [0, 65536, 3, 4, 5, 6, 7, 8]], true, false⟩,
            ⟨[[8, 7, 6, 5, 4, 3, 2, 256], [9, 9, 9, 9, 9, 9, 9, 9]], false, true⟩]⟩
          ⟨[257, 65537], [], 8⟩ 0 0 [] = some w ∧
        ∃ r, BytesToCiphertext (NewReader w) = some
          (⟨[⟨[[1, 2, 3, 4, 5, 6, 7, 8], [0, 65536, 3, 4, 5, 6, 7, 8]], true, false⟩,
            ⟨[[8, 7, 6, 5, 4, 3, 2, 256], [9, 9, 9, 9, 9, 9, 9, 9]], false, true⟩]⟩, r) :=
  ⟨by decide, ciphertext_roundtrip _ ⟨[257, 65537], [], 8⟩ 1 (by decide) (by decide) (by decide)
    (by decide) (by decide) (by decide)⟩

/-- C8. Encoding never mutates the polynomial: on every store `h` that holds a polynomial `P` at
the address `poly`, for every table `q`, every `drop_bits` value `d` (also `d > 0` at level 0,
where the quantized copy `component_shift` is allocated, filled and packed) and every writer
`w`, when `poly_to_bytes` returns, the store is the store before the call followed by newly
allocated cells: no existing cell has changed, and the polynomial held at `poly` is still `P`,
with the same coefficient arrays, the same `IsNTT` and the same `IsMForm`. The bytes written are
those `poly_to_bytes P q d w` yields on the values. -/
theorem poly_to_bytes_frame (h : Store) (poly : Nat) (P : Poly) (q : List Nat) (d : Nat)
    (w : Writer) (h2 : Store) (w2 : Writer) (hP : read_poly h poly = some P)
    (hrun : poly_to_bytes_store h poly q d w = some (h2, w2)) :
    (∃ fresh, h2 = h ++ fresh) ∧ read_poly h2 poly = some P ∧
      poly_to_bytes P q d w = some (P, w2) := by
  obtain ⟨fresh, hf⟩ := poly_to_bytes_store_spec h poly P q d w hP
  rw [hrun] at hf
  cases hres : poly_to_bytes P q d w with
  | none => rw [hres] at hf; cases hf
  | some res =>
    rw [hres] at hf
    simp only [Option.map_some', Option.some.injEq, Prod.mk.injEq] at hf
    obtain ⟨e1, e2⟩ := hf
    have hfst : res.1 = P := by
      unfold poly_to_bytes at hres
      split at hres
      · cases hres
      · simp only at hres
        split at hres
        · cases hres
        · simp only [Option.some.injEq] at hres
          rw [← hres]
    refine ⟨⟨fresh, e1⟩, ?_, ?_⟩
    · rw [e1]; exact read_poly_append h fresh poly P hP
    · rw [e2, ← hfst]

theorem poly_to_bytes_frame_witness :
    (read_poly example_store 1 = some ⟨[[8190, 1, 2, 3, 4, 5, 6, 7]], true, false⟩ ∧
      poly_to_bytes_store example_store 1 [13] 2 [9]
        = some (example_store ++ [Cell.array [2048, 0, 1, 1, 1, 1, 2, 2]],
            [9, 1, 0, 2, 0, 8, 64, 0, 2, 16, 128, 0, 8, 64, 0])) ∧
    ((∃ fresh, example_store ++ [Cell.array [2048, 0, 1, 1, 1, 1, 2, 2]]
        = example_store ++ fresh) ∧
      read_poly (example_store ++ [Cell.array [2048, 0, 1, 1, 1, 1, 2, 2]]) 1
        = some ⟨[[8190, 1, 2, 3, 4, 5, 6, 7]], true, false⟩ ∧
      poly_to_bytes ⟨[[8190, 1, 2, 3, 4, 5, 6, 7]], true, false⟩ [13] 2 [9]
        = some (⟨[[8190, 1, 2, 3, 4, 5, 6, 7]], true, false⟩,
            [9, 1, 0, 2, 0, 8, 64, 0, 2, 16, 128, 0, 8, 64, 0])) :=
  ⟨by decide, poly_to_bytes_frame example_store 1 ⟨[[8190, 1, 2, 3, 4, 5, 6, 7]], true, false⟩
    [13] 2 [9] _ _ (by decide) (by decide)⟩

/-- C9 (counterexample). The 19-byte encoding of a one-component ciphertext at level 0 with
modulus 257 and ring degree 8, cut after 12 bytes, is decoded without any failure: a ciphertext
comes back whose missing coefficients are zero. -/
theorem truncated_input_returns_ciphertext :
    CiphertextToBytes ⟨[⟨[[1, 2, 3, 4, 5, 6, 7, 8]], true, false⟩]⟩ ⟨[257], [], 8⟩ 0 0 []
        = some ([8, 0, 0, 0, 1, 0, 9, 1, 0, 0, 1, 4] ++ [12, 32, 80, 192, 192, 1, 4]) ∧
      BytesToCiphertext (NewReader [8, 0, 0, 0, 1, 0, 9, 1, 0, 0, 1, 4])
        = some (⟨[⟨[[1, 2, 0, 0, 0, 0, 0, 0]], true, false⟩]⟩,
            ⟨[8, 0, 0, 0, 1, 0, 9, 1, 0, 0, 1, 4], 11⟩) := by
  decide

/-- C9 (amended). For every prefix `pre`, in particular every strict prefix, of the output of
`CiphertextToBytes` for a ciphertext at level `L ≤ 254` (any drop-bit arguments),
`BytesToCiphertext` surfaces no decode failure: it returns a ciphertext. -/
theorem truncated_input_not_reported (ct : Ciphertext) (param : Parameters) (d0 d1 : Int)
    (enc pre : List Nat) (L : Nat)
    (henc : CiphertextToBytes ct param d0 d1 [] = some enc) (hlev : ct.Level = some L)
    (hL : L ≤ 254) (hpre : pre <+: enc) :
    ∃ ct2 r, BytesToCiphertext (NewReader pre) = some (ct2, r) := by
  obtain ⟨b0, b1, b2, b3, tail, htail⟩ := CiphertextToBytes_header ct param d0 d1 enc L henc hlev
  rw [htail] at hpre
  have hlb : level_byte (NewReader pre) ≤ 254 := by
    rcases level_byte_of_truncation b0 b1 b2 b3 _ _ tail pre hpre with h | h
    · rw [h, Nat.mod_eq_of_lt (by omega : L < 256)]; exact hL
    · rw [h]; omega
  obtain ⟨res, hres⟩ := BytesToCiphertext_some (NewReader pre) hlb
  exact ⟨res.1, res.2, hres⟩

theorem truncated_input_not_reported_witness :
    (CiphertextToBytes ⟨[⟨[[1, 2, 3, 4, 5, 6, 7, 8]], true, false⟩]⟩ ⟨[257], [], 8⟩ 0 0 []
        = some [8, 0, 0, 0, 1, 0, 9, 1, 0, 0, 1, 4, 12, 32, 80, 192, 192, 1, 4] ∧
      Ciphertext.Level ⟨[⟨[[1, 2, 3, 4, 5, 6, 7, 8]], true, false⟩]⟩ = some 0 ∧ 0 ≤ 254 ∧
      [8, 0, 0, 0, 1, 0, 9, 1, 0, 0, 1, 4]
        <+: [8, 0, 0, 0, 1, 0, 9, 1, 0, 0, 1, 4, 12, 32, 80, 192, 192, 1, 4]) ∧
      ∃ ct2 r, BytesToCiphertext (NewReader [8, 0, 0, 0, 1, 0, 9, 1, 0, 0, 1, 4]) = some (ct2, r) :=
  ⟨by decide, truncated_input_not_reported ⟨[⟨[[1, 2, 3, 4, 5, 6, 7, 8]], true, false⟩]⟩
    ⟨[257], [], 8⟩ 0 0 [8, 0, 0, 0, 1, 0, 9, 1, 0, 0, 1, 4, 12, 32, 80, 192, 192, 1, 4]
    [8, 0, 0, 0, 1, 0, 9, 1, 0, 0, 1, 4] 0 (by decide) (by decide) (by decide) (by decide)⟩

/-- C10 (evaluation at the failing input). On the six bytes `[0, 0, 0, 0, 1, 255]` (ring size 0,
one component, level byte 255) `BytesToCiphertext` panics: `level+1` wraps to 0 in `uint8`, the
bit-length table is empty, and `bytes_to_poly` indexes `q_bit_lengths[0]`. -/
theorem BytesToCiphertext_level_255_panics :
    (read_table ((255 + 1) % 256) ⟨[0, 0, 0, 0, 1, 255], 6⟩).1 = [] ∧
      BytesToCiphertext (NewReader [0, 0, 0, 0, 1, 255]) = none := by
  decide

/-- C11. Back-to-back fields decode correctly: for arrays `A` and `B` of in-range values with bit
lengths `a` and `b` up to 64 (in particular in 1..64) and any byte `h`, when a writer receives
`component_to_bytes(A, a)`, then `component_to_bytes(B, b)`, then the single byte `h`, a reader
over those bytes that performs `bytes_to_component(a, |A|)`, `bytes_to_component(b, |B|)` and one
`ReadByte` obtains `A`, `B` and `h`, whether or not `|A|*a` or `|B|*b` is a multiple of 8. -/
theorem back_to_back_fields (a b h : Nat) (A B : List Nat) (ha : a ≤ 64) (hb : b ≤ 64)
    (hA : ∀ x ∈ A, x < 2 ^ a) (hB : ∀ x ∈ B, x < 2 ^ b) :
    (bytes_to_component
        (NewReader (WriteByte (component_to_bytes B b (component_to_bytes A a [])) h))
        a A.length).2 = A ∧
    (bytes_to_component
        (bytes_to_component
          (NewReader (WriteByte (component_to_bytes B b (component_to_bytes A a [])) h))
          a A.length).1 b B.length).2 = B ∧
    (ReadByte (bytes_to_component
        (bytes_to_component
          (NewReader (WriteByte (component_to_bytes B b (component_to_bytes A a [])) h))
          a A.length).1 b B.length).1).1 = h := by
  have hw : WriteByte (component_to_bytes B b (component_to_bytes A a [])) h
      = component_to_bytes A a [] ++ (component_to_bytes B b [] ++ [h]) := by
    rw [component_to_bytes_append B b]
    simp [WriteByte]
  have h0 := At_NewReader (WriteByte (component_to_bytes B b (component_to_bytes A a [])) h)
  generalize NewReader (WriteByte (component_to_bytes B b (component_to_bytes A a [])) h) = r0
    at h0 ⊢
  rw [hw] at h0
  obtain ⟨e1, h1⟩ := bytes_to_component_At a ha A hA r0 _ (by simp) h0
  obtain ⟨e2, h2⟩ := bytes_to_component_At b hb B hB _ _ (by simp) h1
  obtain ⟨e3, -⟩ := ReadByte_At _ h [] h2
  rw [e1]
  simp only
  rw [e2]
  simp only
  rw [e3]
  exact ⟨trivial, trivial, rfl⟩

theorem back_to_back_fields_witness :
    (8 ≤ 64 ∧ 12 ≤ 64 ∧ (∀ x ∈ [1, 255], x < 2 ^ 8) ∧ ∀ x ∈ [4095, 7], x < 2 ^ 12) ∧
    ((bytes_to_component
        (NewReader (WriteByte (component_to_bytes [4095, 7] 12 (component_to_bytes [1, 255] 8 [])) 77))
        8 [1, 255].length).2 = [1, 255] ∧
    (bytes_to_component
        (bytes_to_component
          (NewReader (WriteByte (component_to_bytes [4095, 7] 12 (component_to_bytes [1, 255] 8 [])) 77))
          8 [1, 255].length).1 12 [4095, 7].length).2 = [4095, 7] ∧
    (ReadByte (bytes_to_component
        (bytes_to_component
          (NewReader (WriteByte (component_to_bytes [4095, 7] 12 (component_to_bytes [1, 255] 8 [])) 77))
          8 [1, 255].length).1 12 [4095, 7].length).1).1 = 77) :=
  ⟨by decide, back_to_back_fields 8 12 77 [1, 255] [4095, 7] (by decide) (by decide) (by decide)
    (by decide)⟩

/-- C12. Dropped bits decode as zero: for every reader, ring size and non-empty table, when
`bytes_to_poly` is run with level 0 and the drop-bits byte `d` it reads from the header satisfies
`0 < d < 64`, it returns a polynomial and every coefficient of that polynomial has its low `d`
bits equal to zero (it is a multiple of `2 ^ d`). -/
theorem dropped_bits_decode_as_zero (r : Reader) (N : Nat) (q : List Nat) (P0 : Poly) (d : Nat)
    (hq : 1 ≤ q.length)
    (hd : (ReadByte (ReadBool (ReadBool r P0.IsNTT).2 P0.IsMForm).2).1 = d)
    (hd0 : 0 < d) (hd64 : d < 64) :
    ∃ res, bytes_to_poly r N 0 q P0 = some res ∧
      ∀ limb ∈ res.2.Coeffs, ∀ c ∈ limb, c % 2 ^ d = 0 := by
  have hq0 : q[0]? = some q[0] := List.getElem?_eq_getElem (by omega)
  have hdne : d ≠ 0 := by omega
  unfold bytes_to_poly
  simp only [hd, Nat.zero_add, bytes_to_poly_loop, hq0, true_and, hdne, ne_eq, not_false_eq_true,
    if_true]
  refine ⟨_, rfl, ?_⟩
  intro limb hl c hc
  simp only [List.mem_singleton] at hl
  subst hl
  obtain ⟨x, -, rfl⟩ := List.mem_map.mp hc
  exact shiftLeft_mod_two_pow_dvd x d (by omega)

theorem dropped_bits_decode_as_zero_witness :
    (1 ≤ [13].length ∧
      (ReadByte (ReadBool (ReadBool (NewReader [0, 0, 2, 255, 255, 255]) Poly.new.IsNTT).2
        Poly.new.IsMForm).2).1 = 2 ∧ 0 < 2 ∧ 2 < 64) ∧
    ∃ res, bytes_to_poly (NewReader [0, 0, 2, 255, 255, 255]) 2 0 [13] Poly.new = some res ∧
      ∀ limb ∈ res.2.Coeffs, ∀ c ∈ limb, c % 2 ^ 2 = 0 :=
  ⟨by decide, dropped_bits_decode_as_zero (NewReader [0, 0, 2, 255, 255, 255]) 2 [13] Poly.new 2
    (by decide) (by decide) (by decide) (by decide)⟩

/-- C13. Quantization is round-to-nearest: for every 64-bit coefficient `c` and every drop-bits
value `d ≥ 1` (in particular `1 ≤ d ≤ 63`), the value `(c >> d) + ((c >> (d-1)) & 1)` that
`poly_to_bytes` packs at level 0 equals `floor((c + 2^(d-1)) / 2^d)`; and for a level-0
polynomial with limb `limb` and table entry `b`, the bytes written after the three header bytes
are those of `component_to_bytes` on the quantized limb with `b - d` bits per value, the
subtraction being the `uint8` one, which is the plain difference when `d ≤ b < 256`. -/
theorem quantization_round_to_nearest (c d : Nat) (hc : c < 2 ^ 64) (hd1 : 1 ≤ d) :
    quantize d c = (c + 2 ^ (d - 1)) / 2 ^ d ∧
    ∀ (limb : List Nat) (ntt mform : Bool) (q : List Nat) (b : Nat) (w : Writer),
      q[0]? = some b →
      poly_to_bytes ⟨[limb], ntt, mform⟩ q d w
        = some (⟨[limb], ntt, mform⟩,
            component_to_bytes (limb.map (quantize d)) ((256 + b % 256 - d % 256) % 256)
              (w ++ [if ntt then 1 else 0, if mform then 1 else 0, d])) ∧
      (d ≤ b → b < 256 → (256 + b % 256 - d % 256) % 256 = b - d) := by
  refine ⟨quantize_eq c d hc hd1, ?_⟩
  intro limb ntt mform q b w hq
  have hdne : d ≠ 0 := by omega
  refine ⟨?_, fun h1 h2 => by omega⟩
  simp [poly_to_bytes, Poly.N, Poly.Level, poly_to_bytes_loop, hq, hdne, component_shift,
    WriteBool, WriteByte]

theorem quantization_round_to_nearest_witness :
    (8190 < 2 ^ 64 ∧ 1 ≤ 2) ∧
    (quantize 2 8190 = (8190 + 2 ^ (2 - 1)) / 2 ^ 2 ∧
    ∀ (limb : List Nat) (ntt mform : Bool) (q : List Nat) (b : Nat) (w : Writer),
      q[0]? = some b →
      poly_to_bytes ⟨[limb], ntt, mform⟩ q 2 w
        = some (⟨[limb], ntt, mform⟩,
            component_to_bytes (limb.map (quantize 2)) ((256 + b % 256 - 2 % 256) % 256)
              (w ++ [if ntt then 1 else 0, if mform then 1 else 0, 2])) ∧
      (2 ≤ b → b < 256 → (256 + b % 256 - 2 % 256) % 256 = b - 2)) :=
  ⟨by decide, quantization_round_to_nearest 8190 2 (by decide) (by decide)⟩

/-- C14. Drop-bits is silently ignored above level 0: for every polynomial `P` of level `L ≥ 1`
with in-range coefficients and every drop-bits value `d`, `poly_to_bytes P q d` and
`poly_to_bytes P q 0` both succeed and their outputs are the same bytes except for the third
one, which is `d` in the first and `0` in the second; and `bytes_to_poly` applied to the first
output returns `P`, every limb unchanged, without failing. -/
theorem drop_bits_ignored_above_level_zero (P : Poly) (q : List Nat) (N L d : Nat) (P0 : Poly)
    (hL : 1 ≤ L) (hlimbs : P.Coeffs.length = L + 1)
    (hq : ∀ j, j < L + 1 → 1 ≤ q.getD j 0 ∧ q.getD j 0 ≤ 64 ∧
      (P.Coeffs.getD j []).length = N ∧ ∀ x ∈ P.Coeffs.getD j [], x < 2 ^ q.getD j 0) :
    ∃ body,
      poly_to_bytes P q d []
        = some (P, [if P.IsNTT then 1 else 0, if P.IsMForm then 1 else 0, d] ++ body) ∧
      poly_to_bytes P q 0 []
        = some (P, [if P.IsNTT then 1 else 0, if P.IsMForm then 1 else 0, 0] ++ body) ∧
      ∃ r, bytes_to_poly
          (NewReader ([if P.IsNTT then 1 else 0, if P.IsMForm then 1 else 0, d] ++ body))
          N L q P0 = some (r, P) := by
  obtain ⟨cs, ntt, mform⟩ := P
  simp only at hlimbs hq ⊢
  have hok := LimbsOK_of_table cs q N L hlimbs hq
  have hlev : Poly.Level ⟨cs, ntt, mform⟩ = L := by simp [Poly.Level, hlimbs]
  have hPN : Poly.N ⟨cs, ntt, mform⟩ = some N := by
    cases cs with
    | nil => simp at hlimbs
    | cons c cs2 =>
      obtain ⟨⟨bl, -, -, hc, -⟩, -⟩ := hok
      simp [Poly.N, hc]
  obtain ⟨body, e1, -⟩ := poly_loop_roundtrip N L q cs 0 [] hok
  obtain ⟨body2, f1, f2⟩ := poly_loop_roundtrip N L q cs 0
    [if ntt then 1 else 0, if mform then 1 else 0, d] hok
  have hb : body2 = body := by
    rw [poly_to_bytes_loop_hom, e1] at f1
    simpa using f1.symm
  subst hb
  obtain ⟨pos, g1, -⟩ := f2 []
  refine ⟨body2, ?_, ?_,
    ⟨[if ntt then 1 else 0, if mform then 1 else 0, d] ++ body2, pos⟩, ?_⟩
  · simp only [poly_to_bytes, hPN, hlev, WriteBool, WriteByte, List.nil_append]
    rw [poly_to_bytes_loop_level_pos _ _ _ _ _ _ _ (by omega), poly_to_bytes_loop_hom, e1]
    simp
  · simp only [poly_to_bytes, hPN, hlev, WriteBool, WriteByte, List.nil_append]
    rw [poly_to_bytes_loop_hom, e1]
    simp
  · simp only [List.append_nil, List.length_cons, List.length_nil] at g1
    rw [hlimbs, ← bytes_to_poly_loop_level_pos N L q d _ _ _ (by omega)] at g1
    simp only [List.cons_append, List.nil_append, Nat.zero_add] at g1
    simp [bytes_to_poly, NewReader, ReadBool, ReadByte, g1, flag_byte_ne_zero]

theorem drop_bits_ignored_above_level_zero_witness :
    (1 ≤ 1 ∧ ([[1, 2, 3], [100, 200, 511]] : List (List Nat)).length = 1 + 1 ∧
      ∀ j, j < 1 + 1 → 1 ≤ [5, 9].getD j 0 ∧ [5, 9].getD j 0 ≤ 64 ∧
        (([[1, 2, 3], [100, 200, 511]] : List (List Nat)).getD j []).length = 3 ∧
        ∀ x ∈ ([[1, 2, 3], [100, 200, 511]] : List (List Nat)).getD j [], x < 2 ^ [5, 9].getD j 0) ∧
    ∃ body,
      poly_to_bytes ⟨[[1, 2, 3], [100, 200, 511]], true, false⟩ [5, 9] 3 []
        = some (⟨[[1, 2, 3], [100, 200, 511]], true, false⟩, [1, 0, 3] ++ body) ∧
      poly_to_bytes ⟨[[1, 2, 3], [100, 200, 511]], true, false⟩ [5, 9] 0 []
        = some (⟨[[1, 2, 3], [100, 200, 511]], true, false⟩, [1, 0, 0] ++ body) ∧
      ∃ r, bytes_to_poly (NewReader ([1, 0, 3] ++ body)) 3 1 [5, 9] Poly.new
        = some (r, ⟨[[1, 2, 3], [100, 200, 511]], true, false⟩) :=
  ⟨by decide, drop_bits_ignored_above_level_zero ⟨[[1, 2, 3], [100, 200, 511]], true, false⟩
    [5, 9] 3 1 3 Poly.new (by decide) (by decide) (by decide)⟩

set_option maxRecDepth 16384 in
/-- C15 (counterexample). For `N = 8`, level 0, one modulus of bit length 5, coefficients
`[1,2,3,4,5,6,7,8]` and `drop_bits = 2`, `poly_to_bytes` writes 166 bytes, not `3 + 3`, and
`bytes_to_poly` of that output yields `[0,4,4,4,4,8,8,8]`, not `[0,0,4,4,4,8,8,8]`: the
coefficient 2 is a tie and is rounded up. -/
theorem lossy_scenario_as_stated_fails :
    (poly_to_bytes ⟨[[1, 2, 3, 4, 5, 6, 7, 8]], false, false⟩ [5] 2 []).map
        (fun res => res.2.length) = some 166 ∧ 166 ≠ 3 + 3 ∧
    (poly_to_bytes ⟨[[1, 2, 3, 4, 5, 6, 7, 8]], false, false⟩ [5] 2 []).bind
        (fun res => (bytes_to_poly (NewReader res.2) 8 0 [5] Poly.new).map
          (fun dec => dec.2.Coeffs)) = some [[0, 4, 4, 4, 4, 8, 8, 8]] ∧
    ([[0, 4, 4, 4, 4, 8, 8, 8]] : List (List Nat)) ≠ [[0, 0, 4, 4, 4, 8, 8, 8]] := by
  decide

set_option maxRecDepth 16384 in
/-- C15 (amended). For `N = 8`, level 0, one modulus of bit length 5, coefficients
`[1,2,3,4,5,6,7,8]` and `drop_bits = 2`, `poly_to_bytes` writes the 3-byte header
`IsNTT, IsMForm, 2` and then packs the quantized limb `[0,1,1,1,1,2,2,2]` with `5 - 2 = 3` bits
per value, and `bytes_to_poly` of that output yields the coefficient array
`[0,4,4,4,4,8,8,8]`. -/
theorem lossy_scenario :
    component_shift 8 2 [1, 2, 3, 4, 5, 6, 7, 8] = some [0, 1, 1, 1, 1, 2, 2, 2] ∧
    poly_to_bytes ⟨[[1, 2, 3, 4, 5, 6, 7, 8]], false, false⟩ [5] 2 []
      = some (⟨[[1, 2, 3, 4, 5, 6, 7, 8]], false, false⟩,
          component_to_bytes [0, 1, 1, 1, 1, 2, 2, 2] (5 - 2) [0, 0, 2]) ∧
    (bytes_to_poly (NewReader (component_to_bytes [0, 1, 1, 1, 1, 2, 2, 2] (5 - 2) [0, 0, 2]))
        8 0 [5] Poly.new).map (fun dec => dec.2)
      = some ⟨[[0, 4, 4, 4, 4, 8, 8, 8]], false, false⟩ := by
  decide

/-- C16. Ciphertext wire layout: for every ciphertext with one or two components, each with
`L+1` limbs, at level `L ≤ 254`, ring size `N < 2^32` and a modulus chain of at least `L+1`
entries, `CiphertextToBytes` writes exactly: `N` as 4 little-endian bytes, one byte `n_poly`, one
byte `L`, then `L+1` bytes whose `j`-th is the bit length of `Q[j]`; then, for each component `i`
in order, the 3-byte header `IsNTT` as 0/1, `IsMForm` as 0/1, the `i`-th drop-bit argument as a
byte, followed by its bit-packed limbs. The header is `4 + 1 + 1 + (L+1)` bytes long. -/
theorem ciphertext_wire_layout (ct : Ciphertext) (param : Parameters) (L : Nat) (d0 d1 : Int)
    (hcount : 1 ≤ ct.Value.length ∧ ct.Value.length ≤ 2) (hL : L ≤ 254)
    (hN : param.N < 2 ^ 32) (hQlen : L + 1 ≤ param.Q.length)
    (hP : ∀ P ∈ ct.Value, P.Coeffs.length = L + 1) :
    CiphertextToBytes ct param d0 d1 []
        = some (spec_ciphertext_bytes ct param L [(d0 % 256).toNat, (d1 % 256).toNat]) ∧
      (spec_ciphertext_header param.N ct.Value.length L param.Q).length = 4 + 1 + 1 + (L + 1) := by
  refine ⟨?_, by simp [spec_ciphertext_header, spec_uint32, spec_table_length]; omega⟩
  obtain ⟨Ps⟩ := ct
  simp only at hcount hP
  have hlevel : Ciphertext.Level ⟨Ps⟩ = some L := by
    cases Ps with
    | nil => simp at hcount
    | cons P0 Ps2 =>
      have := hP P0 (List.mem_cons_self _ _)
      simp [Ciphertext.Level, Poly.Level, this]
  have htab : q_bit_lengths_of param.Q (L + 1) 0 = some (spec_table param.Q L) := by
    rw [q_bit_lengths_of_eq param.Q (L + 1) 0 (by omega)]
    simp [spec_table]
  have hw : write_table (WriteByte (WriteByte (WriteUint32 [] param.N) (Ps.length % 256))
      (L % 256)) (spec_table param.Q L) = spec_ciphertext_header param.N Ps.length L param.Q := by
    rw [write_table_eq _ _ (spec_table_lt _ _), Nat.mod_eq_of_lt (by omega : Ps.length < 256),
      Nat.mod_eq_of_lt (by omega : L < 256)]
    rw [WriteUint32_eq _ _ hN]
    simp [WriteByte, spec_ciphertext_header]
  simp only [CiphertextToBytes, hlevel, htab, hw]
  rw [ciphertext_polys_to_bytes_layout L _ _ Ps 0 (by simp; omega)
    (by rw [spec_table_length]) hP]
  simp [spec_ciphertext_bytes]

theorem ciphertext_wire_layout_witness :
    ((1 ≤ ([⟨[[1, 2], [300, 400]], true, false⟩, ⟨[[5, 6], [7, 8]], false, true⟩] : List Poly).length ∧
        ([⟨[[1, 2], [300, 400]], true, false⟩, ⟨[[5, 6], [7, 8]], false, true⟩] : List Poly).length ≤ 2) ∧
      1 ≤ 254 ∧ 2 < 2 ^ 32 ∧ 1 + 1 ≤ [257, 65537].length ∧
      ∀ P ∈ ([⟨[[1, 2], [300, 400]], true, false⟩, ⟨[[5, 6], [7, 8]], false, true⟩] : List Poly),
        P.Coeffs.length = 1 + 1) ∧
    (CiphertextToBytes ⟨[⟨[[1, 2], [300, 400]], true, false⟩, ⟨[[5, 6], [7, 8]], false, true⟩]⟩
        ⟨[257, 65537], [], 2⟩ 3 0 []
      = some (spec_ciphertext_bytes
          ⟨[⟨[[1, 2], [300, 400]], true, false⟩, ⟨[[5, 6], [7, 8]], false, true⟩]⟩
          ⟨[257, 65537], [], 2⟩ 1 [((3 : Int) % 256).toNat, ((0 : Int) % 256).toNat]) ∧
      (spec_ciphertext_header 2 2 1 [257, 65537]).length = 4 + 1 + 1 + (1 + 1)) :=
  ⟨by decide, ciphertext_wire_layout
    ⟨[⟨[[1, 2], [300, 400]], true, false⟩, ⟨[[5, 6], [7, 8]], false, true⟩]⟩
    ⟨[257, 65537], [], 2⟩ 1 3 0 (by decide) (by decide) (by decide) (by decide) (by decide)⟩

/-- C17. Compressed-ciphertext round trip: for every compressed ciphertext `c` with a 64-byte
seed and one explicit polynomial at level `L ≤ 254` with in-range residues (ring size below
`2^32`, `uint64` moduli), `CompressedCiphertextToBytes` writes ring size, level, the Q
bit-length table, the 64 seed bytes and one polynomial whose drop-bits header byte is 0, and
`BytesToCompressedCiphertext` of that output returns `c`: the identical seed and a polynomial
with the same flags and limbs. -/
theorem compressed_ciphertext_roundtrip (c : CompressedCiphertext) (param : Parameters) (L : Nat)
    (hL : L ≤ 254) (hN : param.N < 2 ^ 32) (hQlen : L + 1 ≤ param.Q.length)
    (hQ : ∀ q ∈ param.Q, q < 2 ^ 64) (hseed : c.Seed.length = 64)
    (hP : ResiduesOK param.Q param.N L c.Value) :
    CompressedCiphertextToBytes c param [] = some (spec_compressed_bytes c param L) ∧
      (spec_poly_bytes L 0 (spec_table param.Q L) c.Value).getD 2 1 = 0 ∧
      ∃ r, BytesToCompressedCiphertext (NewReader (spec_compressed_bytes c param L))
        = some (c, r) := by
  obtain ⟨a1, -, a3⟩ := poly_codec_At param.Q param.N L c.Value hQ hQlen hP
  have hlev := Poly_Level_of_ResiduesOK _ _ _ _ hP
  refine ⟨?_, by simp [spec_poly_bytes], ?_⟩
  · simp only [CompressedCiphertextToBytes, hlev, q_bit_lengths_of_spec_table _ _ hQlen]
    rw [write_table_eq _ _ (spec_table_lt _ _), WriteUint32_eq _ _ hN,
      Nat.mod_eq_of_lt (by omega : L < 256), write_seed_64 _ _ hseed]
    simp only [a1]
    simp [WriteByte, spec_compressed_bytes]
  · have h0 := At_NewReader (spec_compressed_bytes c param L)
    have hs : spec_compressed_bytes c param L
        = WriteUint32 [] param.N ++ (L :: (spec_table param.Q L ++ (c.Seed
            ++ (spec_poly_bytes L 0 (spec_table param.Q L) c.Value ++ [])))) := by
      simp [spec_compressed_bytes, spec_uint32_eq _ hN]
    generalize NewReader (spec_compressed_bytes c param L) = r0 at h0 ⊢
    rw [hs] at h0
    obtain ⟨r1, e1, h1⟩ := ReadUint32_next r0 param.N _ hN h0
    obtain ⟨r2, e2, h2⟩ := ReadByte_next r1 L _ h1
    obtain ⟨r3, e3, h3⟩ := read_table_next (spec_table param.Q L) (L + 1) r2 _
      (spec_table_length _ _) h2
    obtain ⟨r4, e4, h4⟩ := read_seed_next c.Seed r3 _ hseed h3
    obtain ⟨r5, e5, -⟩ := a3 r4 [] Poly.new h4
    refine ⟨r5, ?_⟩
    simp only [BytesToCompressedCiphertext, e1, e2, Nat.mod_eq_of_lt (by omega : L + 1 < 256),
      e3, e4, e5]

theorem compressed_ciphertext_roundtrip_witness :
    (1 ≤ 254 ∧ 4 < 2 ^ 32 ∧ 1 + 1 ≤ [257, 65537].length ∧ (∀ q ∈ [257, 65537], q < 2 ^ 64) ∧
      (List.replicate 64 9).length = 64 ∧
      ResiduesOK [257, 65537] 4 1 ⟨[[1, 2, 3, 256], [300, 2, 1, 65536]], true, false⟩) ∧
    (CompressedCiphertextToBytes
        ⟨⟨[[1, 2, 3, 256], [300, 2, 1, 65536]], true, false⟩, List.replicate 64 9⟩
        ⟨[257, 65537], [], 4⟩ []
      = some (spec_compressed_bytes
          ⟨⟨[[1, 2, 3, 256], [300, 2, 1, 65536]], true, false⟩, List.replicate 64 9⟩
          ⟨[257, 65537], [], 4⟩ 1) ∧
      (spec_poly_bytes 1 0 (spec_table [257, 65537] 1)
        ⟨[[1, 2, 3, 256], [300, 2, 1, 65536]], true, false⟩).getD 2 1 = 0 ∧
      ∃ r, BytesToCompressedCiphertext (NewReader (spec_compressed_bytes
          ⟨⟨[[1, 2, 3, 256], [300, 2, 1, 65536]], true, false⟩, List.replicate 64 9⟩
          ⟨[257, 65537], [], 4⟩ 1))
        = some (⟨⟨[[1, 2, 3, 256], [300, 2, 1, 65536]], true, false⟩, List.replicate 64 9⟩, r)) :=
  ⟨by decide, compressed_ciphertext_roundtrip
    ⟨⟨[[1, 2, 3, 256], [300, 2, 1, 65536]], true, false⟩, List.replicate 64 9⟩
    ⟨[257, 65537], [], 4⟩ 1 (by decide) (by decide) (by decide) (by decide) (by decide)
    (by decide)⟩

/-- C18. Secret-key round trip is always lossless: for every secret key whose Q part is at
level `Lq` and P part at level `Lp` (each at most 254, level 0 included) with in-range residues,
`SecretKeyToBytes` writes the header, then the Q polynomial and the P polynomial each with
drop-bits byte 0, and `BytesToSecretKey` of its output returns Q and P polynomials with exactly
the flags and limbs of the original. -/
theorem secret_key_roundtrip (Q P : Poly) (param : Parameters) (Lq Lp : Nat)
    (hLq : Lq ≤ 254) (hLp : Lp ≤ 254) (hN : param.N < 2 ^ 32)
    (hQlen : Lq + 1 ≤ param.Q.length) (hPlen : Lp + 1 ≤ param.P.length)
    (hQ : ∀ q ∈ param.Q, q < 2 ^ 64) (hPc : ∀ p ∈ param.P, p < 2 ^ 64)
    (hQok : ResiduesOK param.Q param.N Lq Q) (hPok : ResiduesOK param.P param.N Lp P) :
    SecretKeyToBytes ⟨⟨some Q, some P⟩⟩ param []
        = some (spec_qp_header param Lq Lp ++ spec_qp_polys param Lq Lp Q P) ∧
      (spec_poly_bytes Lq 0 (spec_table param.Q Lq) Q).getD 2 1 = 0 ∧
      (spec_poly_bytes Lp 0 (spec_table param.P Lp) P).getD 2 1 = 0 ∧
      ∃ r, BytesToSecretKey
          (NewReader (spec_qp_header param Lq Lp ++ spec_qp_polys param Lq Lp Q P))
        = some (⟨⟨some Q, some P⟩⟩, r) := by
  have hq := Poly_Level_of_ResiduesOK _ _ _ _ hQok
  have hp := Poly_Level_of_ResiduesOK _ _ _ _ hPok
  obtain ⟨b1, b2⟩ := qp_polys_codec_At param Lq Lp Q P hQlen hPlen hQ hPc hQok hPok
  refine ⟨?_, by simp [spec_poly_bytes], by simp [spec_poly_bytes], ?_⟩
  · obtain ⟨pw1, pw2, c1, c2, c3⟩ := b1 (spec_qp_header param Lq Lp)
    simp only [SecretKeyToBytes, qp_header_to_bytes_eq Q P param Lq Lp [] hq hp hLq hLp hN hQlen
      hPlen, List.nil_append, c1, c2, c3]
  · have h0 := At_NewReader (spec_qp_header param Lq Lp ++ spec_qp_polys param Lq Lp Q P)
    generalize NewReader (spec_qp_header param Lq Lp ++ spec_qp_polys param Lq Lp Q P) = r0
      at h0 ⊢
    obtain ⟨r1, e1, h1⟩ := bytes_to_qp_header_At param Lq Lp r0 _ hLq hLp hN h0
    rw [← List.append_nil (spec_qp_polys param Lq Lp Q P)] at h1
    obtain ⟨r2, e2, -⟩ := b2 r1 [] h1
    exact ⟨r2, by simp only [BytesToSecretKey, e1, e2]⟩

theorem secret_key_roundtrip_witness :
    (1 ≤ 254 ∧ 0 ≤ 254 ∧ 4 < 2 ^ 32 ∧ 1 + 1 ≤ [257, 65537].length ∧ 0 + 1 ≤ [12289].length ∧
      (∀ q ∈ [257, 65537], q < 2 ^ 64) ∧ (∀ p ∈ [12289], p < 2 ^ 64) ∧
      ResiduesOK [257, 65537] 4 1 ⟨[[1, 2, 3, 256], [300, 2, 1, 65536]], true, false⟩ ∧
      ResiduesOK [12289] 4 0 ⟨[[12288, 2, 3, 4]], true, true⟩) ∧
    (SecretKeyToBytes
        ⟨⟨some ⟨[[1, 2, 3, 256], [300, 2, 1, 65536]], true, false⟩,
          some ⟨[[12288, 2, 3, 4]], true, true⟩⟩⟩ ⟨[257, 65537], [12289], 4⟩ []
      = some (spec_qp_header ⟨[257, 65537], [12289], 4⟩ 1 0
          ++ spec_qp_polys ⟨[257, 65537], [12289], 4⟩ 1 0
            ⟨[[1, 2, 3, 256], [300, 2, 1, 65536]], true, false⟩
            ⟨[[12288, 2, 3, 4]], true, true⟩) ∧
      (spec_poly_bytes 1 0 (spec_table [257, 65537] 1)
        ⟨[[1, 2, 3, 256], [300, 2, 1, 65536]], true, false⟩).getD 2 1 = 0 ∧
      (spec_poly_bytes 0 0 (spec_table [12289] 0) ⟨[[12288, 2, 3, 4]], true, true⟩).getD 2 1 = 0 ∧
      ∃ r, BytesToSecretKey
          (NewReader (spec_qp_header ⟨[257, 65537], [12289], 4⟩ 1 0
            ++ spec_qp_polys ⟨[257, 65537], [12289], 4⟩ 1 0
              ⟨[[1, 2, 3, 256], [300, 2, 1, 65536]], true, false⟩
              ⟨[[12288, 2, 3, 4]], true, true⟩))
        = some (⟨⟨some ⟨[[1, 2, 3, 256], [300, 2, 1, 65536]], true, false⟩,
            some ⟨[[12288, 2, 3, 4]], true, true⟩⟩⟩, r)) :=
  ⟨by decide, secret_key_roundtrip ⟨[[1, 2, 3, 256], [300, 2, 1, 65536]], true, false⟩
    ⟨[[12288, 2, 3, 4]], true, true⟩ ⟨[257, 65537], [12289], 4⟩ 1 0 (by decide) (by decide)
    (by decide) (by decide) (by decide) (by decide) (by decide) (by decide) (by decide)⟩

set_option maxRecDepth 16384 in
/-- C19 (counterexample). A QP ciphertext whose `Compressed` flag is false and whose `Value[1]`
holds polynomials is not what `BytesToCiphertextQP` returns for its encoding: the decoded object
has `Compressed = true` and nil pointers in `Value[1]`. -/
theorem ciphertext_qp_roundtrip_as_stated_fails :
    (CiphertextQPToBytes
        ⟨(⟨some ⟨[[1, 2]], true, false⟩, some ⟨[[3, 4]], false, true⟩⟩,
          ⟨some ⟨[[5, 6]], true, false⟩, some ⟨[[7, 8]], false, true⟩⟩),
          List.replicate 64 9, false⟩ ⟨[257], [12289], 2⟩ []).bind
        (fun enc => (BytesToCiphertextQP (NewReader enc)).map (fun res => res.1))
      = some ⟨(⟨some ⟨[[1, 2]], true, false⟩, some ⟨[[3, 4]], false, true⟩⟩, ⟨none, none⟩),
          List.replicate 64 9, true⟩ ∧
    (⟨(⟨some ⟨[[1, 2]], true, false⟩, some ⟨[[3, 4]], false, true⟩⟩, ⟨none, none⟩),
          List.replicate 64 9, true⟩ : CiphertextQP)
      ≠ ⟨(⟨some ⟨[[1, 2]], true, false⟩, some ⟨[[3, 4]], false, true⟩⟩,
          ⟨some ⟨[[5, 6]], true, false⟩, some ⟨[[7, 8]], false, true⟩⟩),
          List.replicate 64 9, false⟩ := by
  decide

/-- C19 (amended). For every QP ciphertext `x` with a 64-byte seed whose `Value[0]` has Q and P
polynomials at levels at most 254 with in-range residues, `CiphertextQPToBytes x param`
succeeds and `BytesToCiphertextQP` over its output returns an object with the same seed and the
same `Value[0]` as `x`; its `Compressed` flag is true and its `Value[1]` is the zero value, two
nil pointers, whatever they are in `x`. -/
theorem ciphertext_qp_roundtrip (x : CiphertextQP) (Q P : Poly) (param : Parameters) (Lq Lp : Nat)
    (hx : x.Value.1 = ⟨some Q, some P⟩)
    (hLq : Lq ≤ 254) (hLp : Lp ≤ 254) (hN : param.N < 2 ^ 32)
    (hQlen : Lq + 1 ≤ param.Q.length) (hPlen : Lp + 1 ≤ param.P.length)
    (hQ : ∀ q ∈ param.Q, q < 2 ^ 64) (hPc : ∀ p ∈ param.P, p < 2 ^ 64)
    (hseed : x.Seed.length = 64)
    (hQok : ResiduesOK param.Q param.N Lq Q) (hPok : ResiduesOK param.P param.N Lp P) :
    CiphertextQPToBytes x param [] = some (spec_ciphertext_qp_bytes Q P x.Seed param Lq Lp) ∧
      ∃ r, BytesToCiphertextQP (NewReader (spec_ciphertext_qp_bytes Q P x.Seed param Lq Lp))
        = some (⟨(x.Value.1, ⟨none, none⟩), x.Seed, true⟩, r) := by
  have hq := Poly_Level_of_ResiduesOK _ _ _ _ hQok
  have hp := Poly_Level_of_ResiduesOK _ _ _ _ hPok
  obtain ⟨b1, b2⟩ := qp_polys_codec_At param Lq Lp Q P hQlen hPlen hQ hPc hQok hPok
  constructor
  · obtain ⟨pw1, pw2, c1, c2, c3⟩ := b1 (spec_qp_header param Lq Lp ++ x.Seed)
    simp only [CiphertextQPToBytes, hx, qp_header_to_bytes_eq Q P param Lq Lp [] hq hp hLq hLp hN
      hQlen hPlen, List.nil_append, write_seed_64 _ _ hseed, c1, c2, c3, spec_ciphertext_qp_bytes]
  · have h0 := At_NewReader (spec_ciphertext_qp_bytes Q P x.Seed param Lq Lp)
    generalize NewReader (spec_ciphertext_qp_bytes Q P x.Seed param Lq Lp) = r0 at h0 ⊢
    simp only [spec_ciphertext_qp_bytes, List.append_assoc] at h0
    obtain ⟨r1, e1, h1⟩ := bytes_to_qp_header_At param Lq Lp r0 _ hLq hLp hN h0
    obtain ⟨r2, e2, h2⟩ := read_seed_next x.Seed r1 _ hseed h1
    rw [← List.append_nil (spec_qp_polys param Lq Lp Q P)] at h2
    obtain ⟨r3, e3, -⟩ := b2 r2 [] h2
    exact ⟨r3, by simp only [BytesToCiphertextQP, e1, e2, e3, hx]⟩

theorem ciphertext_qp_roundtrip_witness :
    ((⟨(⟨some ⟨[[1, 2]], true, false⟩, some ⟨[[3, 4]], false, true⟩⟩,
          ⟨some ⟨[[5, 6]], true, false⟩, some ⟨[[7, 8]], false, true⟩⟩),
          List.replicate 64 9, false⟩ : CiphertextQP).Value.1
        = ⟨some ⟨[[1, 2]], true, false⟩, some ⟨[[3, 4]], false, true⟩⟩ ∧
      0 ≤ 254 ∧ 0 ≤ 254 ∧ 2 < 2 ^ 32 ∧ 0 + 1 ≤ [257].length ∧ 0 + 1 ≤ [12289].length ∧
      (∀ q ∈ [257], q < 2 ^ 64) ∧ (∀ p ∈ [12289], p < 2 ^ 64) ∧
      (List.replicate 64 9).length = 64 ∧
      ResiduesOK [257] 2 0 ⟨[[1, 2]], true, false⟩ ∧
      ResiduesOK [12289] 2 0 ⟨[[3, 4]], false, true⟩) ∧
    (CiphertextQPToBytes
        ⟨(⟨some ⟨[[1, 2]], true, false⟩, some ⟨[[3, 4]], false, true⟩⟩,
          ⟨some ⟨[[5, 6]], true, false⟩, some ⟨[[7, 8]], false, true⟩⟩),
          List.replicate 64 9, false⟩ ⟨[257], [12289], 2⟩ []
      = some (spec_ciphertext_qp_bytes ⟨[[1, 2]], true, false⟩ ⟨[[3, 4]], false, true⟩
          (List.replicate 64 9) ⟨[257], [12289], 2⟩ 0 0) ∧
      ∃ r, BytesToCiphertextQP (NewReader (spec_ciphertext_qp_bytes ⟨[[1, 2]], true, false⟩
          ⟨[[3, 4]], false, true⟩ (List.replicate 64 9) ⟨[257], [12289], 2⟩ 0 0))
        = some (⟨(⟨some ⟨[[1, 2]], true, false⟩, some ⟨[[3, 4]], false, true⟩⟩, ⟨none, none⟩),
            List.replicate 64 9, true⟩, r)) :=
  ⟨by decide, ciphertext_qp_roundtrip
    ⟨(⟨some ⟨[[1, 2]], true, false⟩, some ⟨[[3, 4]], false, true⟩⟩,
      ⟨some ⟨[[5, 6]], true, false⟩, some ⟨[[7, 8]], false, true⟩⟩), List.replicate 64 9, false⟩
    ⟨[[1, 2]], true, false⟩ ⟨[[3, 4]], false, true⟩ ⟨[257], [12289], 2⟩ 0 0 (by decide)
    (by decide) (by decide) (by decide) (by decide) (by decide) (by decide) (by decide)
    (by decide) (by decide) (by decide)⟩

/-- C20. Only index zero of a QP ciphertext reaches the wire: two QP ciphertexts with the same
seed and the same `Value[0]`, whatever their `Value[1]` and `Compressed` flag, are encoded by
`CiphertextQPToBytes` to identical bytes (after any earlier output `w`); and every object
`BytesToCiphertextQP` returns has its `Compressed` flag set to true. -/
theorem only_index_zero_reaches_the_wire (x y : CiphertextQP) (param : Parameters) (w : Writer)
    (hseed : x.Seed = y.Seed) (hv : x.Value.1 = y.Value.1) :
    CiphertextQPToBytes x param w = CiphertextQPToBytes y param w ∧
      ∀ (r : Reader) (res : CiphertextQP × Reader),
        BytesToCiphertextQP r = some res → res.1.Compressed = true := by
  constructor
  · simp only [CiphertextQPToBytes, hseed, hv]
  · intro r res h
    unfold BytesToCiphertextQP at h
    simp only at h
    split at h
    · cases h
    · simp only [Option.some.injEq] at h
      rw [← h]

theorem only_index_zero_reaches_the_wire_witness :
    ((⟨(⟨some ⟨[[1, 2]], true, false⟩, some ⟨[[3, 4]], false, true⟩⟩,
          ⟨some ⟨[[5, 6]], true, false⟩, some ⟨[[7, 8]], false, true⟩⟩),
          List.replicate 64 9, false⟩ : CiphertextQP).Seed
        = (⟨(⟨some ⟨[[1, 2]], true, false⟩, some ⟨[[3, 4]], false, true⟩⟩, ⟨none, none⟩),
          List.replicate 64 9, true⟩ : CiphertextQP).Seed ∧
      (⟨(⟨some ⟨[[1, 2]], true, false⟩, some ⟨[[3, 4]], false, true⟩⟩,
          ⟨some ⟨[[5, 6]], true, false⟩, some ⟨[[7, 8]], false, true⟩⟩),
          List.replicate 64 9, false⟩ : CiphertextQP).Value.1
        = (⟨(⟨some ⟨[[1, 2]], true, false⟩, some ⟨[[3, 4]], false, true⟩⟩, ⟨none, none⟩),
          List.replicate 64 9, true⟩ : CiphertextQP).Value.1) ∧
    (CiphertextQPToBytes
        ⟨(⟨some ⟨[[1, 2]], true, false⟩, some ⟨[[3, 4]], false, true⟩⟩,
          ⟨some ⟨[[5, 6]], true, false⟩, some ⟨[[7, 8]], false, true⟩⟩),
          List.replicate 64 9, false⟩ ⟨[257], [12289], 2⟩ []
      = CiphertextQPToBytes
        ⟨(⟨some ⟨[[1, 2]], true, false⟩, some ⟨[[3, 4]], false, true⟩⟩, ⟨none, none⟩),
          List.replicate 64 9, true⟩ ⟨[257], [12289], 2⟩ [] ∧
      ∀ (r : Reader) (res : CiphertextQP × Reader),
        BytesToCiphertextQP r = some res → res.1.Compressed = true) :=
  ⟨by decide, only_index_zero_reaches_the_wire _ _ ⟨[257], [12289], 2⟩ [] (by decide)
    (by decide)⟩

/-- C21. Gadget-ciphertext layout and round trip: for every rectangular array `g` of `digits`
rows (1 to 255) of `splits` entries (at most 255), each a well-formed QP ciphertext,
`GadgetCiphertextToBytes` writes one byte `digits`, one byte `splits`, then the
`CiphertextQPToBytes` encodings of the entries in row-major order, and
`BytesToGadgetCiphertext` of that output returns the array of the same shape whose entry
`[i][j]` is what `BytesToCiphertextQP` returns for the encoding of the original entry
`[i][j]`. -/
theorem gadget_ciphertext_roundtrip (g : GadgetCiphertext) (param : Parameters)
    (hp : ParamOK param) (hg : GadgetOK param g) :
    GadgetCiphertextToBytes g param []
        = some ([g.Value.length, (g.Value.headD []).length]
            ++ (g.Value.map
                (fun row => (row.map (spec_qp_element_bytes param)).flatten)).flatten) ∧
      (∀ row ∈ g.Value, ∀ y ∈ row,
        CiphertextQPToBytes y param [] = some (spec_qp_element_bytes param y) ∧
          ∃ r, BytesToCiphertextQP (NewReader (spec_qp_element_bytes param y))
            = some (y.wire, r)) ∧
      ∃ r, BytesToGadgetCiphertext (NewReader (spec_gadget_bytes param g))
        = some (⟨g.Value.map (List.map CiphertextQP.wire)⟩, r) := by
  obtain ⟨a1, -, a3⟩ := gadget_codec_At param g hp hg
  refine ⟨by simpa [spec_gadget_bytes] using a1 [], ?_, ?_⟩
  · intro row hrow y hy
    obtain ⟨b1, -, b3⟩ := ciphertext_qp_codec_At param y hp (hg.2.2.2.2 row hrow y hy)
    refine ⟨by simpa using b1 [], ?_⟩
    have h0 := At_NewReader (spec_qp_element_bytes param y)
    rw [← List.append_nil (spec_qp_element_bytes param y)] at h0
    obtain ⟨r, e, -⟩ := b3 _ [] h0
    rw [List.append_nil] at e
    exact ⟨r, e⟩
  · have h0 := At_NewReader (spec_gadget_bytes param g)
    rw [← List.append_nil (spec_gadget_bytes param g)] at h0
    obtain ⟨r, e, -⟩ := a3 _ [] h0
    rw [List.append_nil] at e
    exact ⟨r, e⟩

set_option maxRecDepth 16384 in
theorem gadget_ciphertext_roundtrip_witness :
    (ParamOK example_param ∧ GadgetOK example_param (example_gadget 1)) ∧
    (GadgetCiphertextToBytes (example_gadget 1) example_param []
        = some ([(example_gadget 1).Value.length, ((example_gadget 1).Value.headD []).length]
            ++ ((example_gadget 1).Value.map
                (fun row => (row.map (spec_qp_element_bytes example_param)).flatten)).flatten) ∧
      (∀ row ∈ (example_gadget 1).Value, ∀ y ∈ row,
        CiphertextQPToBytes y example_param [] = some (spec_qp_element_bytes example_param y) ∧
          ∃ r, BytesToCiphertextQP (NewReader (spec_qp_element_bytes example_param y))
            = some (y.wire, r)) ∧
      ∃ r, BytesToGadgetCiphertext (NewReader (spec_gadget_bytes example_param (example_gadget 1)))
        = some (⟨(example_gadget 1).Value.map (List.map CiphertextQP.wire)⟩, r)) :=
  ⟨by decide, gadget_ciphertext_roundtrip (example_gadget 1) example_param (by decide)
    (by decide)⟩

/-- C22. Relinearization-key round trip preserves count and order: for every relinearization
key with `n ≤ 255` switching keys, each a well-formed gadget ciphertext,
`RelinearizationKeyToByte` writes one byte `n` followed by the `n` switching-key encodings in
list order, and `BytesToRelinearizationKey` of that output returns a list of exactly `n`
switching keys whose `i`-th element is what `BytesToSwitchingKey` returns for the encoding of
the original `i`-th key. -/
theorem relinearization_key_roundtrip (rlk : RelinearizationKey) (param : Parameters)
    (hp : ParamOK param) (hn : rlk.Keys.length ≤ 255)
    (hk : ∀ k ∈ rlk.Keys, GadgetOK param k.GadgetCiphertext) :
    RelinearizationKeyToByte rlk param [] = some (spec_relinearization_bytes param rlk) ∧
      (∀ k ∈ rlk.Keys,
        SwitchingKeyToBytes k param [] = some (spec_gadget_bytes param k.GadgetCiphertext) ∧
          ∃ r, BytesToSwitchingKey (NewReader (spec_gadget_bytes param k.GadgetCiphertext))
            = some (k.wire, r)) ∧
      ∃ keys r, BytesToRelinearizationKey (NewReader (spec_relinearization_bytes param rlk))
          = some (⟨keys⟩, r) ∧
        keys.length = rlk.Keys.length ∧
        ∀ i, i < rlk.Keys.length → keys[i]? = (rlk.Keys[i]?).map SwitchingKey.wire := by
  obtain ⟨keys0⟩ := rlk
  simp only at hn hk ⊢
  obtain ⟨a1, a3⟩ := switching_keys_codec_At param keys0 hp hk
  refine ⟨?_, ?_, ?_⟩
  · simp only [RelinearizationKeyToByte, a1, WriteByte, spec_relinearization_bytes,
      Nat.mod_eq_of_lt (by omega : keys0.length < 256), List.nil_append]
  · intro k hkm
    obtain ⟨b1, -, b3⟩ := gadget_codec_At param k.GadgetCiphertext hp (hk k hkm)
    refine ⟨by simpa [SwitchingKeyToBytes] using b1 [], ?_⟩
    have h0 := At_NewReader (spec_gadget_bytes param k.GadgetCiphertext)
    rw [← List.append_nil (spec_gadget_bytes param k.GadgetCiphertext)] at h0
    obtain ⟨r, e, -⟩ := b3 _ [] h0
    rw [List.append_nil] at e
    exact ⟨r, by simp only [BytesToSwitchingKey, e, SwitchingKey.wire]⟩
  · have h0 := At_NewReader (spec_relinearization_bytes param ⟨keys0⟩)
    generalize NewReader (spec_relinearization_bytes param ⟨keys0⟩) = r0 at h0 ⊢
    simp only [spec_relinearization_bytes, List.singleton_append] at h0
    obtain ⟨r1, e1, h1⟩ := ReadByte_next r0 _ _ h0
    rw [← List.append_nil (List.flatten _)] at h1
    obtain ⟨r2, e2, -⟩ := a3 r1 [] (fun _ => h1)
    refine ⟨keys0.map SwitchingKey.wire, r2, by simp only [BytesToRelinearizationKey, e1, e2],
      by simp, fun i _ => by simp⟩

set_option maxRecDepth 16384 in
theorem relinearization_key_roundtrip_witness :
    (ParamOK example_param ∧ example_rlk.Keys.length ≤ 255 ∧
      ∀ k ∈ example_rlk.Keys, GadgetOK example_param k.GadgetCiphertext) ∧
    (RelinearizationKeyToByte example_rlk example_param []
        = some (spec_relinearization_bytes example_param example_rlk) ∧
      (∀ k ∈ example_rlk.Keys,
        SwitchingKeyToBytes k example_param []
            = some (spec_gadget_bytes example_param k.GadgetCiphertext) ∧
          ∃ r, BytesToSwitchingKey (NewReader (spec_gadget_bytes example_param k.GadgetCiphertext))
            = some (k.wire, r)) ∧
      ∃ keys r, BytesToRelinearizationKey
            (NewReader (spec_relinearization_bytes example_param example_rlk))
          = some (⟨keys⟩, r) ∧
        keys.length = example_rlk.Keys.length ∧
        ∀ i, i < example_rlk.Keys.length →
          keys[i]? = (example_rlk.Keys[i]?).map SwitchingKey.wire) :=
  ⟨by decide, relinearization_key_roundtrip example_rlk example_param (by decide) (by decide)
    (by decide)⟩

/-- C23. Rotation-key-set round trip is independent of map order: for every rotation key set
`ks` with fewer than 65536 entries (distinct `uint64` Galois elements, well-formed switching
keys) and every order `visit` in which `RotationKeySetToBytes` may visit the entries, the output
is the 16-bit little-endian count followed by the (64-bit little-endian Galois element,
switching key) pairs in that order, and `BytesToRotationKeySet` of it returns a map whose
entries are exactly the original Galois elements, each mapped to what `BytesToSwitchingKey`
returns for the encoding of its own switching key. -/
theorem rotation_key_set_roundtrip (ks : RotationKeySet) (visit : List (Nat × SwitchingKey))
    (param : Parameters) (hp : ParamOK param) (hn : ks.Keys.length < 65536)
    (hnd : (ks.Keys.map Prod.fst).Nodup) (hes : EntriesOK param ks.Keys)
    (hvisit : visit.Perm ks.Keys) :
    RotationKeySetToBytes ks visit param [] = some (spec_rotation_bytes param visit) ∧
      ∃ m r, BytesToRotationKeySet (NewReader (spec_rotation_bytes param visit))
          = some (⟨m⟩, r) ∧
        m.Perm (wire_entries ks.Keys) ∧ (m.map Prod.fst).Nodup ∧
        ∀ g k, (g, k) ∈ ks.Keys →
          mapaccess m g = some k.wire ∧
          ∃ r2, BytesToSwitchingKey (NewReader (spec_gadget_bytes param k.GadgetCiphertext))
            = some (k.wire, r2) := by
  have hlen : visit.length = ks.Keys.length := hvisit.length_eq
  have hesv : EntriesOK param visit := fun e he => hes e (hvisit.subset he)
  have hkeys : (wire_entries visit).map Prod.fst = visit.map Prod.fst := by
    simp [wire_entries, Function.comp_def]
  have hndv : (visit.map Prod.fst).Nodup := (hvisit.map Prod.fst).nodup_iff.mpr hnd
  obtain ⟨a1, -⟩ := rotation_keys_codec_At param visit hp hesv
  obtain ⟨r, hr⟩ := rotation_key_set_decode param visit hp (by rw [hlen]; exact hn) hesv
  have hm : mapassign_all [] (wire_entries visit) = (wire_entries visit).reverse := by
    rw [mapassign_all_fresh _ _ (by simpa [hkeys] using hndv)]
    simp
  have hmnd : ((mapassign_all [] (wire_entries visit)).map Prod.fst).Nodup :=
    mapassign_all_keys_nodup _ _ (by simp)
  refine ⟨?_, _, r, hr, ?_, hmnd, ?_⟩
  · simp only [RotationKeySetToBytes, WriteUint16_eq _ _ hn, a1, spec_rotation_bytes, hlen,
      List.nil_append, List.append_assoc]
  · rw [hm]
    exact (List.reverse_perm _).trans (hvisit.map _)
  · intro g k hgk
    refine ⟨?_, ?_⟩
    · apply mapaccess_of_mem _ _ _ hmnd
      rw [hm, List.mem_reverse]
      exact List.mem_map.mpr ⟨(g, k), hvisit.symm.subset hgk, rfl⟩
    · obtain ⟨-, -, b3⟩ := gadget_codec_At param k.GadgetCiphertext hp (hes (g, k) hgk).2
      have h0 := At_NewReader (spec_gadget_bytes param k.GadgetCiphertext)
      rw [← List.append_nil (spec_gadget_bytes param k.GadgetCiphertext)] at h0
      obtain ⟨r2, e, -⟩ := b3 _ [] h0
      rw [List.append_nil] at e
      exact ⟨r2, by simp only [BytesToSwitchingKey, e, SwitchingKey.wire]⟩

set_option maxRecDepth 16384 in
theorem rotation_key_set_roundtrip_witness :
    (ParamOK example_param ∧ example_rotation_keys.Keys.length < 65536 ∧
      (example_rotation_keys.Keys.map Prod.fst).Nodup ∧
      EntriesOK example_param example_rotation_keys.Keys ∧
      example_visit.Perm example_rotation_keys.Keys) ∧
    (RotationKeySetToBytes example_rotation_keys example_visit example_param []
        = some (spec_rotation_bytes example_param example_visit) ∧
      ∃ m r, BytesToRotationKeySet (NewReader (spec_rotation_bytes example_param example_visit))
          = some (⟨m⟩, r) ∧
        m.Perm (wire_entries example_rotation_keys.Keys) ∧ (m.map Prod.fst).Nodup ∧
        ∀ g k, (g, k) ∈ example_rotation_keys.Keys →
          mapaccess m g = some k.wire ∧
          ∃ r2, BytesToSwitchingKey
              (NewReader (spec_gadget_bytes example_param k.GadgetCiphertext))
            = some (k.wire, r2)) :=
  ⟨by decide, rotation_key_set_roundtrip example_rotation_keys example_visit example_param
    (by decide) (by decide) (by decide) (by decide) (by decide)⟩

/-- C24. Duplicate Galois elements are last-write-wins: for every stream laid out as a rotation
key set (count below 65536, `uint64` elements, well-formed switching keys) in which the element
`g` occurs two or more times, the last time with the switching key `k`,
`BytesToRotationKeySet` does not fail and returns a map with a single entry for `g`, holding
what `BytesToSwitchingKey` returns for the encoding of `k`; the map has fewer entries than the
stream. -/
theorem duplicate_galois_elements_last_write_wins (param : Parameters)
    (pre post : List (Nat × SwitchingKey)) (g : Nat) (k : SwitchingKey) (hp : ParamOK param)
    (hn : (pre ++ (g, k) :: post).length < 65536)
    (hes : EntriesOK param (pre ++ (g, k) :: post))
    (hdup : g ∈ pre.map Prod.fst) (hlast : g ∉ post.map Prod.fst) :
    ∃ m r, BytesToRotationKeySet (NewReader (spec_rotation_bytes param (pre ++ (g, k) :: post)))
        = some (⟨m⟩, r) ∧
      (m.map Prod.fst).count g = 1 ∧ mapaccess m g = some k.wire ∧
      m.length < (pre ++ (g, k) :: post).length := by
  obtain ⟨r, hr⟩ := rotation_key_set_decode param _ hp hn hes
  have hmnd : ((mapassign_all [] (wire_entries (pre ++ (g, k) :: post))).map Prod.fst).Nodup :=
    mapassign_all_keys_nodup _ _ (by simp)
  have hw : wire_entries (pre ++ (g, k) :: post)
      = wire_entries pre ++ (g, k.wire) :: wire_entries post := by
    simp [wire_entries]
  have hkeys : ∀ l, (wire_entries l).map Prod.fst = l.map Prod.fst := by
    intro l; simp [wire_entries, Function.comp_def]
  have hmem : g ∈ (mapassign_all [] (wire_entries (pre ++ (g, k) :: post))).map Prod.fst := by
    rw [mem_keys_mapassign_all, hkeys]
    left
    simp
  refine ⟨_, r, hr, List.count_eq_one_of_mem hmnd hmem, ?_, ?_⟩
  · rw [hw]
    exact mapaccess_mapassign_all_last _ _ _ _ _ (by rw [hkeys]; exact hlast)
  · have hsub : (mapassign_all [] (wire_entries (pre ++ (g, k) :: post))).map Prod.fst
        ⊆ (pre ++ post).map Prod.fst := by
      intro x hx
      rw [mem_keys_mapassign_all, hkeys] at hx
      rcases hx with hx | hx
      · simp only [List.map_append, List.map_cons, List.mem_append, List.mem_cons] at hx ⊢
        rcases hx with hx | hx | hx
        · exact Or.inl hx
        · rw [hx]; exact Or.inl hdup
        · exact Or.inr hx
      · simp at hx
    have hle := (List.Nodup.subperm hmnd hsub).length_le
    simp only [List.length_map, List.length_append, List.length_cons] at hle ⊢
    omega

set_option maxRecDepth 16384 in
theorem duplicate_galois_elements_last_write_wins_witness :
    (ParamOK example_param ∧
      (example_stream_pre ++ (3, ⟨example_gadget 7⟩) :: example_stream_post).length < 65536 ∧
      EntriesOK example_param
        (example_stream_pre ++ (3, ⟨example_gadget 7⟩) :: example_stream_post) ∧
      3 ∈ example_stream_pre.map Prod.fst ∧ 3 ∉ example_stream_post.map Prod.fst) ∧
    ∃ m r, BytesToRotationKeySet (NewReader (spec_rotation_bytes example_param
          (example_stream_pre ++ (3, ⟨example_gadget 7⟩) :: example_stream_post)))
        = some (⟨m⟩, r) ∧
      (m.map Prod.fst).count 3 = 1 ∧ mapaccess m 3 = some (SwitchingKey.wire ⟨example_gadget 7⟩) ∧
      m.length < (example_stream_pre ++ (3, ⟨example_gadget 7⟩) :: example_stream_post).length :=
  ⟨by decide, duplicate_galois_elements_last_write_wins example_param example_stream_pre
    example_stream_post 3 ⟨example_gadget 7⟩ (by decide) (by decide) (by decide) (by decide)
    (by decide)⟩

/-- C25 (counterexample). With `bit_length = 11` the array `[2048, 0]` has exactly one value
that does not fit, at index 0, yet the value at index 1 is read back as 1, not 0: the writer
keeps the whole byte `byte(x)` as the carry byte, and the bit of 2048 above the 11 packed ones
is OR-ed into the low bit of the next value. -/
theorem out_of_range_value_corrupts_its_successor :
    ¬ (2048 < 2 ^ 11) ∧ 0 < 2 ^ 11 ∧
      (bytes_to_component (NewReader (component_to_bytes [2048, 0] 11 [])) 11 2).2 = [0, 1] := by
  decide

/-- C25 (amended). An out-of-range value corrupts at most itself and its immediate successor:
for every `bit_length` up to 64 (in particular every one in 1..63) and every array
`pre ++ x :: rest` in which all values other than `x` fit in `bit_length` bits (`x` itself is
arbitrary), decoding the output of `component_to_bytes` with `bytes_to_component` yields as many
values as were written, and `dest[j] = src[j]` for every index `j` other than `i` and `i + 1`,
where `i` is the index of `x`. -/
theorem out_of_range_value_reaches_only_its_successor (bl : Nat) (pre rest : List Nat) (x : Nat)
    (hbl : bl ≤ 64) (hpre : ∀ v ∈ pre, v < 2 ^ bl) (hrest : ∀ v ∈ rest, v < 2 ^ bl) :
    (bytes_to_component (NewReader (component_to_bytes (pre ++ x :: rest) bl [])) bl
        (pre ++ x :: rest).length).2.length = (pre ++ x :: rest).length ∧
    ∀ j, j ≠ pre.length → j ≠ pre.length + 1 →
      (bytes_to_component (NewReader (component_to_bytes (pre ++ x :: rest) bl [])) bl
        (pre ++ x :: rest).length).2[j]? = (pre ++ x :: rest)[j]? := by
  obtain ⟨g1, g2⟩ := bytes_to_component_clean bl hbl (pre ++ x :: rest)
  refine ⟨g1, fun j hj hj1 => ?_⟩
  have hfit : ∀ k v, k ≠ pre.length → (pre ++ x :: rest)[k]? = some v → v < 2 ^ bl := by
    intro k v hk hv
    rcases Nat.lt_or_ge k pre.length with hlt | hge
    · rw [List.getElem?_append_left hlt] at hv
      exact hpre v (List.getElem?_mem hv)
    · rw [List.getElem?_append_right hge] at hv
      obtain ⟨m, hm⟩ : ∃ m, k - pre.length = m + 1 := ⟨k - pre.length - 1, by omega⟩
      rw [hm, List.getElem?_cons_succ] at hv
      exact hrest v (List.getElem?_mem hv)
  cases hsrc : (pre ++ x :: rest)[j]? with
  | none =>
    have hlen : (pre ++ x :: rest).length ≤ j := by
      rcases Nat.lt_or_ge j (pre ++ x :: rest).length with h1 | h1
      · rw [List.getElem?_eq_getElem h1] at hsrc; cases hsrc
      · exact h1
    exact List.getElem?_eq_none (by rw [g1]; exact hlen)
  | some v =>
    exact g2 j v hsrc (hfit j v hj hsrc)
      (fun p hpos hp => hfit (j - 1) p (by omega) hp)

theorem out_of_range_value_reaches_only_its_successor_witness :
    (7 ≤ 64 ∧ (∀ v ∈ [1], v < 2 ^ 7) ∧ ∀ v ∈ [0, 5, 9], v < 2 ^ 7) ∧
    ((bytes_to_component (NewReader (component_to_bytes ([1] ++ 255 :: [0, 5, 9]) 7 [])) 7
        ([1] ++ 255 :: [0, 5, 9]).length).2.length = ([1] ++ 255 :: [0, 5, 9]).length ∧
    ∀ j, j ≠ [1].length → j ≠ [1].length + 1 →
      (bytes_to_component (NewReader (component_to_bytes ([1] ++ 255 :: [0, 5, 9]) 7 [])) 7
        ([1] ++ 255 :: [0, 5, 9]).length).2[j]? = ([1] ++ 255 :: [0, 5, 9])[j]?) :=
  ⟨by decide, out_of_range_value_reaches_only_its_successor 7 [1] [0, 5, 9] 255 (by decide)
    (by decide) (by decide)⟩

/-- C26. The bit-length table entry is minimal and sufficient: for every chain of which the
encoders tabulate the first `L+1` moduli and every odd modulus `q = chain[j] ≥ 3` among them (a
`uint64`), the byte written for it is `bits.Len64(q)`, every residue in `[0, q)` is smaller than
`2 ^ Len64(q)`, and no smaller `b` has every residue in `[0, q)` smaller than `2 ^ b`. -/
theorem table_entry_minimal_and_sufficient (chain : List Nat) (L j : Nat)
    (hlen : L + 1 ≤ chain.length) (hj : j ≤ L) (hodd : chain.getD j 0 % 2 = 1)
    (h3 : 3 ≤ chain.getD j 0) (h64 : chain.getD j 0 < 2 ^ 64) :
    ∃ t, q_bit_lengths_of chain (L + 1) 0 = some t ∧ write_table [] t = t ∧
      t.getD j 0 = Len64 (chain.getD j 0) ∧
      (∀ r, r < chain.getD j 0 → r < 2 ^ t.getD j 0) ∧
      ∀ b, (∀ r, r < chain.getD j 0 → r < 2 ^ b) → t.getD j 0 ≤ b := by
  have hentry : (spec_table chain L).getD j 0 = Len64 (chain.getD j 0) := by
    simp [spec_table, List.getD_eq_getElem?_getD, List.getElem?_range (by omega : j < L + 1)]
  refine ⟨spec_table chain L, q_bit_lengths_of_spec_table chain L hlen, ?_, hentry, ?_⟩
  · rw [write_table_eq _ _ (spec_table_lt _ _)]; rfl
  · rw [hentry]
    exact Len64_minimal _ hodd h3 h64

theorem table_entry_minimal_and_sufficient_witness :
    (1 + 1 ≤ [257, 65537].length ∧ 1 ≤ 1 ∧ [257, 65537].getD 1 0 % 2 = 1 ∧
      3 ≤ [257, 65537].getD 1 0 ∧ [257, 65537].getD 1 0 < 2 ^ 64) ∧
    ∃ t, q_bit_lengths_of [257, 65537] (1 + 1) 0 = some t ∧ write_table [] t = t ∧
      t.getD 1 0 = Len64 ([257, 65537].getD 1 0) ∧
      (∀ r, r < [257, 65537].getD 1 0 → r < 2 ^ t.getD 1 0) ∧
      ∀ b, (∀ r, r < [257, 65537].getD 1 0 → r < 2 ^ b) → t.getD 1 0 ≤ b :=
  ⟨by decide, table_entry_minimal_and_sufficient [257, 65537] 1 1 (by decide) (by decide)
    (by decide) (by decide) (by decide)⟩

/-- C27. Exact packing for moduli of at least 8 bits: for every `bit_length` in 8..64, every
`N ≥ 0` and every array `src` of `N` values smaller than `2 ^ bit_length`, `component_to_bytes`
appends to the earlier output `w` exactly `ceil(N * bit_length / 8)` bytes, in which bit `k` of
value `i` sits at absolute bit position `i * bit_length + k` (least-significant bit first within
each byte) and every bit from position `N * bit_length` on, the unused high bits of the last
byte among them, is zero. -/
theorem exact_packing (bl : Nat) (src : List Nat) (w : Writer) (h8 : 8 ≤ bl) (h64 : bl ≤ 64)
    (hsrc : ∀ x ∈ src, x < 2 ^ bl) :
    ∃ out, component_to_bytes src bl w = w ++ out ∧
      out.length = (src.length * bl + 7) / 8 ∧
      (∀ i k, i < src.length → k < bl → bit_at out (i * bl + k) = (src.getD i 0).testBit k) ∧
      ∀ p, src.length * bl ≤ p → bit_at out p = false := by
  obtain ⟨e1, e2, e3⟩ := component_to_bytes_le_value bl h8 h64 src hsrc
  refine ⟨component_to_bytes src bl [], component_to_bytes_append src bl w, e2, ?_, ?_⟩
  · intro i k _ hk
    rw [bit_at_eq_testBit _ e3, e1, pack_value_testBit bl src hsrc i k hk]
  · intro p hp
    rw [bit_at_eq_testBit _ e3, e1]
    exact Nat.testBit_eq_false_of_lt
      (lt_of_lt_of_le (pack_value_lt bl src hsrc) (Nat.pow_le_pow_right (by norm_num) hp))

theorem exact_packing_witness :
    (8 ≤ 11 ∧ 11 ≤ 64 ∧ ∀ x ∈ [2047, 1, 1024], x < 2 ^ 11) ∧
    ∃ out, component_to_bytes [2047, 1, 1024] 11 [9] = [9] ++ out ∧
      out.length = ([2047, 1, 1024].length * 11 + 7) / 8 ∧
      (∀ i k, i < [2047, 1, 1024].length → k < 11 →
        bit_at out (i * 11 + k) = ([2047, 1, 1024].getD i 0).testBit k) ∧
      ∀ p, [2047, 1, 1024].length * 11 ≤ p → bit_at out p = false :=
  ⟨by decide, exact_packing 11 [2047, 1, 1024] [9] (by decide) (by decide) (by decide)⟩

/-- C28. Lossy round trip when rounding does not overflow: for every level-0 polynomial with
limb `limb`, table entry `b = q[0] ≤ 64` and drop-bits `d` with `1 ≤ d < b`, if every
coefficient `c` satisfies `c < 2^b` and `(c >> d) + ((c >> (d-1)) & 1) < 2^(b-d)`, then
`poly_to_bytes` succeeds and `bytes_to_poly` of its output returns the polynomial whose
coefficients are `((c >> d) + ((c >> (d-1)) & 1)) << d`, each of which differs from `c` by at
most `2^(d-1)`. -/
theorem lossy_roundtrip_without_overflow (limb : List Nat) (ntt mform : Bool) (q : List Nat)
    (b d : Nat) (P0 : Poly) (hq : q[0]? = some b) (hb : b ≤ 64) (hd1 : 1 ≤ d) (hdb : d < b)
    (hc : ∀ c ∈ limb, c < 2 ^ b ∧ (c >>> d) + ((c >>> (d - 1)) &&& 1) < 2 ^ (b - d)) :
    ∃ out r, poly_to_bytes ⟨[limb], ntt, mform⟩ q d [] = some (⟨[limb], ntt, mform⟩, out) ∧
      bytes_to_poly (NewReader out) limb.length 0 q P0
        = some (r, ⟨[limb.map (fun c => ((c >>> d) + ((c >>> (d - 1)) &&& 1)) <<< d)], ntt,
            mform⟩) ∧
      ∀ c ∈ limb,
        ((c >>> d) + ((c >>> (d - 1)) &&& 1)) <<< d ≤ c + 2 ^ (d - 1) ∧
          c ≤ (((c >>> d) + ((c >>> (d - 1)) &&& 1)) <<< d) + 2 ^ (d - 1) := by
  have hraw : ∀ c ∈ limb, quantize d c = (c >>> d) + ((c >>> (d - 1)) &&& 1) := by
    intro c hcm
    unfold quantize
    apply Nat.mod_eq_of_lt
    exact lt_of_lt_of_le (hc c hcm).2 (Nat.pow_le_pow_right (by norm_num) (by omega))
  obtain ⟨out, r, e1, e2⟩ := lossy_poly_roundtrip limb ntt mform q b d P0 hq hb hd1 hdb
    (fun c hcm => by rw [hraw c hcm]; exact (hc c hcm).2)
  have hmap : limb.map (fun c => quantize d c <<< d)
      = limb.map (fun c => ((c >>> d) + ((c >>> (d - 1)) &&& 1)) <<< d) := by
    apply List.map_congr_left
    intro c hcm
    rw [hraw c hcm]
  rw [hmap] at e2
  refine ⟨out, r, e1, e2, fun c hcm => ?_⟩
  have hc64 : c < 2 ^ 64 :=
    lt_of_lt_of_le (hc c hcm).1 (Nat.pow_le_pow_right (by norm_num) hb)
  rw [← hraw c hcm, quantize_eq c d hc64 hd1]
  exact round_to_nearest_error c d hd1

theorem lossy_roundtrip_without_overflow_witness :
    ([13][0]? = some 13 ∧ 13 ≤ 64 ∧ 1 ≤ 2 ∧ 2 < 13 ∧
      ∀ c ∈ [1, 2, 3, 4, 5, 6, 7, 8189],
        c < 2 ^ 13 ∧ (c >>> 2) + ((c >>> (2 - 1)) &&& 1) < 2 ^ (13 - 2)) ∧
    ∃ out r, poly_to_bytes ⟨[[1, 2, 3, 4, 5, 6, 7, 8189]], true, false⟩ [13] 2 []
        = some (⟨[[1, 2, 3, 4, 5, 6, 7, 8189]], true, false⟩, out) ∧
      bytes_to_poly (NewReader out) [1, 2, 3, 4, 5, 6, 7, 8189].length 0 [13] Poly.new
        = some (r, ⟨[[1, 2, 3, 4, 5, 6, 7, 8189].map
            (fun c => ((c >>> 2) + ((c >>> (2 - 1)) &&& 1)) <<< 2)], true, false⟩) ∧
      ∀ c ∈ [1, 2, 3, 4, 5, 6, 7, 8189],
        ((c >>> 2) + ((c >>> (2 - 1)) &&& 1)) <<< 2 ≤ c + 2 ^ (2 - 1) ∧
          c ≤ (((c >>> 2) + ((c >>> (2 - 1)) &&& 1)) <<< 2) + 2 ^ (2 - 1) :=
  ⟨by decide, lossy_roundtrip_without_overflow [1, 2, 3, 4, 5, 6, 7, 8189] true false [13] 13 2
    Poly.new (by decide) (by decide) (by decide) (by decide) (by decide)⟩

/-- C29. Only one- and two-component ciphertexts can be encoded. For every ciphertext with
three or more components `CiphertextToBytes`, and with it `bfv.Ciphertext.ToBytes`, does not
complete, whatever the two drop-bit arguments are; when the components have `L+1` limbs each
and the parameter set has at least `L+1` moduli, the header and the first two components are
written and the failure is the lookup of index 2 in the two-entry drop-bit table. For
ciphertexts with one or two such components the encoding completes. -/
theorem only_one_or_two_components_encode (ct : Ciphertext) (param : Parameters) (L : Nat)
    (d0 d1 : Int) (w : Writer) (hQlen : L + 1 ≤ param.Q.length)
    (hP : ∀ P ∈ ct.Value, P.Coeffs.length = L + 1) :
    (3 ≤ ct.Value.length →
      CiphertextToBytes ct param d0 d1 w = none ∧
      bfv.Ciphertext.ToBytes ⟨ct⟩ param d0 d1 = none ∧
      (∃ t w2, q_bit_lengths_of param.Q (L + 1) 0 = some t ∧
        ciphertext_polys_to_bytes t [(d0 % 256).toNat, (d1 % 256).toNat] (ct.Value.take 2) 0
          (write_table (WriteByte (WriteByte (WriteUint32 w param.N) (ct.Value.length % 256))
            (L % 256)) t) = some w2) ∧
      [(d0 % 256).toNat, (d1 % 256).toNat][2]? = none) ∧
    (1 ≤ ct.Value.length → ct.Value.length ≤ 2 →
      ∃ out, CiphertextToBytes ct param d0 d1 w = some out) := by
  have htab := q_bit_lengths_of_spec_table param.Q L hQlen
  constructor
  · intro h3
    have hfirst := ciphertext_polys_to_bytes_layout L (spec_table param.Q L)
      [(d0 % 256).toNat, (d1 % 256).toNat] (ct.Value.take 2) 0
      (by simp) (by rw [spec_table_length])
      (fun P hP2 => hP P (List.mem_of_mem_take hP2))
      (write_table (WriteByte (WriteByte (WriteUint32 w param.N) (ct.Value.length % 256))
        (L % 256)) (spec_table param.Q L))
    exact ⟨CiphertextToBytes_third ct param d0 d1 w h3,
      CiphertextToBytes_third ct param d0 d1 [] h3, ⟨_, _, htab, hfirst⟩, rfl⟩
  · intro h1 h2
    obtain ⟨Ps⟩ := ct
    simp only at h1 h2 hP
    have hlevel : Ciphertext.Level ⟨Ps⟩ = some L := by
      cases Ps with
      | nil => simp at h1
      | cons P0 Ps2 =>
        have := hP P0 (List.mem_cons_self _ _)
        simp [Ciphertext.Level, Poly.Level, this]
    simp only [CiphertextToBytes, hlevel, htab]
    exact ⟨_, ciphertext_polys_to_bytes_layout L _ _ Ps 0 (by simp; omega)
      (by rw [spec_table_length]) hP _⟩

set_option maxRecDepth 8192 in
theorem only_one_or_two_components_encode_witness :
    (0 + 1 ≤ [257].length ∧
      ∀ P ∈ ([⟨[[1, 2]], true, false⟩, ⟨[[3, 4]], false, true⟩, ⟨[[5, 6]], true, true⟩]
        : List Poly), P.Coeffs.length = 0 + 1) ∧
    ((3 ≤ ([⟨[[1, 2]], true, false⟩, ⟨[[3, 4]], false, true⟩, ⟨[[5, 6]], true, true⟩]
        : List Poly).length →
      CiphertextToBytes
          ⟨[⟨[[1, 2]], true, false⟩, ⟨[[3, 4]], false, true⟩, ⟨[[5, 6]], true, true⟩]⟩
          ⟨[257], [], 2⟩ 0 0 [] = none ∧
      bfv.Ciphertext.ToBytes
          ⟨⟨[⟨[[1, 2]], true, false⟩, ⟨[[3, 4]], false, true⟩, ⟨[[5, 6]], true, true⟩]⟩⟩
          ⟨[257], [], 2⟩ 0 0 = none ∧
      (∃ t w2, q_bit_lengths_of [257] (0 + 1) 0 = some t ∧
        ciphertext_polys_to_bytes t [((0 : Int) % 256).toNat, ((0 : Int) % 256).toNat]
          (([⟨[[1, 2]], true, false⟩, ⟨[[3, 4]], false, true⟩, ⟨[[5, 6]], true, true⟩]
            : List Poly).take 2) 0
          (write_table (WriteByte (WriteByte (WriteUint32 [] 2)
            (([⟨[[1, 2]], true, false⟩, ⟨[[3, 4]], false, true⟩, ⟨[[5, 6]], true, true⟩]
              : List Poly).length % 256)) (0 % 256)) t) = some w2) ∧
      [((0 : Int) % 256).toNat, ((0 : Int) % 256).toNat][2]? = none) ∧
    (1 ≤ ([⟨[[1, 2]], true, false⟩, ⟨[[3, 4]], false, true⟩, ⟨[[5, 6]], true, true⟩]
        : List Poly).length →
      ([⟨[[1, 2]], true, false⟩, ⟨[[3, 4]], false, true⟩, ⟨[[5, 6]], true, true⟩]
        : List Poly).length ≤ 2 →
      ∃ out, CiphertextToBytes
          ⟨[⟨[[1, 2]], true, false⟩, ⟨[[3, 4]], false, true⟩, ⟨[[5, 6]], true, true⟩]⟩
          ⟨[257], [], 2⟩ 0 0 [] = some out)) :=
  ⟨by decide, only_one_or_two_components_encode
    ⟨[⟨[[1, 2]], true, false⟩, ⟨[[3, 4]], false, true⟩, ⟨[[5, 6]], true, true⟩]⟩
    ⟨[257], [], 2⟩ 0 0 0 [] (by decide) (by decide)⟩

/-- C30. CKKS ciphertext encoding is the scale followed by the plain ciphertext encoding: for
every CKKS ciphertext `ct` with one or two well-formed components (level `L ≤ 254`),
`ct.ToBytes(param)` is the 8-byte little-endian bit pattern of `ct.Scale` followed by exactly
the bytes `rlwe.CiphertextToBytes(ct.Ciphertext, param, 0, 0)` writes, and `FromBytes` applied
to that output, on any receiver `old`, sets `Scale` to the identical 64-bit pattern and the
ciphertext to what `BytesToCiphertext` returns for the remaining bytes, which is `ct.Ciphertext`
itself: the polynomials are restored without loss, at level 0 too. -/
theorem ckks_ciphertext_encoding (ct old : ckks.Ciphertext) (param : Parameters) (L : Nat)
    (hcount : 1 ≤ ct.Ciphertext.Value.length ∧ ct.Ciphertext.Value.length ≤ 2) (hL : L ≤ 254)
    (hN : param.N < 2 ^ 32) (hQlen : L + 1 ≤ param.Q.length) (hQ : ∀ q ∈ param.Q, q < 2 ^ 64)
    (hP : ∀ P ∈ ct.Ciphertext.Value, PolyOK param L P) (hscale : ct.Scale < 2 ^ 64) :
    ∃ out, CiphertextToBytes ct.Ciphertext param 0 0 [] = some out ∧
      ct.ToBytes param = some (spec_uint64 ct.Scale ++ out) ∧
      old.FromBytes (spec_uint64 ct.Scale ++ out) = some ⟨ct.Ciphertext, ct.Scale⟩ ∧
      ∃ r, BytesToCiphertext (NewReader out) = some (ct.Ciphertext, r) := by
  have hlimbs : ∀ P ∈ ct.Ciphertext.Value, P.Coeffs.length = L + 1 := fun P hPm => (hP P hPm).1
  have hlay := fun w => CiphertextToBytes_layout ct.Ciphertext param L 0 0 w hcount hL hN hQlen
    hlimbs
  have hrt := fun w => ciphertext_roundtrip_stream ct.Ciphertext param L w hcount hL hN hQlen hQ hP
  have hdec : ∀ pre : List Nat, ∃ r, BytesToCiphertext
      ⟨pre ++ spec_ciphertext_bytes ct.Ciphertext param L
        [((0 : Int) % 256).toNat, ((0 : Int) % 256).toNat], pre.length⟩
        = some (ct.Ciphertext, r) := by
    intro pre
    obtain ⟨out2, e1, e2⟩ := hrt pre
    rw [hlay pre] at e1
    have ho : out2 = spec_ciphertext_bytes ct.Ciphertext param L
        [((0 : Int) % 256).toNat, ((0 : Int) % 256).toNat] := by
      simpa using e1.symm
    subst ho
    obtain ⟨r, e3⟩ := e2 []
    rw [List.append_nil] at e3
    exact ⟨r, e3⟩
  refine ⟨spec_ciphertext_bytes ct.Ciphertext param L
    [((0 : Int) % 256).toNat, ((0 : Int) % 256).toNat], by rw [hlay []]; rfl, ?_, ?_, ?_⟩
  · simp only [ckks.Ciphertext.ToBytes, WriteUint64_eq _ _ hscale, hlay, List.nil_append]
  · have h0 := At_NewReader (spec_uint64 ct.Scale ++ spec_ciphertext_bytes ct.Ciphertext param L
      [((0 : Int) % 256).toNat, ((0 : Int) % 256).toNat])
    obtain ⟨r1, e1, h1⟩ := ReadUint64_next _ ct.Scale old.Scale _ hscale h0
    obtain ⟨pre, rfl⟩ := At_split r1 _ h1
    obtain ⟨r2, e2⟩ := hdec pre
    simp only [ckks.Ciphertext.FromBytes, e1, e2]
  · obtain ⟨r, e⟩ := hdec []
    exact ⟨r, by simpa [NewReader] using e⟩

set_option maxRecDepth 8192 in
theorem ckks_ciphertext_encoding_witness :
    ((1 ≤ example_ckks.Ciphertext.Value.length ∧ example_ckks.Ciphertext.Value.length ≤ 2) ∧
      1 ≤ 254 ∧ 4 < 2 ^ 32 ∧ 1 + 1 ≤ [257, 65537].length ∧ (∀ q ∈ [257, 65537], q < 2 ^ 64) ∧
      (∀ P ∈ example_ckks.Ciphertext.Value, PolyOK ⟨[257, 65537], [], 4⟩ 1 P) ∧
      example_ckks.Scale < 2 ^ 64) ∧
    ∃ out, CiphertextToBytes example_ckks.Ciphertext ⟨[257, 65537], [], 4⟩ 0 0 [] = some out ∧
      example_ckks.ToBytes ⟨[257, 65537], [], 4⟩ = some (spec_uint64 example_ckks.Scale ++ out) ∧
      (⟨⟨[]⟩, 7⟩ : ckks.Ciphertext).FromBytes (spec_uint64 example_ckks.Scale ++ out)
        = some ⟨example_ckks.Ciphertext, example_ckks.Scale⟩ ∧
      ∃ r, BytesToCiphertext (NewReader out) = some (example_ckks.Ciphertext, r) :=
  ⟨by decide, ckks_ciphertext_encoding example_ckks ⟨⟨[]⟩, 7⟩ ⟨[257, 65537], [], 4⟩ 1
    (by decide) (by decide) (by decide) (by decide) (by decide) (by decide) (by decide)⟩

end BitStream
